import Mathlib

/-
  Verification of the cache package of mmihic/golib.

  The embedding models the LRU cache shard (src/pkg/cache/cache.go, the
  lruCache implementation), the sharded cache (src/pkg/cache/sharded_cache.go)
  and the builder (cache.New plus the option functions).

  Modelling decisions, all taken from the source:
  * time.Time instants and time.Duration values are Int; the zero time.Time
    is 0 (t.IsZero() becomes t = 0, a.After(b) becomes a > b,
    t.Add(d) becomes t + d).
  * the int64 statistics counters are Nat: they start at zero and are only
    ever incremented by one, so no overflow is reachable in any modelled run.
  * Go pointers to entry records become indices into an append-only arena
    (the `entries` field); the byKey map becomes an association list of
    (key, index); the byAccess genericlist becomes the list of indices in
    recency order, head = front = most recently used.  The entry.element
    pointer is modelled by the hasElem flag (element ≠ nil) together with
    membership of the index in byAccess.
  * the one-shot `loading` channel of an entry becomes a token (a Nat drawn
    from a counter); closing the channel adds the token to the `closed` set.
  * the injectable clockwork.Clock becomes the `now` field; a fake-clock
    Advance is an explicit operation.
-/

set_option maxHeartbeats 1000000

namespace GolibCache

/-- Result of one invocation of a LoadFn: `(V, time.Time, error)` where the
error is nil, ErrNotFound, or any other error (`failure`). -/
inductive LoadRes (V : Type) where
  | ok (v : V) (expiry : Int)
  | notFound
  | failure
deriving DecidableEq, Repr

/-- The six monotonic counters of the `stats` field of an lruCache
(`CurrentSize` is computed at snapshot time, see `statisticsLocked`). -/
structure Stats where
  hits : Nat
  misses : Nat
  loadAttempts : Nat
  loadFailures : Nat
  expirations : Nat
  evictions : Nat
deriving DecidableEq, Repr

/-- The all-zero statistics of a freshly built cache. -/
def Stats.zero : Stats := ⟨0, 0, 0, 0, 0, 0⟩

/-- The cache.Statistics struct: the snapshot returned by `Statistics()`,
with CurrentSize filled in from the recency-list length. -/
structure Statistics where
  hits : Nat
  misses : Nat
  loadAttempts : Nat
  loadFailures : Nat
  expirations : Nat
  evictions : Nat
  currentSize : Nat
deriving DecidableEq, Repr

/-- The entry[K, V] record of cache.go.  `val = none` models the zero V of a
freshly allocated placeholder (the value is never observed before putLocked
stores one).  `loading = some tok` models a non-nil loading channel with
identity `tok`; `hasElem` models `element ≠ nil`.  A placeholder's `key`
field is the zero K in Go; the model stores the key being loaded instead,
which is sound because the code never reads `entry.k` before putLocked sets
it (it is read only in the expired path, which requires `loading = nil`, and
in evictToSize, which requires the entry to be listed; both happen only
after a putLocked on the entry). -/
structure Entry (K V : Type) where
  key : K
  val : Option V
  expiry : Int
  loading : Option Nat
  hasElem : Bool
deriving DecidableEq, Repr

/-- The entry read out of the arena at an out-of-range index; never reached
from states where the map is well formed. -/
def Entry.blank [Inhabited K] : Entry K V := ⟨default, none, 0, none, false⟩

/-- The lruCache[K, V] struct (plus the bookkeeping that models pointers,
channels and the clock, see the header comment). -/
structure LruCache (K V : Type) where
  byKey : List (K × Nat)
  entries : List (Entry K V)
  byAccess : List Nat
  closed : List Nat
  nextTok : Nat
  maxSize : Int
  stats : Stats
  defaultTTL : Int
  loadFn : Option (K → LoadRes V)
  now : Int

/-- Map lookup `byKey[k]`. -/
def lookupKey [DecidableEq K] (k : K) (m : List (K × Nat)) : Option Nat :=
  (m.find? (fun p => decide (p.1 = k))).map Prod.snd

/-- Map deletion `delete(byKey, k)`. -/
def eraseKey [DecidableEq K] (k : K) (m : List (K × Nat)) : List (K × Nat) :=
  m.filter (fun p => decide (p.1 ≠ k))

/-- Map assignment `byKey[k] = id`. -/
def insertKey [DecidableEq K] (k : K) (id : Nat) (m : List (K × Nat)) : List (K × Nat) :=
  (k, id) :: eraseKey k m

/-- Dereference an entry pointer (arena index). -/
def getEntry [Inhabited K] (s : LruCache K V) (id : Nat) : Entry K V :=
  s.entries.getD id Entry.blank

/-- Overwrite the record an entry pointer refers to. -/
def setEntry (s : LruCache K V) (id : Nat) (e : Entry K V) : LruCache K V :=
  { s with entries := s.entries.set id e }

/-- moveToFrontLocked: PushFront when the entry has no element yet, else
MoveToFront of the existing element. -/
def moveToFrontLocked [Inhabited K] (s : LruCache K V) (id : Nat) : LruCache K V :=
  let e := getEntry s id
  if e.hasElem then
    { s with byAccess := id :: s.byAccess.erase id }
  else
    { setEntry s id { e with hasElem := true } with byAccess := id :: s.byAccess }

/-- One iteration of the evictToSize loop body: back entry is unlinked and
its key removed from the map, the evictions counter is incremented. -/
def evictStep [Inhabited K] [DecidableEq K] (s : LruCache K V) (back : Nat) : LruCache K V :=
  { s with byAccess := s.byAccess.dropLast,
           byKey := eraseKey (getEntry s back).key s.byKey,
           stats := { s.stats with evictions := s.stats.evictions + 1 } }

/-- The evictToSize loop, with explicit fuel (each iteration shortens
byAccess, so byAccess.length iterations always suffice).  When the list is
already empty but still longer than a negative maxSize, Go dereferences a
nil Back() and panics; that branch returns the state unchanged and is
unreachable whenever 0 ≤ maxSize. -/
def evictFuel [Inhabited K] [DecidableEq K] : Nat → LruCache K V → LruCache K V
  | 0, s => s
  | fuel + 1, s =>
    if (s.byAccess.length : Int) > s.maxSize then
      match s.byAccess.getLast? with
      | none => s
      | some back => evictFuel fuel (evictStep s back)
    else s

/-- evictToSize: evict back entries until the recency list fits maxSize. -/
def evictToSize [Inhabited K] [DecidableEq K] (s : LruCache K V) : LruCache K V :=
  evictFuel s.byAccess.length s

/-- The expiry stored by putLocked: an explicit non-zero expiry wins, else a
non-zero default TTL gives clock.Now().Add(defaultTTL), else the entry's
previous expiry is left untouched (`oldExpiry` is 0 for a fresh entry). -/
def newExpiry (s : LruCache K V) (expiry oldExpiry : Int) : Int :=
  if expiry ≠ 0 then expiry
  else if s.defaultTTL ≠ 0 then s.now + s.defaultTTL
  else oldExpiry

/-- putLocked: reuse the mapped entry if present, else allocate a fresh one
and map it; update expiry, key and value; relocate to the front; evict while
over capacity.  (Go guards the evictToSize call with `Len() > maxSize`; the
loop itself re-checks the same condition, so the unconditional call is
equivalent.) -/
def putLocked [Inhabited K] [DecidableEq K] (k : K) (v : V) (expiry : Int)
    (s : LruCache K V) : LruCache K V :=
  match lookupKey k s.byKey with
  | some id =>
    let e := getEntry s id
    let s := setEntry s id
      { e with expiry := newExpiry s expiry e.expiry, key := k, val := some v }
    evictToSize (moveToFrontLocked s id)
  | none =>
    let id := s.entries.length
    let e : Entry K V :=
      { key := k, val := some v, expiry := newExpiry s expiry 0,
        loading := none, hasElem := false }
    let s := { s with entries := s.entries ++ [e], byKey := insertKey k id s.byKey }
    evictToSize (moveToFrontLocked s id)

/-- What the locked prefix of loadLocked decided, up to the point where the
mutex is released around the loadFn call. -/
inductive LoadStart where
  | miss
  | started (id tok : Nat)
deriving DecidableEq, Repr

/-- The locked prefix of loadLocked: with no loadFn count a miss and fail
ErrNotFound; otherwise install a loading placeholder under the key, count a
load attempt, and release the mutex to invoke the loader. -/
def loadLocked [Inhabited K] [DecidableEq K] (k : K) (s : LruCache K V) :
    LruCache K V × LoadStart :=
  match s.loadFn with
  | none =>
    ({ s with stats := { s.stats with misses := s.stats.misses + 1 } }, .miss)
  | some _ =>
    let id := s.entries.length
    let tok := s.nextTok
    ({ s with
        entries := s.entries ++
          [{ key := k, val := none, expiry := 0, loading := some tok, hasElem := false }],
        byKey := insertKey k id s.byKey,
        nextTok := tok + 1,
        stats := { s.stats with loadAttempts := s.stats.loadAttempts + 1 } },
     .started id tok)

/-- The locked suffix of loadLocked, after the loadFn returned `res`: close
the loading channel, clear the loading field; on error remove the key from
the map and count a miss (ErrNotFound) or a load failure (other errors); on
success store the loaded value via putLocked. -/
def loadComplete [Inhabited K] [DecidableEq K] (k : K) (id tok : Nat) (res : LoadRes V)
    (s : LruCache K V) : LruCache K V :=
  let e := getEntry s id
  let s := { setEntry s id { e with loading := none } with closed := tok :: s.closed }
  match res with
  | .ok v expiry => putLocked k v expiry s
  | .notFound =>
    { s with byKey := eraseKey k s.byKey,
             stats := { s.stats with misses := s.stats.misses + 1 } }
  | .failure =>
    { s with byKey := eraseKey k s.byKey,
             stats := { s.stats with loadFailures := s.stats.loadFailures + 1 } }

/-- What one locked section of Get decided. -/
inductive GetSection (V : Type) where
  | hit (v : Option V)
  | missNoLoader
  | waitOn (tok : Nat)
  | startLoad (id tok : Nat)
deriving DecidableEq, Repr

/-- The locked section of Get: lookup; if absent, loadLocked; if present and
loading, wait on the channel; if present and expired (non-zero expiry with
now strictly after it) count an expiration, drop the entry, and loadLocked;
otherwise relocate to the front, count a hit, and return the value.  This is
Get plus one iteration of the accessValueLocked loop; a woken waiter
re-executes exactly this section. -/
def getLocked [Inhabited K] [DecidableEq K] (k : K) (s : LruCache K V) :
    LruCache K V × GetSection V :=
  match lookupKey k s.byKey with
  | none =>
    match loadLocked k s with
    | (s, .miss) => (s, .missNoLoader)
    | (s, .started id tok) => (s, .startLoad id tok)
  | some id =>
    let e := getEntry s id
    match e.loading with
    | some tok => (s, .waitOn tok)
    | none =>
      if e.expiry ≠ 0 ∧ s.now > e.expiry then
        let s := { s with
          stats := { s.stats with expirations := s.stats.expirations + 1 },
          byKey := eraseKey e.key s.byKey,
          byAccess := s.byAccess.erase id }
        match loadLocked k s with
        | (s, .miss) => (s, .missNoLoader)
        | (s, .started id2 tok) => (s, .startLoad id2 tok)
      else
        let s := moveToFrontLocked s id
        ({ s with stats := { s.stats with hits := s.stats.hits + 1 } },
         .hit (getEntry s id).val)

/-- How a single Get call returned.  `hit` carries the entry value as stored
(Option V, see Entry.val).  `blocked` marks the suspension points that a
single-threaded run never reaches. -/
inductive GetRes (V : Type) where
  | hit (v : Option V)
  | notFound
  | loaded (v : V)
  | loadNotFound
  | loadFailed
  | blocked
  | canceled
deriving DecidableEq, Repr

/-- A full single-threaded Get: the locked section, followed, when a load
was started, by the synchronous loadFn call and the completion section.
With no other thread the waitOn case is unreachable. -/
def seqGet [Inhabited K] [DecidableEq K] (k : K) (s : LruCache K V) :
    LruCache K V × GetRes V :=
  match getLocked k s with
  | (s, .hit v) => (s, .hit v)
  | (s, .missNoLoader) => (s, .notFound)
  | (s, .waitOn _) => (s, .blocked)
  | (s, .startLoad id tok) =>
    match s.loadFn with
    | none => (s, .blocked)
    | some f =>
      match f k with
      | .ok v expiry => (loadComplete k id tok (.ok v expiry) s, .loaded v)
      | .notFound => (loadComplete k id tok .notFound s, .loadNotFound)
      | .failure => (loadComplete k id tok .failure s, .loadFailed)

/-- One cache operation of a single-threaded run.  `advance` is a fake-clock
Advance between operations. -/
inductive Op (K V : Type) where
  | get (k : K)
  | put (k : K) (v : V)
  | putTTL (k : K) (v : V) (expiry : Int)
  | advance (d : Nat)

/-- Apply one operation (Get / Put / PutWithTTL / clock advance). -/
def applyOp [Inhabited K] [DecidableEq K] : Op K V → LruCache K V → LruCache K V
  | .get k, s => (seqGet k s).1
  | .put k v, s => putLocked k v 0 s
  | .putTTL k v expiry, s => putLocked k v expiry s
  | .advance d, s => { s with now := s.now + d }

/-- Run a sequence of operations. -/
def runOps [Inhabited K] [DecidableEq K] (ops : List (Op K V)) (s : LruCache K V) :
    LruCache K V :=
  ops.foldl (fun s op => applyOp op s) s

/-- Statistics(): snapshot the counters with CurrentSize = byAccess.Len(). -/
def statisticsLocked (s : LruCache K V) : Statistics :=
  { hits := s.stats.hits, misses := s.stats.misses,
    loadAttempts := s.stats.loadAttempts, loadFailures := s.stats.loadFailures,
    expirations := s.stats.expirations, evictions := s.stats.evictions,
    currentSize := s.byAccess.length }

/-- newLRUCache: the state of a freshly built shard. -/
def newLRUCache (maxSize defaultTTL : Int) (loadFn : Option (K → LoadRes V))
    (now : Int) : LruCache K V :=
  { byKey := [], entries := [], byAccess := [], closed := [], nextTok := 0,
    maxSize := maxSize, stats := Stats.zero, defaultTTL := defaultTTL,
    loadFn := loadFn, now := now }

/-- The expiry currently recorded for a key, if the key is mapped. -/
def entryExpiryOf [Inhabited K] [DecidableEq K] (s : LruCache K V) (k : K) : Option Int :=
  (lookupKey k s.byKey).map (fun id => (getEntry s id).expiry)

/-
  Interleaving semantics.  Every mutation of shard state happens with the
  mutex held; the mutex is released only around the loadFn call and while a
  waiter blocks on a loading channel.  A concurrent execution is therefore a
  sequence of atomic locked sections, one per scheduler action below.
-/

/-- The observable control state of one goroutine running a single cache
operation. -/
inductive TState (K V : Type) where
  | getStart (k : K)
  | waiting (k : K) (tok : Nat)
  | inLoad (k : K) (id tok : Nat)
  | putStart (k : K) (v : V) (expiry : Int)
  | halted (r : GetRes V)
  | haltedPut
deriving DecidableEq, Repr

/-- A whole system: the shard plus the goroutines operating on it. -/
structure Sys (K V : Type) where
  cache : LruCache K V
  threads : List (TState K V)

/-- One scheduler action: start a thread's locked section, wake a waiter
whose channel closed, cancel a waiter's context, deliver a loader result to
an in-flight load, or advance the fake clock.  The `finish` result is chosen
by the scheduler, modelling a loader whose answers may vary per call. -/
inductive Act (V : Type) where
  | start (i : Nat)
  | wake (i : Nat)
  | cancel (i : Nat)
  | finish (i : Nat) (res : LoadRes V)
  | tick (d : Nat)

/-- Run the locked section of Get for thread state purposes. -/
def runGetSection [Inhabited K] [DecidableEq K] (k : K) (s : LruCache K V) :
    LruCache K V × TState K V :=
  match getLocked k s with
  | (s, .hit v) => (s, .halted (.hit v))
  | (s, .missNoLoader) => (s, .halted .notFound)
  | (s, .waitOn tok) => (s, .waiting k tok)
  | (s, .startLoad id tok) => (s, .inLoad k id tok)

/-- The thread state an in-flight load halts in, given the loader result. -/
def loadHalt : LoadRes V → TState K V
  | .ok v _ => .halted (.loaded v)
  | .notFound => .halted .loadNotFound
  | .failure => .halted .loadFailed

/-- Apply one scheduler action; none when the action is not enabled (wrong
thread state, or waking a waiter whose channel is still open). -/
def applyAct [Inhabited K] [DecidableEq K] (a : Act V) (sys : Sys K V) :
    Option (Sys K V) :=
  match a with
  | .start i =>
    match sys.threads[i]? with
    | some (.getStart k) =>
      let p := runGetSection k sys.cache
      some ⟨p.1, sys.threads.set i p.2⟩
    | some (.putStart k v expiry) =>
      some ⟨putLocked k v expiry sys.cache, sys.threads.set i .haltedPut⟩
    | _ => none
  | .wake i =>
    match sys.threads[i]? with
    | some (.waiting k tok) =>
      if tok ∈ sys.cache.closed then
        let p := runGetSection k sys.cache
        some ⟨p.1, sys.threads.set i p.2⟩
      else none
    | _ => none
  | .cancel i =>
    match sys.threads[i]? with
    | some (.waiting _ _) => some ⟨sys.cache, sys.threads.set i (.halted .canceled)⟩
    | _ => none
  | .finish i res =>
    match sys.threads[i]? with
    | some (.inLoad k id tok) =>
      some ⟨loadComplete k id tok res sys.cache, sys.threads.set i (loadHalt res)⟩
    | _ => none
  | .tick d => some ⟨{ sys.cache with now := sys.cache.now + d }, sys.threads⟩

/-- One interleaving step. -/
def StepSys [Inhabited K] [DecidableEq K] (s1 s2 : Sys K V) : Prop :=
  ∃ a : Act V, applyAct a s1 = some s2

/-- Reachability under interleaving. -/
def ReachableSys [Inhabited K] [DecidableEq K] (s1 s2 : Sys K V) : Prop :=
  Relation.ReflTransGen StepSys s1 s2

/-- Run an explicit schedule of actions. -/
def runActs [Inhabited K] [DecidableEq K] (acts : List (Act V)) (sys : Sys K V) :
    Option (Sys K V) :=
  match acts with
  | [] => some sys
  | a :: rest =>
    match applyAct a sys with
    | some sys2 => runActs rest sys2
    | none => none

/-- A fresh system: a newly built shard plus the given goroutines. -/
def newSys (maxSize defaultTTL : Int) (loadFn : Option (K → LoadRes V)) (now : Int)
    (threads : List (TState K V)) : Sys K V :=
  ⟨newLRUCache maxSize defaultTTL loadFn now, threads⟩

/-
  The builder (cache.New with the recognized options) and the sharded cache.
  The clock type is abstract; `realClock` is the value New substitutes when
  no clock was injected.
-/

/-- cacheProperties: what New accumulated from its arguments before
dispatching.  `hashFn = none` models a nil hash function, `clock = none` a
nil clock. -/
structure CacheProperties (K V C : Type) where
  maxSize : Int
  defaultTTL : Int
  clock : Option C
  loadFn : Option (K → LoadRes V)
  hashFn : Option (K → Int)
  shardCount : Nat

/-- The recognized Option values: WithDefaultTTL, WithClock, WithLoadFn,
Sharded. -/
inductive BuildOpt (K V C : Type) where
  | withDefaultTTL (d : Int)
  | withClock (c : C)
  | withLoadFn (f : K → LoadRes V)
  | sharded (shardCount : Nat) (hashFn : Option (K → Int))

/-- Apply one option to the accumulated properties. -/
def applyBuildOpt (p : CacheProperties K V C) : BuildOpt K V C → CacheProperties K V C
  | .withDefaultTTL d => { p with defaultTTL := d }
  | .withClock c => { p with clock := some c }
  | .withLoadFn f => { p with loadFn := some f }
  | .sharded n h => { p with shardCount := n, hashFn := h }

/-- What newLRUCache keeps of the properties: maxSize, defaultTTL, clock,
loadFn (byKey, byAccess and stats start empty, see newLRUCache). -/
structure LRUConfig (K V C : Type) where
  maxSize : Int
  defaultTTL : Int
  clock : Option C
  loadFn : Option (K → LoadRes V)

/-- Build the configuration of one LRU shard from the properties. -/
def newLRUConfig (p : CacheProperties K V C) : LRUConfig K V C :=
  ⟨p.maxSize, p.defaultTTL, p.clock, p.loadFn⟩

/-- What New returns: a single LRU cache or a sharded cache. -/
inductive BuiltCache (K V C : Type) where
  | lru (cfg : LRUConfig K V C)
  | sharded (shards : List (LRUConfig K V C)) (hashFn : Option (K → Int))

/-- newShardedCache: shardCount shards, each a newLRUCache over the
properties with shardCount and hashFn zeroed out. -/
def newShardedCache (p : CacheProperties K V C) : BuiltCache K V C :=
  BuiltCache.sharded
    (List.replicate p.shardCount (newLRUConfig { p with shardCount := 0, hashFn := none }))
    p.hashFn

/-- The default properties New starts from: only maxSize is set. -/
def defaultProperties (maxSize : Int) : CacheProperties K V C :=
  { maxSize := maxSize, defaultTTL := 0, clock := none, loadFn := none,
    hashFn := none, shardCount := 0 }

/-- cache.New: fold the options over the default properties, substitute the
real clock when none was injected, and dispatch on shardCount > 1.  New has
no error result: it always returns a cache. -/
def cacheNew (realClock : C) (maxSize : Int) (opts : List (BuildOpt K V C)) :
    BuiltCache K V C :=
  let props := opts.foldl applyBuildOpt (defaultProperties maxSize)
  let props :=
    match props.clock with
    | none => { props with clock := some realClock }
    | some _ => props
  if props.shardCount > 1 then newShardedCache props
  else BuiltCache.lru (newLRUConfig props)

/-
  Shard dispatch.  Go `int` is 64-bit here; negation wraps in two's
  complement and % is the truncated remainder (sign of the dividend).
-/

/-- Wrap an integer into the int64 range. -/
def wrap64 (x : Int) : Int := (x + 2 ^ 63) % 2 ^ 64 - 2 ^ 63

/-- int64 negation: `-x` with two's-complement wraparound. -/
def goNeg (x : Int) : Int := wrap64 (-x)

/-- The index computed by shardedCache.shard: take the hash, negate it when
negative, and reduce modulo the shard count with Go's % operator. -/
def shardIndex (hash : Int) (shardCount : Nat) : Int :=
  let h := if hash < 0 then goNeg hash else hash
  h.tmod shardCount

/-- Indexing `c.shards[shardIndex]`: some shard when the index is in range,
none when the access panics (index out of range). -/
def shardOf (hash : Int) (shardCount : Nat) : Option Nat :=
  let idx := shardIndex hash shardCount
  if 0 ≤ idx ∧ idx < (shardCount : Int) then some idx.toNat else none

/-- The shard a sharded-cache operation on key k delegates to: none when the
dispatch faults (nil hash function, or index out of range). -/
def shardedDispatch {K : Type} (hashFn : Option (K → Int)) (shardCount : Nat) (k : K) :
    Option Nat :=
  match hashFn with
  | none => none
  | some f => shardOf (f k) shardCount

/-- The most negative int64. -/
def int64Min : Int := -(2 ^ 63)

/-
  Concrete fixtures used by the theorems below.
-/

/-- The fixed backing map of the eviction test (TestSyncEviction). -/
def fixedEntries : List (String × String) :=
  [("foo", "bar"), ("zed", "banana"), ("snork", "mork"),
   ("gambas", "camarones"), ("conch", "snail"), ("ephemeral", "transient")]

/-- The eviction test's loader: serve the fixed map, else ErrNotFound,
always with the zero expiry. -/
def fixedLoadFn (k : String) : LoadRes String :=
  match fixedEntries.find? (fun p => decide (p.1 = k)) with
  | some p => .ok p.2 0
  | none => .notFound

/-- The access sequence of the eviction test. -/
def evictionOps : List (Op String String) :=
  [.get "snork", .get "zed", .get "foo", .get "zed", .get "gambas",
   .get "gambas", .get "foo", .get "non-existent", .get "conch",
   .get "gambas", .get "non-existent", .get "foo", .get "zed"]

/-- The final state of the eviction test: capacity 3, read-through with the
fixed map, sequential gets. -/
def evictionRun : LruCache String String :=
  runOps evictionOps (newLRUCache 3 0 (some fixedLoadFn) 0)

/-- A cache with a one-minute default TTL and no loader, its clock at 100,
after put-with-expiry("k", "v", zero expiry). -/
def zeroExpiryPut : LruCache String String :=
  putLocked "k" "v" 0 (newLRUCache 100 60 none 100)

/-- A cache with no default TTL, clock at 100: put-with-expiry("k", "v1",
500) followed by a plain put("k", "v2"). -/
def overwritePut : LruCache String String :=
  putLocked "k" "v2" 0 (putLocked "k" "v1" 500 (newLRUCache 100 0 none 100))

/-- A loader that always succeeds with "x" and no expiry. -/
def constLoadFn (_k : String) : LoadRes String := LoadRes.ok "x" 0

/-- One read-through get on a fresh cache whose loader always succeeds. -/
def oneLoadedGet : LruCache String String × GetRes String :=
  seqGet "a" (newLRUCache 100 0 (some constLoadFn) 0)

/-- Two goroutines against a fresh read-through shard of capacity 100: a
get for "a" and a put for "a". -/
def putDuringLoadInit : Sys String String :=
  newSys 100 0 (some fixedLoadFn) 0 [.getStart "a", .putStart "a" "x" 0]

/-- Schedule: the get installs its loading placeholder and enters the
loader; then the put overwrites the placeholder while the load is still in
flight. -/
def putDuringLoadActs : List (Act String) := [.start 0, .start 1]

/-- The state after that schedule. -/
def putDuringLoadFinal : Sys String String :=
  (runActs putDuringLoadActs putDuringLoadInit).getD putDuringLoadInit

/-- Four goroutines against a fresh read-through shard of capacity 1: a get
for "a", a put for "a", a put for "b", and a second get for "a". -/
def doubleLoadInit : Sys String String :=
  newSys 1 0 (some fixedLoadFn) 0
    [.getStart "a", .putStart "a" "x" 0, .putStart "b" "y" 0, .getStart "a"]

/-- Schedule: thread 0 starts loading "a"; the put for "a" promotes the
loading placeholder into the recency list; the put for "b" evicts it (and
unmaps "a"); thread 3 then finds "a" absent and starts a second load while
the first is still in flight. -/
def doubleLoadActs : List (Act String) := [.start 0, .start 1, .start 2, .start 3]

/-- The state after that schedule. -/
def doubleLoadFinal : Sys String String :=
  (runActs doubleLoadActs doubleLoadInit).getD doubleLoadInit

/-- A get-only workload: three gets against a fresh read-through shard of
capacity 1 (two of them for the same key). -/
def getOnlyInit : Sys String String :=
  newSys 1 0 (some fixedLoadFn) 0
    [.getStart "a", .getStart "a", .getStart "b"]

/-- `getOnlyInit` after thread 0 has entered the loader for "a". -/
def getOnlyFinal : Sys String String :=
  (runActs [Act.start 0] getOnlyInit).getD getOnlyInit

/-
  Invariants.  `Inv` holds in every reachable shard state, concurrent or
  not; `SeqInv` additionally holds in quiescent single-threaded states.
-/

/-- Map keys are unique. -/
def KeysNodup (s : LruCache K V) : Prop := (s.byKey.map Prod.fst).Nodup

/-- Every mapped index is a live arena index. -/
def MappedLt (s : LruCache K V) : Prop := ∀ p ∈ s.byKey, p.2 < s.entries.length

/-- A mapped entry that is not loading sits in the recency list. -/
def MappedListed [Inhabited K] (s : LruCache K V) : Prop :=
  ∀ p ∈ s.byKey, (getEntry s p.2).loading = none → p.2 ∈ s.byAccess

/-- `MappedListed` weakened to all keys other than k (the state inside a
locked section, before putLocked re-establishes the full invariant for
key k). -/
def MappedListedX [Inhabited K] (k : K) (s : LruCache K V) : Prop :=
  ∀ p ∈ s.byKey, p.1 ≠ k → (getEntry s p.2).loading = none → p.2 ∈ s.byAccess

/-- Distinct keys map to distinct entries. -/
def ValInj (s : LruCache K V) : Prop :=
  ∀ p ∈ s.byKey, ∀ q ∈ s.byKey, p.2 = q.2 → p.1 = q.1

/-- A mapped listed entry's key field is its map key. -/
def MappedKeyField [Inhabited K] (s : LruCache K V) : Prop :=
  ∀ p ∈ s.byKey, p.2 ∈ s.byAccess → (getEntry s p.2).key = p.1

/-- Listed indices are live and carry an element. -/
def ListedWF [Inhabited K] (s : LruCache K V) : Prop :=
  ∀ b ∈ s.byAccess, b < s.entries.length ∧ (getEntry s b).hasElem = true

/-- The recency list has no duplicates. -/
def AccessNodup (s : LruCache K V) : Prop := s.byAccess.Nodup

/-- The recency list never exceeds a non-negative maxSize. -/
def SizeLe (s : LruCache K V) : Prop :=
  0 ≤ s.maxSize → (s.byAccess.length : Int) ≤ s.maxSize

/-- Shard-state well-formedness except the size bound. -/
def InvCore [Inhabited K] [DecidableEq K] (s : LruCache K V) : Prop :=
  KeysNodup s ∧ MappedLt s ∧ MappedListed s ∧ ValInj s ∧ MappedKeyField s ∧
  ListedWF s ∧ AccessNodup s

/-- `InvCore` with `MappedListed` weakened at key k. -/
def InvCoreX [Inhabited K] [DecidableEq K] (k : K) (s : LruCache K V) : Prop :=
  KeysNodup s ∧ MappedLt s ∧ MappedListedX k s ∧ ValInj s ∧ MappedKeyField s ∧
  ListedWF s ∧ AccessNodup s

/-- Shard-state well-formedness, maintained by every locked section. -/
def Inv [Inhabited K] [DecidableEq K] (s : LruCache K V) : Prop :=
  InvCore s ∧ SizeLe s

/-- Every listed entry is mapped under its key field.  Holds in quiescent
single-threaded states and throughout get-only workloads, but not in
general: a load failure racing a put and an eviction can strand a listed
entry without a mapping. -/
def ListedMapped [Inhabited K] [DecidableEq K] (s : LruCache K V) : Prop :=
  ∀ b ∈ s.byAccess, lookupKey (getEntry s b).key s.byKey = some b

/-- Additional facts of quiescent single-threaded states: no load is in
flight, and every listed entry is mapped under its key field. -/
def SeqInv [Inhabited K] [DecidableEq K] (s : LruCache K V) : Prop :=
  Inv s ∧
  (∀ p ∈ s.byKey, (getEntry s p.2).loading = none) ∧
  ListedMapped s

/-- Thread states a fresh workload starts from. -/
def TState.atStart : TState K V → Bool
  | .getStart _ => true
  | .putStart _ _ _ => true
  | _ => false

/-- Whether a thread state is an in-flight load. -/
def TState.isInLoad : TState K V → Bool
  | .inLoad _ _ _ => true
  | _ => false

/-- Thread states occurring in a workload of gets only. -/
def TState.isGetLike : TState K V → Bool
  | .putStart _ _ _ => false
  | .haltedPut => false
  | _ => true

/-- What an in-flight load guarantees about the shard: its placeholder is a
live arena index whose loading field carries the load's token, whose key
field is the loaded key, and which no other key maps to. -/
def ThreadOK [Inhabited K] [DecidableEq K] (c : LruCache K V) : TState K V → Prop
  | .inLoad k id tok =>
      id < c.entries.length ∧ (getEntry c id).loading = some tok ∧
      (getEntry c id).key = k ∧ (∀ p ∈ c.byKey, p.2 = id → p.1 = k)
  | _ => True

/-- Distinct threads never share an in-flight placeholder index. -/
def InLoadIdsInj {K V : Type} (sys : Sys K V) : Prop :=
  ∀ (i j : Nat) (k k2 : K) (id tok tok2 : Nat),
    sys.threads[i]? = some (TState.inLoad k id tok) →
    sys.threads[j]? = some (TState.inLoad k2 id tok2) → i = j

/-- The system invariant behind the placeholder claims. -/
def SysOK [Inhabited K] [DecidableEq K] (sys : Sys K V) : Prop :=
  Inv sys.cache ∧ (∀ t ∈ sys.threads, ThreadOK sys.cache t) ∧ InLoadIdsInj sys

/-- What an in-flight load additionally guarantees while no puts run: the
loaded key still maps to the placeholder, the load's channel has not closed,
its token is in range, and the placeholder is not listed. -/
def LoadOK [Inhabited K] [DecidableEq K] (c : LruCache K V) : TState K V → Prop
  | .inLoad k id tok =>
      lookupKey k c.byKey = some id ∧ tok ∉ c.closed ∧ tok < c.nextTok ∧
      id ∉ c.byAccess ∧ (getEntry c id).hasElem = false
  | _ => True

/-- Distinct threads never share an in-flight load token. -/
def InLoadToksInj {K V : Type} (sys : Sys K V) : Prop :=
  ∀ (i j : Nat) (k k2 : K) (id id2 tok : Nat),
    sys.threads[i]? = some (TState.inLoad k id tok) →
    sys.threads[j]? = some (TState.inLoad k2 id2 tok) → i = j

/-- The system invariant of get-only workloads. -/
def SysOKGets [Inhabited K] [DecidableEq K] (sys : Sys K V) : Prop :=
  SysOK sys ∧ ListedMapped sys.cache ∧
  (∀ t ∈ sys.threads, LoadOK sys.cache t) ∧ InLoadToksInj sys ∧
  (∀ t ∈ sys.threads, t.isGetLike = true) ∧
  (∀ tk ∈ sys.cache.closed, tk < sys.cache.nextTok)

/-- The counters whose sum the statistics identity of the spec relates to
the number of completed gets. -/
def Stats.sum3 (st : Stats) : Nat := st.hits + st.misses + st.loadFailures

/-- Whether a completed get was counted in hits, misses or loadFailures:
all outcomes are counted except a get satisfied by a successful
read-through load. -/
def isCountedGet : GetRes V → Bool
  | .hit _ => true
  | .notFound => true
  | .loadNotFound => true
  | .loadFailed => true
  | .loaded _ => false
  | .blocked => false
  | .canceled => false

/-- The number of gets in a run that are counted (completed gets not
satisfied by a successful load). -/
def runCount [Inhabited K] [DecidableEq K] : List (Op K V) → LruCache K V → Nat
  | [], _ => 0
  | .get k :: rest, s =>
    (if isCountedGet (seqGet k s).2 then 1 else 0) + runCount rest (seqGet k s).1
  | op :: rest, s => runCount rest (applyOp op s)

/-- The contribution of a single operation to `runCount`. -/
def opCount [Inhabited K] [DecidableEq K] : Op K V → LruCache K V → Nat
  | .get k, s => if isCountedGet (seqGet k s).2 then 1 else 0
  | _, _ => 0

/-- The get on `zeroExpiryPut` after the clock advanced to 161 (one tick
past the default-TTL expiry 100 + 60). -/
def zeroExpiryLater : LruCache String String × GetRes String :=
  seqGet "k" { zeroExpiryPut with now := 161 }

/-- The get on `overwritePut` after the clock advanced to 501 (one tick
past the original explicit expiry 500). -/
def overwriteLater : LruCache String String × GetRes String :=
  seqGet "k" { overwritePut with now := 501 }

/-
  Theorems.
-/

/-- A successful schedule witnesses reachability. -/
theorem runActs_reachable [Inhabited K] [DecidableEq K] :
    ∀ (acts : List (Act V)) (s t : Sys K V), runActs acts s = some t →
      ReachableSys s t := by
  intro acts
  induction acts with
  | nil =>
    intro s t h
    simp only [runActs] at h
    cases h
    exact Relation.ReflTransGen.refl
  | cons a rest ih =>
    intro s t h
    simp only [runActs] at h
    cases ha : applyAct a s with
    | none => rw [ha] at h; cases h
    | some s2 =>
      rw [ha] at h
      exact Relation.ReflTransGen.head ⟨a, ha⟩ (ih s2 t h)

/-- C2: with capacity 3 and the fixed-map loader, the access sequence
snork, zed, foo, zed, gambas, gambas, foo, non-existent, conch, gambas,
non-existent, foo, zed yields exactly loadAttempts = 8, evictions = 3,
hits = 5, misses = 2, currentSize = 3 (evictToSize removes the back entry
of the recency list on every eviction). -/
theorem eviction_test_statistics :
    statisticsLocked evictionRun =
      { hits := 5, misses := 2, loadAttempts := 8, loadFailures := 0,
        expirations := 0, evictions := 3, currentSize := 3 } := by
  decide

/-- C3 counterexample: with default TTL 60 and the clock at 100,
put-with-expiry("k", "v", zero) stores expiry 160 (the default TTL is
applied, not suppressed), and a get at time 161 reports the entry expired:
the explicit zero expiry does not override the default TTL. -/
theorem putWithTTL_zero_expiry_expires :
    entryExpiryOf zeroExpiryPut "k" = some 160 ∧
    zeroExpiryLater.2 = GetRes.notFound ∧
    zeroExpiryLater.1.stats.expirations = 1 := by
  decide

/-- C4 counterexample: with no default TTL, put-with-expiry("k", "v1", 500)
followed by put("k", "v2") leaves the entry with the old expiry 500 (not
with no expiry), so a get at time 501 reports it expired. -/
theorem put_overwrite_keeps_expiry :
    entryExpiryOf overwritePut "k" = some 500 ∧
    overwriteLater.2 = GetRes.notFound ∧
    overwriteLater.1.stats.expirations = 1 := by
  decide

/-- C5 counterexample: one get that completes through a successful load
leaves hits + misses + loadFailures = 0, although one get completed without
cancellation (the successful-load path increments only loadAttempts). -/
theorem loaded_get_not_counted :
    oneLoadedGet.2 = GetRes.loaded "x" ∧
    (oneLoadedGet.1.stats.hits + oneLoadedGet.1.stats.misses +
      oneLoadedGet.1.stats.loadFailures = 0) ∧
    oneLoadedGet.1.stats.loadAttempts = 1 := by
  decide

/-- C9: when the hasher returns the most negative int64 and there are 3
shards, shardedCache.shard computes -(-2^63) = -2^63 (negation wraps), and
-2^63 % 3 = -2, so the shard lookup indexes shards[-2] and panics instead
of dispatching within [0, 3). -/
theorem shard_dispatch_min_int_faults :
    shardIndex int64Min 3 = -2 ∧ shardOf int64Min 3 = none := by
  constructor
  · decide
  · decide

/-- C10 counterexample: the builder performs no validation.  New with
capacity 0 returns an LRU cache (there is no error result at all), New with
sharding but a nil hasher returns a sharded cache, and the misconfiguration
surfaces only when an operation dispatches: the shard lookup faults on the
nil hash function. -/
theorem builder_accepts_bad_config :
    cacheNew () 0 ([] : List (BuildOpt String String Unit)) =
      BuiltCache.lru { maxSize := 0, defaultTTL := 0, clock := some (), loadFn := none } ∧
    cacheNew () 1 ([BuildOpt.sharded 2 none] : List (BuildOpt String String Unit)) =
      BuiltCache.sharded
        (List.replicate 2 { maxSize := 1, defaultTTL := 0, clock := some (), loadFn := none })
        none ∧
    shardedDispatch (none : Option (String → Int)) 2 "k" = none := by
  exact ⟨rfl, rfl, rfl⟩

/-
  Association-list lemmas for the byKey map.
-/

theorem lookupKey_mem {K : Type} [DecidableEq K] {k : K} {id : Nat}
    {m : List (K × Nat)} (h : lookupKey k m = some id) : (k, id) ∈ m := by
  unfold lookupKey at h
  cases hf : m.find? (fun p => decide (p.1 = k)) with
  | none => rw [hf] at h; cases h
  | some p =>
    rw [hf] at h
    have h1 := List.find?_some hf
    have h2 := List.mem_of_find?_eq_some hf
    obtain ⟨a, b⟩ := p
    simp only [decide_eq_true_eq] at h1
    simp only [Option.map_some', Option.some.injEq] at h
    subst h1
    subst h
    exact h2

theorem mem_eraseKey {K : Type} [DecidableEq K] {p : K × Nat} {k : K}
    {m : List (K × Nat)} (h : p ∈ eraseKey k m) : p ∈ m ∧ p.1 ≠ k := by
  unfold eraseKey at h
  exact ⟨List.mem_of_mem_filter h, by simpa using List.of_mem_filter h⟩

theorem mem_insertKey {K : Type} [DecidableEq K] {p : K × Nat} {k : K} {id : Nat}
    {m : List (K × Nat)} (h : p ∈ insertKey k id m) :
    p = (k, id) ∨ (p ∈ m ∧ p.1 ≠ k) := by
  unfold insertKey at h
  rcases List.mem_cons.mp h with h1 | h1
  · exact Or.inl h1
  · exact Or.inr (mem_eraseKey h1)

theorem lookupKey_eraseKey_self {K : Type} [DecidableEq K] (k : K)
    (m : List (K × Nat)) : lookupKey k (eraseKey k m) = none := by
  have hf : (eraseKey k m).find? (fun p => decide (p.1 = k)) = none := by
    rw [List.find?_eq_none]
    intro p hp
    simpa using (mem_eraseKey hp).2
  unfold lookupKey
  rw [hf]
  rfl

theorem lookupKey_eraseKey_ne {K : Type} [DecidableEq K] {k2 k : K}
    (m : List (K × Nat)) (h : k2 ≠ k) :
    lookupKey k2 (eraseKey k m) = lookupKey k2 m := by
  induction m with
  | nil => rfl
  | cons p rest ih =>
    by_cases hp : p.1 = k
    · have he : eraseKey k (p :: rest) = eraseKey k rest := by
        simp [eraseKey, List.filter_cons, hp]
      have hl : lookupKey k2 (p :: rest) = lookupKey k2 rest := by
        have : ¬ p.1 = k2 := by rw [hp]; exact fun hh => h hh.symm
        simp [lookupKey, List.find?_cons, this]
      rw [he, ih, hl]
    · have he : eraseKey k (p :: rest) = p :: eraseKey k rest := by
        simp [eraseKey, List.filter_cons, hp]
      rw [he]
      by_cases hp2 : p.1 = k2
      · simp [lookupKey, List.find?_cons, hp2]
      · simp only [lookupKey, List.find?_cons] at *
        have : (decide (p.1 = k2)) = false := by simpa using hp2
        rw [this]
        exact ih

theorem lookupKey_insertKey_self {K : Type} [DecidableEq K] (k : K) (id : Nat)
    (m : List (K × Nat)) : lookupKey k (insertKey k id m) = some id := by
  simp [insertKey, lookupKey, List.find?_cons]

theorem lookupKey_insertKey_ne {K : Type} [DecidableEq K] {k2 k : K} (id : Nat)
    (m : List (K × Nat)) (h : k2 ≠ k) :
    lookupKey k2 (insertKey k id m) = lookupKey k2 m := by
  have : ¬ ((k, id).1 = k2) := fun hh => h hh.symm
  simp only [insertKey, lookupKey, List.find?_cons]
  have hd : (decide ((k, id).1 = k2)) = false := by simpa using this
  rw [hd]
  exact lookupKey_eraseKey_ne m h

theorem keys_nodup_eraseKey {K : Type} [DecidableEq K] (k : K)
    {m : List (K × Nat)} (h : (m.map Prod.fst).Nodup) :
    ((eraseKey k m).map Prod.fst).Nodup := by
  unfold eraseKey
  exact h.sublist ((List.filter_sublist m).map Prod.fst)

theorem keys_nodup_insertKey {K : Type} [DecidableEq K] (k : K) (id : Nat)
    {m : List (K × Nat)} (h : (m.map Prod.fst).Nodup) :
    ((insertKey k id m).map Prod.fst).Nodup := by
  unfold insertKey
  rw [List.map_cons]
  refine List.nodup_cons.mpr ⟨?_, keys_nodup_eraseKey k h⟩
  intro hmem
  rcases List.mem_map.mp hmem with ⟨p, hp, hfst⟩
  exact (mem_eraseKey hp).2 hfst

/-- With unique keys, a binding whose key is already bound agrees with the
lookup result. -/
theorem lookupKey_unique {K : Type} [DecidableEq K] {k : K} {id id2 : Nat}
    {m : List (K × Nat)} (hnd : (m.map Prod.fst).Nodup)
    (h1 : lookupKey k m = some id) (h2 : (k, id2) ∈ m) : id2 = id := by
  have h3 := lookupKey_mem h1
  induction m with
  | nil => cases h2
  | cons p rest ih =>
    rw [List.map_cons, List.nodup_cons] at hnd
    rcases List.mem_cons.mp h2 with hh | hh
    · rcases List.mem_cons.mp h3 with hg | hg
      · rw [← hh] at hg
        exact congrArg Prod.snd hg.symm
      · exfalso
        apply hnd.1
        rw [← hh]
        exact List.mem_map.mpr ⟨(k, id), hg, rfl⟩
    · rcases List.mem_cons.mp h3 with hg | hg
      · exfalso
        apply hnd.1
        rw [← hg]
        exact List.mem_map.mpr ⟨(k, id2), hh, rfl⟩
      · have hlk : lookupKey k rest = some id := by
          unfold lookupKey at h1 ⊢
          rw [List.find?_cons] at h1
          cases hd : decide (p.1 = k) with
          | true =>
            exfalso
            apply hnd.1
            have : p.1 = k := by simpa using hd
            rw [this]
            exact List.mem_map.mpr ⟨(k, id2), hh, rfl⟩
          | false => rw [hd] at h1; exact h1
        exact ih hnd.2 hlk hh hg

/-
  Arena lemmas.
-/

theorem getD_set_self {α : Type} (es : List α) (i : Nat) (e d : α)
    (h : i < es.length) : (es.set i e).getD i d = e := by
  rw [List.getD_eq_getElem?_getD]
  simp [List.getElem?_set_self', List.getElem?_eq_getElem h]

theorem getD_set_ne {α : Type} (es : List α) (i j : Nat) (e d : α)
    (h : j ≠ i) : (es.set i e).getD j d = es.getD j d := by
  rw [List.getD_eq_getElem?_getD, List.getD_eq_getElem?_getD,
    List.getElem?_set_ne (fun hh => h hh.symm)]

theorem getD_append_left {α : Type} (es l2 : List α) (i : Nat) (d : α)
    (h : i < es.length) : (es ++ l2).getD i d = es.getD i d := by
  rw [List.getD_eq_getElem?_getD, List.getD_eq_getElem?_getD,
    List.getElem?_append_left h]

theorem getD_append_length {α : Type} (es : List α) (e d : α) :
    (es ++ [e]).getD es.length d = e := by
  rw [List.getD_eq_getElem?_getD]
  simp

theorem getEntry_setEntry_self [Inhabited K] (s : LruCache K V) (id : Nat)
    (e : Entry K V) (h : id < s.entries.length) :
    getEntry (setEntry s id e) id = e :=
  getD_set_self s.entries id e Entry.blank h

theorem getEntry_setEntry_ne [Inhabited K] (s : LruCache K V) (id j : Nat)
    (e : Entry K V) (h : j ≠ id) :
    getEntry (setEntry s id e) j = getEntry s j :=
  getD_set_ne s.entries id j e Entry.blank h

/-
  Frame and preservation lemmas for the evictToSize loop.
-/

theorem evictFuel_frame [Inhabited K] [DecidableEq K] :
    ∀ (fuel : Nat) (s : LruCache K V),
      (evictFuel fuel s).entries = s.entries ∧
      (evictFuel fuel s).closed = s.closed ∧
      (evictFuel fuel s).nextTok = s.nextTok ∧
      (evictFuel fuel s).maxSize = s.maxSize ∧
      (evictFuel fuel s).defaultTTL = s.defaultTTL ∧
      (evictFuel fuel s).loadFn = s.loadFn ∧
      (evictFuel fuel s).now = s.now ∧
      (evictFuel fuel s).stats.hits = s.stats.hits ∧
      (evictFuel fuel s).stats.misses = s.stats.misses ∧
      (evictFuel fuel s).stats.loadAttempts = s.stats.loadAttempts ∧
      (evictFuel fuel s).stats.loadFailures = s.stats.loadFailures ∧
      (evictFuel fuel s).stats.expirations = s.stats.expirations := by
  intro fuel
  induction fuel with
  | zero =>
    intro s
    exact ⟨rfl, rfl, rfl, rfl, rfl, rfl, rfl, rfl, rfl, rfl, rfl, rfl⟩
  | succ fuel ih =>
    intro s
    unfold evictFuel
    split_ifs with h
    · cases hl : s.byAccess.getLast? with
      | none =>
        exact ⟨rfl, rfl, rfl, rfl, rfl, rfl, rfl, rfl, rfl, rfl, rfl, rfl⟩
      | some back =>
        simpa [evictStep] using ih (evictStep s back)
    · exact ⟨rfl, rfl, rfl, rfl, rfl, rfl, rfl, rfl, rfl, rfl, rfl, rfl⟩

theorem evictFuel_byAccess_mem [Inhabited K] [DecidableEq K] :
    ∀ (fuel : Nat) (s : LruCache K V) (x : Nat),
      x ∈ (evictFuel fuel s).byAccess → x ∈ s.byAccess := by
  intro fuel
  induction fuel with
  | zero => intro s x hx; exact hx
  | succ fuel ih =>
    intro s x hx
    unfold evictFuel at hx
    split_ifs at hx with h
    · cases hl : s.byAccess.getLast? with
      | none => rw [hl] at hx; exact hx
      | some back =>
        rw [hl] at hx
        have := ih (evictStep s back) x hx
        exact (List.dropLast_sublist s.byAccess).mem this
    · exact hx

theorem evictFuel_byKey_mem [Inhabited K] [DecidableEq K] :
    ∀ (fuel : Nat) (s : LruCache K V) (p : K × Nat),
      p ∈ (evictFuel fuel s).byKey → p ∈ s.byKey := by
  intro fuel
  induction fuel with
  | zero => intro s p hp; exact hp
  | succ fuel ih =>
    intro s p hp
    unfold evictFuel at hp
    split_ifs at hp with h
    · cases hl : s.byAccess.getLast? with
      | none => rw [hl] at hp; exact hp
      | some back =>
        rw [hl] at hp
        exact (mem_eraseKey (ih (evictStep s back) p hp)).1
    · exact hp

theorem evictFuel_length_le [Inhabited K] [DecidableEq K] :
    ∀ (fuel : Nat) (s : LruCache K V), 0 ≤ s.maxSize →
      s.byAccess.length ≤ fuel →
      ((evictFuel fuel s).byAccess.length : Int) ≤ s.maxSize := by
  intro fuel
  induction fuel with
  | zero =>
    intro s h2 h1
    have : s.byAccess.length = 0 := Nat.le_zero.mp h1
    unfold evictFuel
    rw [this]
    exact h2
  | succ fuel ih =>
    intro s h2 h1
    unfold evictFuel
    split_ifs with h
    · cases hl : s.byAccess.getLast? with
      | none =>
        have : s.byAccess = [] := List.getLast?_eq_none_iff.mp hl
        rw [this] at h
        simp at h
        omega
      | some back =>
        have hne : s.byAccess ≠ [] := by
          intro hh
          rw [hh] at hl
          cases hl
        have hlen : (evictStep s back).byAccess.length = s.byAccess.length - 1 := by
          simp [evictStep, List.length_dropLast]
        have hpos : 0 < s.byAccess.length := List.length_pos.mpr hne
        have := ih (evictStep s back) (by simpa [evictStep] using h2)
          (by rw [hlen]; omega)
        simpa [evictStep] using this
    · exact not_lt.mp h

theorem evictToSize_length_le [Inhabited K] [DecidableEq K] (s : LruCache K V)
    (h2 : 0 ≤ s.maxSize) : ((evictToSize s).byAccess.length : Int) ≤ s.maxSize :=
  evictFuel_length_le s.byAccess.length s h2 le_rfl

theorem evictToSize_frames [Inhabited K] [DecidableEq K] (t : LruCache K V) :
    (evictToSize t).entries = t.entries ∧
    (evictToSize t).closed = t.closed ∧
    (evictToSize t).nextTok = t.nextTok ∧
    (evictToSize t).maxSize = t.maxSize ∧
    (evictToSize t).defaultTTL = t.defaultTTL ∧
    (evictToSize t).loadFn = t.loadFn ∧
    (evictToSize t).now = t.now ∧
    (evictToSize t).stats.hits = t.stats.hits ∧
    (evictToSize t).stats.misses = t.stats.misses ∧
    (evictToSize t).stats.loadAttempts = t.stats.loadAttempts ∧
    (evictToSize t).stats.loadFailures = t.stats.loadFailures ∧
    (evictToSize t).stats.expirations = t.stats.expirations :=
  evictFuel_frame t.byAccess.length t

theorem evictToSize_byKey_mem [Inhabited K] [DecidableEq K] (t : LruCache K V)
    (p : K × Nat) (h : p ∈ (evictToSize t).byKey) : p ∈ t.byKey :=
  evictFuel_byKey_mem t.byAccess.length t p h

theorem evictToSize_byAccess_mem [Inhabited K] [DecidableEq K] (t : LruCache K V)
    (x : Nat) (h : x ∈ (evictToSize t).byAccess) : x ∈ t.byAccess :=
  evictFuel_byAccess_mem t.byAccess.length t x h

theorem getLast?_decomp {α : Type} (l : List α) (b : α) (h : l.getLast? = some b) :
    l.dropLast ++ [b] = l := by
  have h2 : l ≠ [] := by rintro rfl; simp at h
  have h3 : l.getLast h2 = b := by
    rw [List.getLast?_eq_getLast l h2] at h
    exact Option.some_injective _ h
  rw [← h3]
  exact List.dropLast_append_getLast h2

theorem nodup_not_mem_dropLast {α : Type} (l : List α) (b : α) (hn : l.Nodup)
    (h : l.getLast? = some b) : b ∉ l.dropLast := by
  intro hb
  have hd := getLast?_decomp l b h
  rw [← hd] at hn
  rcases List.nodup_append.mp hn with ⟨_, _, hdisj⟩
  exact hdisj hb (List.mem_singleton_self b)

theorem mem_dropLast_of_ne {α : Type} (l : List α) (b x : α)
    (h : l.getLast? = some b) (hx : x ∈ l) (hne : x ≠ b) : x ∈ l.dropLast := by
  rw [← getLast?_decomp l b h] at hx
  rcases List.mem_append.mp hx with h1 | h1
  · exact h1
  · exact absurd (List.mem_singleton.mp h1) hne

theorem invCore_evictStep [Inhabited K] [DecidableEq K] (s : LruCache K V)
    (back : Nat) (h : InvCore s) (hl : s.byAccess.getLast? = some back) :
    InvCore (evictStep s back) := by
  obtain ⟨h1, h2, h3, h4, h5, h6, h7⟩ := h
  have hent : (evictStep s back).entries = s.entries := rfl
  have hge : ∀ j, getEntry (evictStep s back) j = getEntry s j := fun j => rfl
  refine ⟨keys_nodup_eraseKey _ h1, ?_, ?_, ?_, ?_, ?_, ?_⟩
  · intro p hp
    exact h2 p (mem_eraseKey hp).1
  · intro p hp hload
    obtain ⟨hpm, hpk⟩ := mem_eraseKey hp
    rw [hge] at hload
    have hacc := h3 p hpm hload
    have hneq : p.2 ≠ back := by
      intro he
      apply hpk
      rw [← h5 p hpm (he ▸ hacc)]
      rw [he]
    exact mem_dropLast_of_ne s.byAccess back p.2 hl hacc hneq
  · intro p hp q hq
    exact h4 p (mem_eraseKey hp).1 q (mem_eraseKey hq).1
  · intro p hp hacc
    exact h5 p (mem_eraseKey hp).1 ((List.dropLast_sublist s.byAccess).mem hacc)
  · intro b hb
    exact h6 b ((List.dropLast_sublist s.byAccess).mem hb)
  · exact h7.sublist (List.dropLast_sublist s.byAccess)

theorem invCore_evictFuel [Inhabited K] [DecidableEq K] :
    ∀ (fuel : Nat) (s : LruCache K V), InvCore s → InvCore (evictFuel fuel s) := by
  intro fuel
  induction fuel with
  | zero => intro s h; exact h
  | succ fuel ih =>
    intro s h
    unfold evictFuel
    split_ifs with hc
    · cases hl : s.byAccess.getLast? with
      | none => exact h
      | some back => exact ih (evictStep s back) (invCore_evictStep s back h hl)
    · exact h

theorem inv_evictToSize [Inhabited K] [DecidableEq K] (s : LruCache K V)
    (h : InvCore s) : Inv (evictToSize s) := by
  refine ⟨invCore_evictFuel s.byAccess.length s h, ?_⟩
  intro hms
  have hframe := evictFuel_frame s.byAccess.length s
  have : (evictToSize s).maxSize = s.maxSize := hframe.2.2.2.1
  rw [this]
  exact evictToSize_length_le s (this ▸ hms)

theorem lookupKey_of_mem_nodup {K : Type} [DecidableEq K] {k : K} {id : Nat}
    {m : List (K × Nat)} (hnd : (m.map Prod.fst).Nodup) (hmem : (k, id) ∈ m) :
    lookupKey k m = some id := by
  induction m with
  | nil => cases hmem
  | cons p rest ih =>
    rw [List.map_cons, List.nodup_cons] at hnd
    rcases List.mem_cons.mp hmem with hh | hh
    · rw [← hh]
      simp [lookupKey, List.find?_cons]
    · have hp : ¬ p.1 = k := by
        intro he
        apply hnd.1
        rw [he]
        exact List.mem_map.mpr ⟨(k, id), hh, rfl⟩

      unfold lookupKey
      rw [List.find?_cons]
      have hd : (decide (p.1 = k)) = false := by simpa using hp
      rw [hd]
      exact ih hnd.2 hh

theorem invCore_moveToFront_mapped [Inhabited K] [DecidableEq K]
    (s : LruCache K V) (k : K) (id : Nat) (h : InvCoreX k s)
    (hmem : (k, id) ∈ s.byKey) (hkey : (getEntry s id).key = k) :
    InvCore (moveToFrontLocked s id) := by
  obtain ⟨h1, h2, h3, h4, h5, h6, h7⟩ := h
  have hid : id < s.entries.length := h2 _ hmem
  have hlk : lookupKey k s.byKey = some id := lookupKey_of_mem_nodup h1 hmem
  unfold moveToFrontLocked
  cases he : (getEntry s id).hasElem with
  | true =>
    simp only [he, if_true]
    refine ⟨h1, h2, ?_, h4, ?_, ?_, ?_⟩
    · intro p hp hload
      by_cases hpid : p.2 = id
      · show p.2 ∈ id :: s.byAccess.erase id
        rw [hpid]
        exact List.mem_cons_self _ _
      · have hpk : p.1 ≠ k := by
          intro hke
          exact hpid (lookupKey_unique h1 hlk (by rw [← hke]; exact hp))
        have hload2 : (getEntry s p.2).loading = none := hload
        have := h3 p hp hpk hload2
        exact List.mem_cons.mpr (Or.inr ((List.mem_erase_of_ne hpid).mpr this))
    · intro p hp hacc
      by_cases hpid : p.2 = id
      · show (getEntry s p.2).key = p.1
        rw [hpid, hkey]
        exact h4 (k, id) hmem p hp (by rw [hpid])
      · have hacc2 : p.2 ∈ id :: s.byAccess.erase id := hacc
        rcases List.mem_cons.mp hacc2 with hc | hc
        · exact absurd hc hpid
        · exact h5 p hp ((List.mem_erase_of_ne hpid).mp hc)
    · intro b hb
      have hb2 : b ∈ id :: s.byAccess.erase id := hb
      show b < s.entries.length ∧ (getEntry s b).hasElem = true
      rcases List.mem_cons.mp hb2 with hc | hc
      · rw [hc]
        exact ⟨hid, he⟩
      · exact h6 b (s.byAccess.erase_sublist id |>.mem hc)
    · show (id :: s.byAccess.erase id).Nodup
      refine List.nodup_cons.mpr ⟨?_, h7.erase id⟩
      intro hmem2
      exact ((h7.mem_erase_iff).mp hmem2).1 rfl
  | false =>
    simp only [he, if_false]
    have hnot : id ∉ s.byAccess := by
      intro hacc
      rw [(h6 id hacc).2] at he
      cases he
    have hgne : ∀ j, j ≠ id →
        (s.entries.set id { getEntry s id with hasElem := true }).getD j Entry.blank
          = getEntry s j := by
      intro j hj
      exact getD_set_ne s.entries id j _ Entry.blank hj
    have hgid : (s.entries.set id { getEntry s id with hasElem := true }).getD id
        Entry.blank = { getEntry s id with hasElem := true } :=
      getD_set_self s.entries id _ Entry.blank hid
    refine ⟨h1, ?_, ?_, h4, ?_, ?_, ?_⟩
    · intro p hp
      show p.2 < (s.entries.set id { getEntry s id with hasElem := true }).length
      rw [List.length_set]
      exact h2 p hp
    · intro p hp hload
      show p.2 ∈ id :: s.byAccess
      by_cases hpid : p.2 = id
      · rw [hpid]
        exact List.mem_cons_self _ _
      · have hpk : p.1 ≠ k := by
          intro hke
          exact hpid (lookupKey_unique h1 hlk (by rw [← hke]; exact hp))
        have hload2 : ((s.entries.set id { getEntry s id with hasElem := true }).getD
            p.2 Entry.blank).loading = none := hload
        rw [hgne p.2 hpid] at hload2
        exact List.mem_cons.mpr (Or.inr (h3 p hp hpk hload2))
    · intro p hp hacc
      show ((s.entries.set id { getEntry s id with hasElem := true }).getD
          p.2 Entry.blank).key = p.1
      by_cases hpid : p.2 = id
      · rw [hpid, hgid]
        have hk1 : p.1 = k := (h4 (k, id) hmem p hp (by rw [hpid])).symm
        show (getEntry s id).key = p.1
        rw [hkey, hk1]
      · rw [hgne p.2 hpid]
        have hacc2 : p.2 ∈ id :: s.byAccess := hacc
        rcases List.mem_cons.mp hacc2 with hc | hc
        · exact absurd hc hpid
        · exact h5 p hp hc
    · intro b hb
      have hb2 : b ∈ id :: s.byAccess := hb
      show b < (s.entries.set id { getEntry s id with hasElem := true }).length ∧
        ((s.entries.set id { getEntry s id with hasElem := true }).getD b
          Entry.blank).hasElem = true
      rw [List.length_set]
      rcases List.mem_cons.mp hb2 with hc | hc
      · rw [hc, hgid]
        exact ⟨hid, rfl⟩
      · have hbne : b ≠ id := fun hh => hnot (hh ▸ hc)
        rw [hgne b hbne]
        exact h6 b hc
    · show (id :: s.byAccess).Nodup
      exact List.nodup_cons.mpr ⟨hnot, h7⟩

theorem inv_putLocked [Inhabited K] [DecidableEq K] (k : K) (v : V) (expiry : Int)
    (s : LruCache K V) (h : InvCoreX k s) : Inv (putLocked k v expiry s) := by
  obtain ⟨h1, h2, h3, h4, h5, h6, h7⟩ := h
  unfold putLocked
  cases hlk : lookupKey k s.byKey with
  | some id =>
    have hmem := lookupKey_mem hlk
    have hid : id < s.entries.length := h2 _ hmem
    have hne : ∀ j, j ≠ id →
        getEntry (setEntry s id
          { key := k, val := some v,
            expiry := newExpiry s expiry (getEntry s id).expiry,
            loading := (getEntry s id).loading,
            hasElem := (getEntry s id).hasElem }) j = getEntry s j := by
      intro j hj
      exact getD_set_ne s.entries id j _ Entry.blank hj
    have hself : getEntry (setEntry s id
        { key := k, val := some v,
          expiry := newExpiry s expiry (getEntry s id).expiry,
          loading := (getEntry s id).loading,
          hasElem := (getEntry s id).hasElem }) id =
        { key := k, val := some v,
          expiry := newExpiry s expiry (getEntry s id).expiry,
          loading := (getEntry s id).loading,
          hasElem := (getEntry s id).hasElem } :=
      getD_set_self s.entries id _ Entry.blank hid
    apply inv_evictToSize
    apply invCore_moveToFront_mapped _ k id ?_ ?_ ?_
    case _ =>
      refine ⟨h1, ?_, ?_, h4, ?_, ?_, ?_⟩
      · intro p hp
        show p.2 < (s.entries.set id _).length
        rw [List.length_set]
        exact h2 p hp
      · intro p hp hpk hload
        show p.2 ∈ s.byAccess
        by_cases hpid : p.2 = id
        · exact absurd (h4 (k, id) hmem p hp (by rw [hpid])).symm hpk
        · rw [hne p.2 hpid] at hload
          exact h3 p hp hpk hload
      · intro p hp hacc
        by_cases hpid : p.2 = id
        · have hgoal := hself
          show (getEntry (setEntry s id
            { key := k, val := some v,
              expiry := newExpiry s expiry (getEntry s id).expiry,
              loading := (getEntry s id).loading,
              hasElem := (getEntry s id).hasElem }) p.2).key = p.1
          rw [hpid, hgoal]
          exact h4 (k, id) hmem p hp (by rw [hpid])
        · show (getEntry (setEntry s id
            { key := k, val := some v,
              expiry := newExpiry s expiry (getEntry s id).expiry,
              loading := (getEntry s id).loading,
              hasElem := (getEntry s id).hasElem }) p.2).key = p.1
          rw [hne p.2 hpid]
          exact h5 p hp hacc
      · intro b hb
        have hb2 : b ∈ s.byAccess := hb
        constructor
        · show b < (s.entries.set id _).length
          rw [List.length_set]
          exact (h6 b hb2).1
        · by_cases hbid : b = id
          · show (getEntry (setEntry s id
              { key := k, val := some v,
                expiry := newExpiry s expiry (getEntry s id).expiry,
                loading := (getEntry s id).loading,
                hasElem := (getEntry s id).hasElem }) b).hasElem = true
            rw [hbid, hself]
            exact (h6 id (hbid ▸ hb2)).2
          · show (getEntry (setEntry s id
              { key := k, val := some v,
                expiry := newExpiry s expiry (getEntry s id).expiry,
                loading := (getEntry s id).loading,
                hasElem := (getEntry s id).hasElem }) b).hasElem = true
            rw [hne b hbid]
            exact (h6 b hb2).2
      · exact h7
    case _ => exact hmem
    case _ =>
      show (getEntry (setEntry s id
        { key := k, val := some v,
          expiry := newExpiry s expiry (getEntry s id).expiry,
          loading := (getEntry s id).loading,
          hasElem := (getEntry s id).hasElem }) id).key = k
      rw [hself]
  | none =>
    have hge : ∀ j, j < s.entries.length →
        getEntry { s with
          entries := s.entries ++ [({
            key := k, val := some v, expiry := newExpiry s expiry 0,
            loading := none, hasElem := false } : Entry K V)],
          byKey := insertKey k s.entries.length s.byKey } j = getEntry s j := by
      intro j hj
      exact getD_append_left s.entries _ j Entry.blank hj
    have hgid : getEntry { s with
        entries := s.entries ++ [({
          key := k, val := some v, expiry := newExpiry s expiry 0,
          loading := none, hasElem := false } : Entry K V)],
        byKey := insertKey k s.entries.length s.byKey } s.entries.length =
        { key := k, val := some v, expiry := newExpiry s expiry 0,
          loading := none, hasElem := false } :=
      getD_append_length s.entries _ Entry.blank
    apply inv_evictToSize
    apply invCore_moveToFront_mapped _ k s.entries.length ?_ ?_ ?_
    case _ =>
      refine ⟨keys_nodup_insertKey k s.entries.length h1, ?_, ?_, ?_, ?_, ?_, ?_⟩
      · intro p hp
        show p.2 < (s.entries ++ [_]).length
        rw [List.length_append]
        rcases mem_insertKey hp with hn | ho
        · rw [hn]
          simp
        · have := h2 p ho.1
          omega
      · intro p hp hpk hload
        show p.2 ∈ s.byAccess
        rcases mem_insertKey hp with hn | ho
        · exact absurd (by rw [hn]) hpk
        · have hlt := h2 p ho.1
          rw [hge p.2 hlt] at hload
          exact h3 p ho.1 ho.2 hload
      · intro p hp q hq hpq
        rcases mem_insertKey hp with hn | ho
        · rcases mem_insertKey hq with hn2 | ho2
          · rw [hn, hn2]
          · have := h2 q ho2.1
            rw [hn] at hpq
            simp only at hpq
            omega
        · rcases mem_insertKey hq with hn2 | ho2
          · have := h2 p ho.1
            rw [hn2] at hpq
            simp only at hpq
            omega
          · exact h4 p ho.1 q ho2.1 hpq
      · intro p hp hacc
        have hacc2 : p.2 ∈ s.byAccess := hacc
        rcases mem_insertKey hp with hn | ho
        · exfalso
          have hl : p.2 < s.entries.length := (h6 _ hacc2).1
          rw [hn] at hl
          simp only at hl
          omega
        · have hlt := h2 p ho.1
          show (getEntry { s with
            entries := s.entries ++ [({
              key := k, val := some v, expiry := newExpiry s expiry 0,
              loading := none, hasElem := false } : Entry K V)],
            byKey := insertKey k s.entries.length s.byKey } p.2).key = p.1
          rw [hge p.2 hlt]
          exact h5 p ho.1 hacc2
      · intro b hb
        have hb2 : b ∈ s.byAccess := hb
        have hlt := (h6 b hb2).1
        constructor
        · show b < (s.entries ++ [_]).length
          rw [List.length_append]
          omega
        · show (getEntry { s with
            entries := s.entries ++ [({
              key := k, val := some v, expiry := newExpiry s expiry 0,
              loading := none, hasElem := false } : Entry K V)],
            byKey := insertKey k s.entries.length s.byKey } b).hasElem = true
          rw [hge b hlt]
          exact (h6 b hb2).2
      · exact h7
    case _ =>
      show (k, s.entries.length) ∈ insertKey k s.entries.length s.byKey
      exact List.mem_cons_self _ _
    case _ =>
      show (getEntry { s with
        entries := s.entries ++ [({
          key := k, val := some v, expiry := newExpiry s expiry 0,
          loading := none, hasElem := false } : Entry K V)],
        byKey := insertKey k s.entries.length s.byKey } s.entries.length).key = k
      rw [hgid]

theorem loadLocked_miss [Inhabited K] [DecidableEq K] {k : K} {s s2 : LruCache K V}
    (h : loadLocked k s = (s2, LoadStart.miss)) :
    s.loadFn = none ∧
    s2 = { s with stats := { s.stats with misses := s.stats.misses + 1 } } := by
  unfold loadLocked at h
  cases hf : s.loadFn with
  | none =>
    rw [hf] at h
    exact ⟨rfl, (congrArg Prod.fst h).symm⟩
  | some f =>
    rw [hf] at h
    exact (LoadStart.noConfusion (congrArg Prod.snd h))

theorem loadLocked_started [Inhabited K] [DecidableEq K] {k : K}
    {s s2 : LruCache K V} {id tok : Nat}
    (h : loadLocked k s = (s2, LoadStart.started id tok)) :
    id = s.entries.length ∧ tok = s.nextTok ∧ s.loadFn ≠ none ∧
    s2.byKey = insertKey k s.entries.length s.byKey ∧
    s2.entries = s.entries ++ [({
      key := k, val := none, expiry := 0, loading := some s.nextTok,
      hasElem := false } : Entry K V)] ∧
    s2.byAccess = s.byAccess ∧ s2.closed = s.closed ∧
    s2.nextTok = s.nextTok + 1 ∧ s2.maxSize = s.maxSize ∧
    s2.defaultTTL = s.defaultTTL ∧ s2.loadFn = s.loadFn ∧ s2.now = s.now ∧
    s2.stats = { s.stats with loadAttempts := s.stats.loadAttempts + 1 } := by
  unfold loadLocked at h
  cases hf : s.loadFn with
  | none =>
    rw [hf] at h
    exact (LoadStart.noConfusion (congrArg Prod.snd h))
  | some f =>
    rw [hf] at h
    have hfst := congrArg Prod.fst h
    have hsnd2 : LoadStart.started s.entries.length s.nextTok =
        LoadStart.started id tok := congrArg Prod.snd h
    injection hsnd2 with hid htok
    subst hfst
    refine ⟨hid.symm, htok.symm, ?_,
      rfl, rfl, rfl, rfl, rfl, rfl, rfl, rfl, rfl, rfl⟩
    simp [hf]

theorem inv_loadLocked [Inhabited K] [DecidableEq K] (k : K) (s : LruCache K V)
    (h : Inv s) : Inv (loadLocked k s).1 := by
  obtain ⟨⟨h1, h2, h3, h4, h5, h6, h7⟩, h8⟩ := h
  unfold loadLocked
  cases hf : s.loadFn with
  | none => exact ⟨⟨h1, h2, h3, h4, h5, h6, h7⟩, h8⟩
  | some f =>
    have hge : ∀ j, j < s.entries.length →
        (s.entries ++ [({
          key := k, val := none, expiry := 0, loading := some s.nextTok,
          hasElem := false } : Entry K V)]).getD j
          Entry.blank = getEntry s j := by
      intro j hj
      exact getD_append_left s.entries _ j Entry.blank hj
    refine ⟨⟨keys_nodup_insertKey k s.entries.length h1, ?_, ?_, ?_, ?_, ?_, h7⟩, h8⟩
    · intro p hp
      show p.2 < (s.entries ++ [_]).length
      rw [List.length_append]
      rcases mem_insertKey hp with hn | ho
      · rw [hn]; simp
      · have := h2 p ho.1
        omega
    · intro p hp hload
      show p.2 ∈ s.byAccess
      rcases mem_insertKey hp with hn | ho
      · exfalso
        have hload2 : ((s.entries ++ [({
            key := k, val := none, expiry := 0, loading := some s.nextTok,
            hasElem := false } : Entry K V)]).getD p.2
            Entry.blank).loading = none := hload
        rw [hn] at hload2
        simp only at hload2
        rw [getD_append_length] at hload2
        cases hload2
      · have hlt := h2 p ho.1
        have hload2 : ((s.entries ++ [({
            key := k, val := none, expiry := 0, loading := some s.nextTok,
            hasElem := false } : Entry K V)]).getD p.2
            Entry.blank).loading = none := hload
        rw [hge p.2 hlt] at hload2
        exact h3 p ho.1 hload2
    · intro p hp q hq hpq
      rcases mem_insertKey hp with hn | ho
      · rcases mem_insertKey hq with hn2 | ho2
        · rw [hn, hn2]
        · have := h2 q ho2.1
          rw [hn] at hpq
          simp only at hpq
          omega
      · rcases mem_insertKey hq with hn2 | ho2
        · have := h2 p ho.1
          rw [hn2] at hpq
          simp only at hpq
          omega
        · exact h4 p ho.1 q ho2.1 hpq
    · intro p hp hacc
      have hacc2 : p.2 ∈ s.byAccess := hacc
      rcases mem_insertKey hp with hn | ho
      · exfalso
        have hl := (h6 _ hacc2).1
        rw [hn] at hl
        simp only at hl
        omega
      · have hlt := h2 p ho.1
        show ((s.entries ++ [({
          key := k, val := none, expiry := 0, loading := some s.nextTok,
          hasElem := false } : Entry K V)]).getD p.2
          Entry.blank).key = p.1
        rw [hge p.2 hlt]
        exact h5 p ho.1 hacc2
    · intro b hb
      have hb2 : b ∈ s.byAccess := hb
      have hlt := (h6 b hb2).1
      constructor
      · show b < (s.entries ++ [_]).length
        rw [List.length_append]
        omega
      · show ((s.entries ++ [({
          key := k, val := none, expiry := 0, loading := some s.nextTok,
          hasElem := false } : Entry K V)]).getD b
          Entry.blank).hasElem = true
        rw [hge b hlt]
        exact (h6 b hb2).2

theorem moveToFront_length [Inhabited K] (s : LruCache K V) (id : Nat)
    (hhas : (getEntry s id).hasElem = true) (hid : id ∈ s.byAccess) :
    (moveToFrontLocked s id).byAccess.length = s.byAccess.length := by
  unfold moveToFrontLocked
  simp only [hhas, if_true]
  show (id :: s.byAccess.erase id).length = s.byAccess.length
  rw [List.length_cons, List.length_erase_of_mem hid]
  have : 0 < s.byAccess.length := List.length_pos.mpr (fun hh => by
    rw [hh] at hid; cases hid)
  omega

theorem inv_expire [Inhabited K] [DecidableEq K] (s : LruCache K V) (k : K)
    (id : Nat) (h : Inv s) (hmem : (k, id) ∈ s.byKey)
    (hload : (getEntry s id).loading = none) :
    Inv { s with
      stats := { s.stats with expirations := s.stats.expirations + 1 },
      byKey := eraseKey (getEntry s id).key s.byKey,
      byAccess := s.byAccess.erase id } := by
  obtain ⟨⟨h1, h2, h3, h4, h5, h6, h7⟩, h8⟩ := h
  have hacc : id ∈ s.byAccess := h3 (k, id) hmem hload
  have hkey : (getEntry s id).key = k := h5 (k, id) hmem hacc
  refine ⟨⟨keys_nodup_eraseKey _ h1, ?_, ?_, ?_, ?_, ?_, h7.erase id⟩, ?_⟩
  · intro p hp
    exact h2 p (mem_eraseKey hp).1
  · intro p hp hl
    obtain ⟨hpm, hpk⟩ := mem_eraseKey hp
    rw [hkey] at hpk
    have hpid : p.2 ≠ id := by
      intro he
      exact hpk (h4 p hpm (k, id) hmem he)
    show p.2 ∈ s.byAccess.erase id
    exact (List.mem_erase_of_ne hpid).mpr (h3 p hpm hl)
  · intro p hp q hq
    exact h4 p (mem_eraseKey hp).1 q (mem_eraseKey hq).1
  · intro p hp hacc2
    exact h5 p (mem_eraseKey hp).1 (s.byAccess.erase_sublist id |>.mem hacc2)
  · intro b hb
    exact h6 b (s.byAccess.erase_sublist id |>.mem hb)
  · intro hms
    have := h8 hms
    have hle := List.length_erase_le id s.byAccess
    show ((s.byAccess.erase id).length : Int) ≤ s.maxSize
    omega

theorem inv_loadComplete [Inhabited K] [DecidableEq K] (k : K) (id tok : Nat)
    (res : LoadRes V) (s : LruCache K V) (h : Inv s)
    (hid : id < s.entries.length)
    (hkeyf : (getEntry s id).key = k)
    (hkeys : ∀ p ∈ s.byKey, p.2 = id → p.1 = k) :
    Inv (loadComplete k id tok res s) := by
  obtain ⟨⟨h1, h2, h3, h4, h5, h6, h7⟩, h8⟩ := h
  have hne : ∀ j, j ≠ id →
      getEntry { setEntry s id { getEntry s id with loading := none } with
        closed := tok :: s.closed } j = getEntry s j := by
    intro j hj
    exact getD_set_ne s.entries id j _ Entry.blank hj
  have hself : getEntry { setEntry s id { getEntry s id with loading := none } with
      closed := tok :: s.closed } id = { getEntry s id with loading := none } :=
    getD_set_self s.entries id _ Entry.blank hid
  have hcoreX : InvCoreX k { setEntry s id { getEntry s id with loading := none } with
      closed := tok :: s.closed } := by
    refine ⟨h1, ?_, ?_, h4, ?_, ?_, h7⟩
    · intro p hp
      show p.2 < (s.entries.set id _).length
      rw [List.length_set]
      exact h2 p hp
    · intro p hp hpk hload
      show p.2 ∈ s.byAccess
      have hpid : p.2 ≠ id := fun he => hpk (hkeys p hp he)
      rw [hne p.2 hpid] at hload
      exact h3 p hp hload
    · intro p hp hacc
      by_cases hpid : p.2 = id
      · show (getEntry { setEntry s id { getEntry s id with loading := none } with
          closed := tok :: s.closed } p.2).key = p.1
        rw [hpid, hself]
        show (getEntry s id).key = p.1
        rw [hkeyf, hkeys p hp hpid]
      · show (getEntry { setEntry s id { getEntry s id with loading := none } with
          closed := tok :: s.closed } p.2).key = p.1
        rw [hne p.2 hpid]
        exact h5 p hp hacc
    · intro b hb
      have hb2 : b ∈ s.byAccess := hb
      constructor
      · show b < (s.entries.set id _).length
        rw [List.length_set]
        exact (h6 b hb2).1
      · by_cases hbid : b = id
        · show (getEntry { setEntry s id { getEntry s id with loading := none } with
            closed := tok :: s.closed } b).hasElem = true
          rw [hbid, hself]
          exact (h6 id (hbid ▸ hb2)).2
        · show (getEntry { setEntry s id { getEntry s id with loading := none } with
            closed := tok :: s.closed } b).hasElem = true
          rw [hne b hbid]
          exact (h6 b hb2).2
  unfold loadComplete
  cases res with
  | ok v expiry =>
    exact inv_putLocked k v expiry _ hcoreX
  | notFound =>
    obtain ⟨hc1, hc2, hc3, hc4, hc5, hc6, hc7⟩ := hcoreX
    refine ⟨⟨keys_nodup_eraseKey _ hc1, ?_, ?_, ?_, ?_, hc6, hc7⟩, h8⟩
    · intro p hp
      exact hc2 p (mem_eraseKey hp).1
    · intro p hp hload
      obtain ⟨hpm, hpk⟩ := mem_eraseKey hp
      exact hc3 p hpm hpk hload
    · intro p hp q hq
      exact hc4 p (mem_eraseKey hp).1 q (mem_eraseKey hq).1
    · intro p hp hacc
      exact hc5 p (mem_eraseKey hp).1 hacc
  | failure =>
    obtain ⟨hc1, hc2, hc3, hc4, hc5, hc6, hc7⟩ := hcoreX
    refine ⟨⟨keys_nodup_eraseKey _ hc1, ?_, ?_, ?_, ?_, hc6, hc7⟩, h8⟩
    · intro p hp
      exact hc2 p (mem_eraseKey hp).1
    · intro p hp hload
      obtain ⟨hpm, hpk⟩ := mem_eraseKey hp
      exact hc3 p hpm hpk hload
    · intro p hp q hq
      exact hc4 p (mem_eraseKey hp).1 q (mem_eraseKey hq).1
    · intro p hp hacc
      exact hc5 p (mem_eraseKey hp).1 hacc

theorem moveToFront_frames [Inhabited K] (s : LruCache K V) (id : Nat) :
    (moveToFrontLocked s id).byKey = s.byKey ∧
    (moveToFrontLocked s id).closed = s.closed ∧
    (moveToFrontLocked s id).nextTok = s.nextTok ∧
    (moveToFrontLocked s id).maxSize = s.maxSize ∧
    (moveToFrontLocked s id).defaultTTL = s.defaultTTL ∧
    (moveToFrontLocked s id).loadFn = s.loadFn ∧
    (moveToFrontLocked s id).now = s.now ∧
    (moveToFrontLocked s id).stats = s.stats ∧
    (moveToFrontLocked s id).entries.length = s.entries.length ∧
    (∀ j, j ≠ id → getEntry (moveToFrontLocked s id) j = getEntry s j) ∧
    (getEntry (moveToFrontLocked s id) id).loading = (getEntry s id).loading ∧
    (getEntry (moveToFrontLocked s id) id).key = (getEntry s id).key ∧
    (getEntry (moveToFrontLocked s id) id).val = (getEntry s id).val ∧
    (getEntry (moveToFrontLocked s id) id).expiry = (getEntry s id).expiry ∧
    (∀ x ∈ (moveToFrontLocked s id).byAccess, x ∈ s.byAccess ∨ x = id) := by
  cases he : (getEntry s id).hasElem with
  | true =>
    have hres : moveToFrontLocked s id =
        { s with byAccess := id :: s.byAccess.erase id } := by
      unfold moveToFrontLocked
      simp only [he, if_true]
    rw [hres]
    refine ⟨rfl, rfl, rfl, rfl, rfl, rfl, rfl, rfl, rfl,
      fun j hj => rfl, rfl, rfl, rfl, rfl, ?_⟩
    intro x hx
    have hx2 : x ∈ id :: s.byAccess.erase id := hx
    rcases List.mem_cons.mp hx2 with hc | hc
    · exact Or.inr hc
    · exact Or.inl (s.byAccess.erase_sublist id |>.mem hc)
  | false =>
    have hres : moveToFrontLocked s id =
        { setEntry s id { getEntry s id with hasElem := true } with
          byAccess := id :: s.byAccess } := by
      unfold moveToFrontLocked
      simp only [he, Bool.false_eq_true, if_false]
    rw [hres]
    have hmem : ∀ x ∈ id :: s.byAccess, x ∈ s.byAccess ∨ x = id := by
      intro x hx
      rcases List.mem_cons.mp hx with hc | hc
      · exact Or.inr hc
      · exact Or.inl hc
    by_cases hid : id < s.entries.length
    · have hself := getD_set_self s.entries id
        { getEntry s id with hasElem := true } Entry.blank hid
      refine ⟨rfl, rfl, rfl, rfl, rfl, rfl, rfl, rfl,
        List.length_set s.entries id _, ?_, ?_, ?_, ?_, ?_, hmem⟩
      · intro j hj
        exact getD_set_ne s.entries id j _ Entry.blank hj
      · show ((s.entries.set id _).getD id Entry.blank).loading = _
        rw [hself]
      · show ((s.entries.set id _).getD id Entry.blank).key = _
        rw [hself]
      · show ((s.entries.set id _).getD id Entry.blank).val = _
        rw [hself]
      · show ((s.entries.set id _).getD id Entry.blank).expiry = _
        rw [hself]
    · have hset : s.entries.set id { getEntry s id with hasElem := true } = s.entries :=
        List.set_eq_of_length_le (Nat.le_of_not_lt hid)
      refine ⟨rfl, rfl, rfl, rfl, rfl, rfl, rfl, rfl, ?_, ?_, ?_, ?_, ?_, ?_, hmem⟩
      · show (s.entries.set id _).length = s.entries.length
        rw [List.length_set]
      · intro j hj
        show (s.entries.set id _).getD j Entry.blank = getEntry s j
        rw [hset]
        rfl
      · show ((s.entries.set id _).getD id Entry.blank).loading = _
        rw [hset]
        rfl
      · show ((s.entries.set id _).getD id Entry.blank).key = _
        rw [hset]
        rfl
      · show ((s.entries.set id _).getD id Entry.blank).val = _
        rw [hset]
        rfl
      · show ((s.entries.set id _).getD id Entry.blank).expiry = _
        rw [hset]
        rfl

theorem getEntry_congr [Inhabited K] {s t : LruCache K V}
    (h : s.entries = t.entries) (j : Nat) : getEntry s j = getEntry t j := by
  unfold getEntry
  rw [h]

theorem putLocked_frames [Inhabited K] [DecidableEq K] (k : K) (v : V)
    (expiry : Int) (s : LruCache K V) (hmlt : MappedLt s) :
    s.entries.length ≤ (putLocked k v expiry s).entries.length ∧
    (putLocked k v expiry s).closed = s.closed ∧
    (putLocked k v expiry s).nextTok = s.nextTok ∧
    (putLocked k v expiry s).loadFn = s.loadFn ∧
    (putLocked k v expiry s).maxSize = s.maxSize ∧
    (putLocked k v expiry s).defaultTTL = s.defaultTTL ∧
    (putLocked k v expiry s).now = s.now ∧
    (putLocked k v expiry s).stats.hits = s.stats.hits ∧
    (putLocked k v expiry s).stats.misses = s.stats.misses ∧
    (putLocked k v expiry s).stats.loadAttempts = s.stats.loadAttempts ∧
    (putLocked k v expiry s).stats.loadFailures = s.stats.loadFailures ∧
    (putLocked k v expiry s).stats.expirations = s.stats.expirations ∧
    (∀ j, j < s.entries.length →
      (getEntry (putLocked k v expiry s) j).loading = (getEntry s j).loading) ∧
    (∀ j, j < s.entries.length → lookupKey k s.byKey ≠ some j →
      (getEntry (putLocked k v expiry s) j).key = (getEntry s j).key ∧
      (getEntry (putLocked k v expiry s) j).hasElem = (getEntry s j).hasElem) ∧
    (∀ j, lookupKey k s.byKey = some j →
      (getEntry (putLocked k v expiry s) j).key = k) ∧
    (∀ p ∈ (putLocked k v expiry s).byKey,
      p ∈ s.byKey ∨ (p.1 = k ∧ p.2 = s.entries.length)) ∧
    (∀ x ∈ (putLocked k v expiry s).byAccess,
      x ∈ s.byAccess ∨ lookupKey k s.byKey = some x ∨ x = s.entries.length) := by
  unfold putLocked
  cases hlk : lookupKey k s.byKey with
  | some id =>
    have hid : id < s.entries.length := hmlt _ (lookupKey_mem hlk)
    have hs2self : getEntry (setEntry s id
        { key := k, val := some v,
          expiry := newExpiry s expiry (getEntry s id).expiry,
          loading := (getEntry s id).loading,
          hasElem := (getEntry s id).hasElem }) id =
        { key := k, val := some v,
          expiry := newExpiry s expiry (getEntry s id).expiry,
          loading := (getEntry s id).loading,
          hasElem := (getEntry s id).hasElem } :=
      getD_set_self s.entries id _ Entry.blank hid
    have hs2ne : ∀ j, j ≠ id → getEntry (setEntry s id
        { key := k, val := some v,
          expiry := newExpiry s expiry (getEntry s id).expiry,
          loading := (getEntry s id).loading,
          hasElem := (getEntry s id).hasElem }) j = getEntry s j := by
      intro j hj
      exact getD_set_ne s.entries id j _ Entry.blank hj
    obtain ⟨m1, m2, m3, m4, m5, m6, m7, m8, m9, m10, m11, m12, m13, m14, m15⟩ :=
      moveToFront_frames (setEntry s id
        { key := k, val := some v,
          expiry := newExpiry s expiry (getEntry s id).expiry,
          loading := (getEntry s id).loading,
          hasElem := (getEntry s id).hasElem }) id
    obtain ⟨f1, f2, f3, f4, f5, f6, f7, f8, f9, f10, f11, f12⟩ :=
      evictToSize_frames (moveToFrontLocked (setEntry s id
        { key := k, val := some v,
          expiry := newExpiry s expiry (getEntry s id).expiry,
          loading := (getEntry s id).loading,
          hasElem := (getEntry s id).hasElem }) id)
    have hgE : ∀ j, getEntry (evictToSize (moveToFrontLocked (setEntry s id
        { key := k, val := some v,
          expiry := newExpiry s expiry (getEntry s id).expiry,
          loading := (getEntry s id).loading,
          hasElem := (getEntry s id).hasElem }) id)) j =
        getEntry (moveToFrontLocked (setEntry s id
        { key := k, val := some v,
          expiry := newExpiry s expiry (getEntry s id).expiry,
          loading := (getEntry s id).loading,
          hasElem := (getEntry s id).hasElem }) id) j :=
      getEntry_congr f1
    have hlen : (evictToSize (moveToFrontLocked (setEntry s id
        { key := k, val := some v,
          expiry := newExpiry s expiry (getEntry s id).expiry,
          loading := (getEntry s id).loading,
          hasElem := (getEntry s id).hasElem }) id)).entries.length
        = s.entries.length := by
      rw [f1, m9]
      show (s.entries.set id _).length = s.entries.length
      rw [List.length_set]
    refine ⟨le_of_eq hlen.symm, by rw [f2, m2] <;> rfl, by rw [f3, m3] <;> rfl,
      by rw [f6, m6] <;> rfl, by rw [f4, m4] <;> rfl, by rw [f5, m5] <;> rfl, by rw [f7, m7] <;> rfl,
      by rw [f8, m8] <;> rfl, by rw [f9, m8] <;> rfl, by rw [f10, m8] <;> rfl, by rw [f11, m8] <;> rfl,
      by rw [f12, m8] <;> rfl, ?_, ?_, ?_, ?_, ?_⟩
    · intro j hj
      rw [hgE j]
      by_cases hjid : j = id
      · rw [hjid, m11, hs2self] <;> rfl
      · rw [m10 j hjid, hs2ne j hjid] <;> rfl
    · intro j hj hne
      have hjid : j ≠ id := by
        intro hh
        exact hne (by rw [hh])
      constructor
      · rw [hgE j, m10 j hjid, hs2ne j hjid] <;> rfl
      · rw [hgE j, m10 j hjid, hs2ne j hjid] <;> rfl
    · intro j hj
      have hjid : j = id := (Option.some_injective _ hj).symm
      rw [hgE j, hjid, m12, hs2self] <;> rfl
    · intro p hp
      have hp2 := evictToSize_byKey_mem _ p hp
      have hp3 : p ∈ s.byKey := by
        rw [m1] at hp2
        exact hp2
      exact Or.inl hp3
    · intro x hx
      have hx2 := evictToSize_byAccess_mem _ x hx
      rcases m15 x hx2 with hc | hc
      · exact Or.inl hc
      · exact Or.inr (Or.inl (by rw [hc]))
  | none =>
    have hgid : getEntry { s with
        entries := s.entries ++ [({
          key := k, val := some v, expiry := newExpiry s expiry 0,
          loading := none, hasElem := false } : Entry K V)],
        byKey := insertKey k s.entries.length s.byKey } s.entries.length =
        ({
          key := k, val := some v, expiry := newExpiry s expiry 0,
          loading := none, hasElem := false } : Entry K V) :=
      getD_append_length s.entries _ Entry.blank
    have hgne : ∀ j, j < s.entries.length → getEntry { s with
        entries := s.entries ++ [({
          key := k, val := some v, expiry := newExpiry s expiry 0,
          loading := none, hasElem := false } : Entry K V)],
        byKey := insertKey k s.entries.length s.byKey } j = getEntry s j := by
      intro j hj
      exact getD_append_left s.entries _ j Entry.blank hj
    obtain ⟨m1, m2, m3, m4, m5, m6, m7, m8, m9, m10, m11, m12, m13, m14, m15⟩ :=
      moveToFront_frames { s with
        entries := s.entries ++ [({
          key := k, val := some v, expiry := newExpiry s expiry 0,
          loading := none, hasElem := false } : Entry K V)],
        byKey := insertKey k s.entries.length s.byKey } s.entries.length
    obtain ⟨f1, f2, f3, f4, f5, f6, f7, f8, f9, f10, f11, f12⟩ :=
      evictToSize_frames (moveToFrontLocked { s with
        entries := s.entries ++ [({
          key := k, val := some v, expiry := newExpiry s expiry 0,
          loading := none, hasElem := false } : Entry K V)],
        byKey := insertKey k s.entries.length s.byKey } s.entries.length)
    have hgE := getEntry_congr f1
    have hlen : (evictToSize (moveToFrontLocked { s with
        entries := s.entries ++ [({
          key := k, val := some v, expiry := newExpiry s expiry 0,
          loading := none, hasElem := false } : Entry K V)],
        byKey := insertKey k s.entries.length s.byKey } s.entries.length)).entries.length
        = s.entries.length + 1 := by
      rw [f1, m9]
      show (s.entries ++ [_]).length = s.entries.length + 1
      rw [List.length_append]
      rfl
    refine ⟨le_of_le_of_eq (Nat.le_succ s.entries.length) hlen.symm,
      by rw [f2, m2] <;> rfl, by rw [f3, m3] <;> rfl,
      by rw [f6, m6] <;> rfl, by rw [f4, m4] <;> rfl, by rw [f5, m5] <;> rfl, by rw [f7, m7] <;> rfl,
      by rw [f8, m8] <;> rfl, by rw [f9, m8] <;> rfl, by rw [f10, m8] <;> rfl, by rw [f11, m8] <;> rfl,
      by rw [f12, m8] <;> rfl, ?_, ?_, ?_, ?_, ?_⟩
    · intro j hj
      have hjid : j ≠ s.entries.length := by omega
      rw [hgE j, m10 j hjid, hgne j hj]
    · intro j hj hne
      have hjid : j ≠ s.entries.length := by omega
      constructor
      · rw [hgE j, m10 j hjid, hgne j hj]
      · rw [hgE j, m10 j hjid, hgne j hj]
    · intro j hj
      cases hj
    · intro p hp
      have hp2 := evictToSize_byKey_mem _ p hp
      rw [m1] at hp2
      rcases mem_insertKey hp2 with hn | ho
      · exact Or.inr ⟨by rw [hn], by rw [hn]⟩
      · exact Or.inl ho.1
    · intro x hx
      have hx2 := evictToSize_byAccess_mem _ x hx
      rcases m15 x hx2 with hc | hc
      · exact Or.inl hc
      · exact Or.inr (Or.inr hc)

theorem loadComplete_frames [Inhabited K] [DecidableEq K] (k : K) (id tok : Nat)
    (res : LoadRes V) (s : LruCache K V) (hmlt : MappedLt s)
    (hid : id < s.entries.length) :
    s.entries.length ≤ (loadComplete k id tok res s).entries.length ∧
    (loadComplete k id tok res s).closed = tok :: s.closed ∧
    (loadComplete k id tok res s).nextTok = s.nextTok ∧
    (loadComplete k id tok res s).loadFn = s.loadFn ∧
    (loadComplete k id tok res s).maxSize = s.maxSize ∧
    (loadComplete k id tok res s).defaultTTL = s.defaultTTL ∧
    (loadComplete k id tok res s).now = s.now ∧
    (∀ j, j < s.entries.length → j ≠ id →
      (getEntry (loadComplete k id tok res s) j).loading = (getEntry s j).loading) ∧
    (∀ j, j < s.entries.length → lookupKey k s.byKey ≠ some j → j ≠ id →
      (getEntry (loadComplete k id tok res s) j).key = (getEntry s j).key ∧
      (getEntry (loadComplete k id tok res s) j).hasElem = (getEntry s j).hasElem) ∧
    (∀ p ∈ (loadComplete k id tok res s).byKey,
      p ∈ s.byKey ∨ (p.1 = k ∧ p.2 = s.entries.length)) ∧
    (∀ x ∈ (loadComplete k id tok res s).byAccess,
      x ∈ s.byAccess ∨ lookupKey k s.byKey = some x ∨ x = s.entries.length) := by
  have hS2ne : ∀ j, j ≠ id → getEntry { setEntry s id
      { getEntry s id with loading := none } with closed := tok :: s.closed } j
      = getEntry s j := by
    intro j hj
    exact getD_set_ne s.entries id j _ Entry.blank hj
  have hS2len : ({ setEntry s id { getEntry s id with loading := none } with
      closed := tok :: s.closed } : LruCache K V).entries.length =
      s.entries.length := List.length_set s.entries id _
  have hS2bk : ({ setEntry s id { getEntry s id with loading := none } with
      closed := tok :: s.closed } : LruCache K V).byKey = s.byKey := rfl
  have hS2acc : ({ setEntry s id { getEntry s id with loading := none } with
      closed := tok :: s.closed } : LruCache K V).byAccess = s.byAccess := rfl
  have hS2mlt : MappedLt ({ setEntry s id { getEntry s id with loading := none } with
      closed := tok :: s.closed } : LruCache K V) := by
    intro p hp
    have : p ∈ s.byKey := hp
    show p.2 < (s.entries.set id _).length
    rw [List.length_set]
    exact hmlt p this
  unfold loadComplete
  cases res with
  | ok v expiry =>
    obtain ⟨p1, p2, p3, p4, p5, p6, p7, p8, p9, p10, p11, p12, p13, p14, p15, p16, p17⟩ :=
      putLocked_frames k v expiry { setEntry s id
        { getEntry s id with loading := none } with closed := tok :: s.closed } hS2mlt
    refine ⟨by rw [hS2len] at p1; exact p1, by rw [p2] <;> rfl, by rw [p3] <;> rfl,
      by rw [p4] <;> rfl, by rw [p5] <;> rfl, by rw [p6] <;> rfl,
      by rw [p7] <;> rfl, ?_, ?_, ?_, ?_⟩
    · intro j hj hjid
      rw [← hS2len] at hj
      rw [p13 j hj, hS2ne j hjid]
    · intro j hj hne hjid
      have hj2 := hj
      rw [← hS2len] at hj2
      have hne2 : lookupKey k ({ setEntry s id
          { getEntry s id with loading := none } with
          closed := tok :: s.closed } : LruCache K V).byKey ≠ some j := by
        rw [hS2bk]
        exact hne
      obtain ⟨hk1, hk2⟩ := p14 j hj2 hne2
      rw [hk1, hk2, hS2ne j hjid]
      exact ⟨rfl, rfl⟩
    · intro p hp
      rcases p16 p hp with hc | hc
      · rw [hS2bk] at hc
        exact Or.inl hc
      · rw [hS2len] at hc
        exact Or.inr hc
    · intro x hx
      rcases p17 x hx with hc | hc | hc
      · rw [hS2acc] at hc
        exact Or.inl hc
      · rw [hS2bk] at hc
        exact Or.inr (Or.inl hc)
      · rw [hS2len] at hc
        exact Or.inr (Or.inr hc)
  | notFound =>
    refine ⟨le_of_eq hS2len.symm, rfl, rfl, rfl, rfl, rfl, rfl, ?_, ?_, ?_, ?_⟩
    · intro j hj hjid
      exact congrArg Entry.loading (hS2ne j hjid)
    · intro j hj hne hjid
      exact ⟨congrArg Entry.key (hS2ne j hjid), congrArg Entry.hasElem (hS2ne j hjid)⟩
    · intro p hp
      exact Or.inl (mem_eraseKey hp).1
    · intro x hx
      exact Or.inl hx
  | failure =>
    refine ⟨le_of_eq hS2len.symm, rfl, rfl, rfl, rfl, rfl, rfl, ?_, ?_, ?_, ?_⟩
    · intro j hj hjid
      exact congrArg Entry.loading (hS2ne j hjid)
    · intro j hj hne hjid
      exact ⟨congrArg Entry.key (hS2ne j hjid), congrArg Entry.hasElem (hS2ne j hjid)⟩
    · intro p hp
      exact Or.inl (mem_eraseKey hp).1
    · intro x hx
      exact Or.inl hx

theorem getLocked_waitOn [Inhabited K] [DecidableEq K] {k : K}
    {s s2 : LruCache K V} {tok : Nat}
    (h : getLocked k s = (s2, GetSection.waitOn tok)) :
    s2 = s ∧ ∃ id, lookupKey k s.byKey = some id ∧
      (getEntry s id).loading = some tok := by
  unfold getLocked at h
  cases hlk : lookupKey k s.byKey with
  | none =>
    rw [hlk] at h
    rcases hll : loadLocked k s with ⟨s3, r⟩
    rw [hll] at h
    cases r with
    | miss => exact (GetSection.noConfusion (congrArg Prod.snd h))
    | started id2 tok2 => exact (GetSection.noConfusion (congrArg Prod.snd h))
  | some id =>
    rw [hlk] at h
    cases hload : (getEntry s id).loading with
    | some t =>
      simp only [hload] at h
      have hfst := congrArg Prod.fst h
      have hsnd : GetSection.waitOn (V := V) t = GetSection.waitOn tok :=
        congrArg Prod.snd h
      injection hsnd with ht
      exact ⟨hfst.symm, id, rfl, by rw [hload, ht]⟩
    | none =>
      simp only [hload] at h
      split_ifs at h with hexp
      · rcases hll : loadLocked k { s with
          stats := { s.stats with expirations := s.stats.expirations + 1 },
          byKey := eraseKey (getEntry s id).key s.byKey,
          byAccess := s.byAccess.erase id } with ⟨s3, r⟩
        rw [hll] at h
        cases r with
        | miss => exact (GetSection.noConfusion (congrArg Prod.snd h))
        | started id2 tok2 => exact (GetSection.noConfusion (congrArg Prod.snd h))
      · exact (GetSection.noConfusion (congrArg Prod.snd h))

theorem getLocked_missNoLoader [Inhabited K] [DecidableEq K] {k : K}
    {s s2 : LruCache K V} (hInv : Inv s)
    (h : getLocked k s = (s2, GetSection.missNoLoader)) :
    Inv s2 ∧ s.loadFn = none ∧ s2.loadFn = s.loadFn ∧
    s2.entries = s.entries ∧
    (∀ p ∈ s2.byKey, p ∈ s.byKey) ∧
    (∀ x ∈ s2.byAccess, x ∈ s.byAccess) ∧
    s2.closed = s.closed ∧ s2.nextTok = s.nextTok ∧
    s2.maxSize = s.maxSize ∧ s2.defaultTTL = s.defaultTTL ∧ s2.now = s.now ∧
    s2.stats.hits = s.stats.hits ∧
    s2.stats.misses = s.stats.misses + 1 ∧
    s2.stats.loadFailures = s.stats.loadFailures := by
  unfold getLocked at h
  cases hlk : lookupKey k s.byKey with
  | none =>
    rw [hlk] at h
    rcases hll : loadLocked k s with ⟨s3, r⟩
    rw [hll] at h
    cases r with
    | started id2 tok2 => exact (GetSection.noConfusion (congrArg Prod.snd h))
    | miss =>
      obtain ⟨hfn, hs3⟩ := loadLocked_miss hll
      have hfst : s3 = s2 := congrArg Prod.fst h
      rw [← hfst, hs3]
      obtain ⟨hc, hsl⟩ := hInv
      exact ⟨⟨hc, hsl⟩, hfn, rfl, rfl, fun p hp => hp, fun x hx => hx,
        rfl, rfl, rfl, rfl, rfl, rfl, rfl, rfl⟩
  | some id =>
    rw [hlk] at h
    cases hload : (getEntry s id).loading with
    | some t =>
      simp only [hload] at h
      exact (GetSection.noConfusion (congrArg Prod.snd h))
    | none =>
      simp only [hload] at h
      split_ifs at h with hexp
      · rcases hll : loadLocked k { s with
          stats := { s.stats with expirations := s.stats.expirations + 1 },
          byKey := eraseKey (getEntry s id).key s.byKey,
          byAccess := s.byAccess.erase id } with ⟨s3, r⟩
        rw [hll] at h
        cases r with
        | started id2 tok2 => exact (GetSection.noConfusion (congrArg Prod.snd h))
        | miss =>
          obtain ⟨hfn, hs3⟩ := loadLocked_miss hll
          have hfst : s3 = s2 := congrArg Prod.fst h
          have hmem : (k, id) ∈ s.byKey := lookupKey_mem hlk
          have hInvX := inv_expire s k id hInv hmem hload
          rw [← hfst, hs3]
          refine ⟨⟨hInvX.1, hInvX.2⟩, hfn, rfl, rfl, ?_, ?_,
            rfl, rfl, rfl, rfl, rfl, rfl, rfl, rfl⟩
          · intro p hp
            exact (mem_eraseKey hp).1
          · intro x hx
            exact List.mem_of_mem_erase hx
      · exact (GetSection.noConfusion (congrArg Prod.snd h))

theorem getLocked_hit [Inhabited K] [DecidableEq K] {k : K}
    {s s2 : LruCache K V} {v : Option V} (hInv : Inv s)
    (h : getLocked k s = (s2, GetSection.hit v)) :
    Inv s2 ∧ s2.entries = s.entries ∧ s2.byKey = s.byKey ∧
    (∀ x, x ∈ s2.byAccess ↔ x ∈ s.byAccess) ∧
    s2.byAccess.length = s.byAccess.length ∧
    s2.closed = s.closed ∧ s2.nextTok = s.nextTok ∧ s2.loadFn = s.loadFn ∧
    s2.maxSize = s.maxSize ∧ s2.defaultTTL = s.defaultTTL ∧ s2.now = s.now ∧
    s2.stats.hits = s.stats.hits + 1 ∧ s2.stats.misses = s.stats.misses ∧
    s2.stats.loadFailures = s.stats.loadFailures ∧
    s2.stats.loadAttempts = s.stats.loadAttempts := by
  unfold getLocked at h
  cases hlk : lookupKey k s.byKey with
  | none =>
    rw [hlk] at h
    rcases hll : loadLocked k s with ⟨s3, r⟩
    rw [hll] at h
    cases r with
    | miss => exact (GetSection.noConfusion (congrArg Prod.snd h))
    | started id2 tok2 => exact (GetSection.noConfusion (congrArg Prod.snd h))
  | some id =>
    rw [hlk] at h
    cases hload : (getEntry s id).loading with
    | some t =>
      simp only [hload] at h
      exact (GetSection.noConfusion (congrArg Prod.snd h))
    | none =>
      simp only [hload] at h
      split_ifs at h with hexp
      · rcases hll : loadLocked k { s with
          stats := { s.stats with expirations := s.stats.expirations + 1 },
          byKey := eraseKey (getEntry s id).key s.byKey,
          byAccess := s.byAccess.erase id } with ⟨s3, r⟩
        rw [hll] at h
        cases r with
        | miss => exact (GetSection.noConfusion (congrArg Prod.snd h))
        | started id2 tok2 => exact (GetSection.noConfusion (congrArg Prod.snd h))
      · have hmem : (k, id) ∈ s.byKey := lookupKey_mem hlk
        obtain ⟨⟨h1, h2, h3, h4, h5, h6, h7⟩, h8⟩ := hInv
        have hacc : id ∈ s.byAccess := h3 (k, id) hmem hload
        have hhas : (getEntry s id).hasElem = true := (h6 id hacc).2
        have hkey : (getEntry s id).key = k := h5 (k, id) hmem hacc
        have hres : moveToFrontLocked s id =
            { s with byAccess := id :: s.byAccess.erase id } := by
          unfold moveToFrontLocked
          simp only [hhas, if_true]
        have hcore : InvCore (moveToFrontLocked s id) :=
          invCore_moveToFront_mapped s k id
            ⟨h1, h2, fun p hp _ hl => h3 p hp hl, h4, h5, h6, h7⟩ hmem hkey
        have hfst := congrArg Prod.fst h
        rw [hres] at hfst
        have hfst2 : ({ s with
            byAccess := id :: s.byAccess.erase id,
            stats := { s.stats with hits := s.stats.hits + 1 } } : LruCache K V)
            = s2 := hfst
        subst hfst2
        have hcore2 : InvCore ({ s with
            byAccess := id :: s.byAccess.erase id,
            stats := { s.stats with hits := s.stats.hits + 1 } } : LruCache K V) := by
          rw [hres] at hcore
          exact hcore
        have hlen2 : (id :: s.byAccess.erase id).length = s.byAccess.length := by
          rw [List.length_cons, List.length_erase_of_mem hacc]
          have hpos : 0 < s.byAccess.length := List.length_pos.mpr (fun hh => by
            rw [hh] at hacc; cases hacc)
          omega
        refine ⟨⟨hcore2, ?_⟩, rfl, rfl, ?_, ?_, rfl, rfl, rfl, rfl, rfl, rfl,
          rfl, rfl, rfl, rfl⟩
        · intro hm
          show ((id :: s.byAccess.erase id).length : Int) ≤ s.maxSize
          rw [hlen2]
          exact h8 hm
        · intro x
          constructor
          · intro hx
            rcases List.mem_cons.mp hx with hx1 | hx2
            · rw [hx1]; exact hacc
            · exact List.mem_of_mem_erase hx2
          · intro hx
            by_cases hxid : x = id
            · rw [hxid]; exact List.mem_cons_self _ _
            · exact List.mem_cons_of_mem _ ((List.mem_erase_of_ne hxid).mpr hx)
        · show (id :: s.byAccess.erase id).length = s.byAccess.length
          exact hlen2

theorem loadLocked_started_char [Inhabited K] [DecidableEq K] {k : K}
    {s s2 : LruCache K V} {id tok : Nat} (hInv : Inv s)
    (h : loadLocked k s = (s2, LoadStart.started id tok)) :
    Inv s2 ∧ id = s.entries.length ∧ tok = s.nextTok ∧
    s2.entries.length = s.entries.length + 1 ∧
    lookupKey k s2.byKey = some id ∧
    getEntry s2 id = ({
      key := k, val := none, expiry := 0,
      loading := some tok, hasElem := false } : Entry K V) ∧
    (∀ p ∈ s2.byKey, p.2 = id → p.1 = k) ∧
    (∀ p ∈ s2.byKey, p ∈ s.byKey ∨ p = (k, id)) ∧
    (∀ j, j < s.entries.length → getEntry s2 j = getEntry s j) ∧
    s2.byAccess = s.byAccess ∧ id ∉ s2.byAccess ∧
    s2.closed = s.closed ∧ s2.nextTok = s.nextTok + 1 ∧ s2.loadFn = s.loadFn ∧
    s2.maxSize = s.maxSize ∧ s2.defaultTTL = s.defaultTTL ∧ s2.now = s.now ∧
    s2.stats.hits = s.stats.hits ∧ s2.stats.misses = s.stats.misses ∧
    s2.stats.loadFailures = s.stats.loadFailures ∧
    s2.stats.loadAttempts = s.stats.loadAttempts + 1 := by
  obtain ⟨hid, htok, hfn, hbk, hent, hba, hcl, hnt, hms, httl, hlf, hnow, hst⟩ :=
    loadLocked_started h
  have hInv2 : Inv s2 := by
    have hi := inv_loadLocked k s hInv
    rw [h] at hi
    exact hi
  obtain ⟨⟨h1, h2, h3, h4, h5, h6, h7⟩, h8⟩ := hInv
  subst hid
  subst htok
  refine ⟨hInv2, rfl, rfl, ?_, ?_, ?_, ?_, ?_, ?_, hba, ?_, hcl, hnt, hlf,
    hms, httl, hnow, ?_, ?_, ?_, ?_⟩
  · rw [hent, List.length_append]
    rfl
  · rw [hbk]
    exact lookupKey_insertKey_self k s.entries.length s.byKey
  · show s2.entries.getD s.entries.length Entry.blank = _
    rw [hent]
    exact getD_append_length s.entries _ Entry.blank
  · intro p hp hpid
    rw [hbk] at hp
    rcases mem_insertKey hp with hn | ho
    · rw [hn]
    · exact absurd (hpid ▸ h2 p ho.1) (lt_irrefl _)
  · intro p hp
    rw [hbk] at hp
    rcases mem_insertKey hp with hn | ho
    · exact Or.inr hn
    · exact Or.inl ho.1
  · intro j hj
    show s2.entries.getD j Entry.blank = s.entries.getD j Entry.blank
    rw [hent]
    exact getD_append_left s.entries _ j Entry.blank hj
  · rw [hba]
    intro hin
    exact absurd ((h6 _ hin).1) (lt_irrefl _)
  · rw [hst]
  · rw [hst]
  · rw [hst]
  · rw [hst]

theorem getLocked_startLoad [Inhabited K] [DecidableEq K] {k : K}
    {s s2 : LruCache K V} {id tok : Nat} (hInv : Inv s)
    (h : getLocked k s = (s2, GetSection.startLoad id tok)) :
    Inv s2 ∧ id = s.entries.length ∧ tok = s.nextTok ∧
    s2.entries.length = s.entries.length + 1 ∧
    lookupKey k s2.byKey = some id ∧
    getEntry s2 id = ({
      key := k, val := none, expiry := 0,
      loading := some tok, hasElem := false } : Entry K V) ∧
    (∀ p ∈ s2.byKey, p.2 = id → p.1 = k) ∧
    (∀ p ∈ s2.byKey, p ∈ s.byKey ∨ p = (k, id)) ∧
    (∀ j, j < s.entries.length → getEntry s2 j = getEntry s j) ∧
    (∀ x ∈ s2.byAccess, x ∈ s.byAccess) ∧ id ∉ s2.byAccess ∧
    s2.closed = s.closed ∧ s2.nextTok = s.nextTok + 1 ∧ s2.loadFn = s.loadFn ∧
    s2.maxSize = s.maxSize ∧ s2.defaultTTL = s.defaultTTL ∧ s2.now = s.now ∧
    s2.stats.hits = s.stats.hits ∧ s2.stats.misses = s.stats.misses ∧
    s2.stats.loadFailures = s.stats.loadFailures ∧
    s2.stats.loadAttempts = s.stats.loadAttempts + 1 := by
  unfold getLocked at h
  cases hlk : lookupKey k s.byKey with
  | none =>
    rw [hlk] at h
    rcases hll : loadLocked k s with ⟨s3, r⟩
    rw [hll] at h
    cases r with
    | miss => exact (GetSection.noConfusion (congrArg Prod.snd h))
    | started id2 tok2 =>
      have hsnd : GetSection.startLoad (V := V) id2 tok2 =
          GetSection.startLoad id tok := congrArg Prod.snd h
      injection hsnd with hi ht
      have hfst : s3 = s2 := congrArg Prod.fst h
      subst hi; subst ht; subst hfst
      obtain ⟨hI2, hidq, htokq, hlenq, hlkq, hgeq, hkeysq, hsubq, hfrq,
        hbaq, hnotq, hclq, hntq, hlfq, hmsq, httlq, hnowq, hh1, hh2,
        hh3, hh4⟩ := loadLocked_started_char hInv hll
      exact ⟨hI2, hidq, htokq, hlenq, hlkq, hgeq, hkeysq, hsubq, hfrq,
        fun x hx => hbaq ▸ hx, hnotq, hclq, hntq, hlfq, hmsq, httlq, hnowq,
        hh1, hh2, hh3, hh4⟩
  | some id0 =>
    rw [hlk] at h
    cases hload : (getEntry s id0).loading with
    | some t =>
      simp only [hload] at h
      exact (GetSection.noConfusion (congrArg Prod.snd h))
    | none =>
      simp only [hload] at h
      split_ifs at h with hexp
      · rcases hll : loadLocked k { s with
          stats := { s.stats with expirations := s.stats.expirations + 1 },
          byKey := eraseKey (getEntry s id0).key s.byKey,
          byAccess := s.byAccess.erase id0 } with ⟨s3, r⟩
        rw [hll] at h
        cases r with
        | miss => exact (GetSection.noConfusion (congrArg Prod.snd h))
        | started id2 tok2 =>
          have hsnd : GetSection.startLoad (V := V) id2 tok2 =
              GetSection.startLoad id tok := congrArg Prod.snd h
          injection hsnd with hi ht
          have hfst : s3 = s2 := congrArg Prod.fst h
          subst hi; subst ht; subst hfst
          have hmem : (k, id0) ∈ s.byKey := lookupKey_mem hlk
          have hInvX := inv_expire s k id0 hInv hmem hload
          obtain ⟨hI2, hidq, htokq, hlenq, hlkq, hgeq, hkeysq, hsubq, hfrq,
            hbaq, hnotq, hclq, hntq, hlfq, hmsq, httlq, hnowq, hh1, hh2,
            hh3, hh4⟩ := loadLocked_started_char hInvX hll
          refine ⟨hI2, hidq, htokq, hlenq, hlkq, hgeq, hkeysq, ?_, hfrq, ?_,
            hnotq, hclq, hntq, hlfq, hmsq, httlq, hnowq, hh1, hh2, hh3, hh4⟩
          · intro p hp
            rcases hsubq p hp with hin | hnew
            · exact Or.inl (mem_eraseKey hin).1
            · exact Or.inr hnew
          · intro x hx
            rw [hbaq] at hx
            exact List.mem_of_mem_erase hx
      · exact (GetSection.noConfusion (congrArg Prod.snd h))

theorem inv_applyOp [Inhabited K] [DecidableEq K] (op : Op K V) (s : LruCache K V)
    (h : Inv s) : Inv (applyOp op s) ∧ (applyOp op s).maxSize = s.maxSize := by
  cases op with
  | put k v =>
    obtain ⟨⟨h1, h2, h3, h4, h5, h6, h7⟩, h8⟩ := h
    exact ⟨inv_putLocked k v 0 s ⟨h1, h2, fun p hp _ hl => h3 p hp hl, h4, h5, h6, h7⟩,
      (putLocked_frames k v 0 s h2).2.2.2.2.1⟩
  | putTTL k v expiry =>
    obtain ⟨⟨h1, h2, h3, h4, h5, h6, h7⟩, h8⟩ := h
    exact ⟨inv_putLocked k v expiry s
      ⟨h1, h2, fun p hp _ hl => h3 p hp hl, h4, h5, h6, h7⟩,
      (putLocked_frames k v expiry s h2).2.2.2.2.1⟩
  | advance d => exact ⟨h, rfl⟩
  | get k =>
    show Inv (seqGet k s).1 ∧ (seqGet k s).1.maxSize = s.maxSize
    rcases hg : getLocked k s with ⟨s3, r⟩
    cases r with
    | hit v =>
      obtain ⟨hI, _, _, _, _, _, _, _, hms, _⟩ := getLocked_hit h hg
      have hs : (seqGet k s).1 = s3 := by simp only [seqGet, hg]
      rw [hs]
      exact ⟨hI, hms⟩
    | missNoLoader =>
      obtain ⟨hI, _, _, _, _, _, _, _, hms, _⟩ := getLocked_missNoLoader h hg
      have hs : (seqGet k s).1 = s3 := by simp only [seqGet, hg]
      rw [hs]
      exact ⟨hI, hms⟩
    | waitOn tok =>
      obtain ⟨hse, _⟩ := getLocked_waitOn hg
      have hs : (seqGet k s).1 = s3 := by simp only [seqGet, hg]
      rw [hs, hse]
      exact ⟨h, rfl⟩
    | startLoad id tok =>
      obtain ⟨hI2, hidq, htokq, hlenq, hlkq, hgeq, hkeysq, hsubq, hfrq,
        hbaq, hnotq, hclq, hntq, hlfq, hmsq, httlq, hnowq, hh1, hh2,
        hh3, hh4⟩ := getLocked_startLoad h hg
      cases hf : s3.loadFn with
      | none =>
        have hs : (seqGet k s).1 = s3 := by simp only [seqGet, hg, hf]
        rw [hs]
        exact ⟨hI2, hmsq⟩
      | some f =>
        have hid2 : id < s3.entries.length := by rw [hlenq, hidq]; omega
        have hkf : (getEntry s3 id).key = k := by rw [hgeq]
        have hfin : ∀ res : LoadRes V,
            Inv (loadComplete k id tok res s3) ∧
            (loadComplete k id tok res s3).maxSize = s.maxSize := fun res =>
          ⟨inv_loadComplete k id tok res s3 hI2 hid2 hkf hkeysq,
           ((loadComplete_frames k id tok res s3 hI2.1.2.1 hid2).2.2.2.2.1).trans
             hmsq⟩
        cases hfk : f k with
        | ok v expiry =>
          have hs : (seqGet k s).1 = loadComplete k id tok (LoadRes.ok v expiry) s3 := by
            simp only [seqGet, hg, hf, hfk]
          rw [hs]
          exact hfin _
        | notFound =>
          have hs : (seqGet k s).1 = loadComplete k id tok LoadRes.notFound s3 := by
            simp only [seqGet, hg, hf, hfk]
          rw [hs]
          exact hfin _
        | failure =>
          have hs : (seqGet k s).1 = loadComplete k id tok LoadRes.failure s3 := by
            simp only [seqGet, hg, hf, hfk]
          rw [hs]
          exact hfin _

theorem inv_runOps [Inhabited K] [DecidableEq K] (ops : List (Op K V))
    (s : LruCache K V) (h : Inv s) :
    Inv (runOps ops s) ∧ (runOps ops s).maxSize = s.maxSize := by
  induction ops generalizing s with
  | nil => exact ⟨h, rfl⟩
  | cons op ops ih =>
    have hstep := inv_applyOp op s h
    have hrest := ih (applyOp op s) hstep.1
    exact ⟨hrest.1, hrest.2.trans hstep.2⟩

theorem inv_newLRUCache [Inhabited K] [DecidableEq K] (cap defaultTTL now : Int)
    (lf : Option (K → LoadRes V)) :
    Inv (newLRUCache cap defaultTTL lf now : LruCache K V) := by
  refine ⟨⟨?_, ?_, ?_, ?_, ?_, ?_, ?_⟩, ?_⟩
  · exact List.nodup_nil
  · intro p hp; cases hp
  · intro p hp; cases hp
  · intro p hp; cases hp
  · intro p hp; cases hp
  · intro b hb; cases hb
  · exact List.nodup_nil
  · intro hm
    simpa using hm

/-- C7 counterexample: starting from a fresh shard with a get and a put for
the same key "a", the schedule load-start-then-put reaches a state where
the entry mapped under "a" both carries a load signal and sits in the
recency list, so it is neither a not-yet-listed loading placeholder nor a
completed listed entry. -/
theorem put_during_load_listed_placeholder :
    ReachableSys putDuringLoadInit putDuringLoadFinal ∧
    lookupKey "a" putDuringLoadFinal.cache.byKey = some 0 ∧
    (getEntry putDuringLoadFinal.cache 0).loading = some 0 ∧
    0 ∈ putDuringLoadFinal.cache.byAccess := by
  refine ⟨runActs_reachable putDuringLoadActs putDuringLoadInit putDuringLoadFinal rfl, by decide, by decide, by decide⟩

/-- C6 counterexample: with capacity 1, a get for "a" starts a load; a put
for "a" promotes the loading placeholder into the recency list; a put for
"b" evicts it, unmapping "a"; a second get for "a" then starts another load
while the first is still in flight — two loads in flight for one key. -/
theorem concurrent_double_load :
    ReachableSys doubleLoadInit doubleLoadFinal ∧
    doubleLoadFinal.threads[0]? = some (TState.inLoad "a" 0 0) ∧
    doubleLoadFinal.threads[3]? = some (TState.inLoad "a" 2 1) := by
  refine ⟨runActs_reachable doubleLoadActs doubleLoadInit doubleLoadFinal rfl, by decide, by decide⟩

theorem runCount_cons [Inhabited K] [DecidableEq K] (op : Op K V)
    (rest : List (Op K V)) (s : LruCache K V) :
    runCount (op :: rest) s = opCount op s + runCount rest (applyOp op s) := by
  cases op <;> simp [runCount, opCount, applyOp]

theorem sum3_applyOp [Inhabited K] [DecidableEq K] (op : Op K V)
    (s : LruCache K V) (h : Inv s) :
    Stats.sum3 (applyOp op s).stats = Stats.sum3 s.stats + opCount op s := by
  cases op with
  | put k v =>
    obtain ⟨⟨h1, h2, h3, h4, h5, h6, h7⟩, h8⟩ := h
    obtain ⟨_, _, _, _, _, _, _, hh, hm, _, hf2, _⟩ := putLocked_frames k v 0 s h2
    show Stats.sum3 (putLocked k v 0 s).stats = Stats.sum3 s.stats + 0
    unfold Stats.sum3
    rw [hh, hm, hf2]
    omega
  | putTTL k v expiry =>
    obtain ⟨⟨h1, h2, h3, h4, h5, h6, h7⟩, h8⟩ := h
    obtain ⟨_, _, _, _, _, _, _, hh, hm, _, hf2, _⟩ :=
      putLocked_frames k v expiry s h2
    show Stats.sum3 (putLocked k v expiry s).stats = Stats.sum3 s.stats + 0
    unfold Stats.sum3
    rw [hh, hm, hf2]
    omega
  | advance d => rfl
  | get k =>
    rcases hg : getLocked k s with ⟨s3, r⟩
    cases r with
    | hit v =>
      obtain ⟨_, _, _, _, _, _, _, _, _, _, _, hh, hm, hf2, _⟩ :=
        getLocked_hit h hg
      have hs : seqGet k s = (s3, GetRes.hit v) := by simp only [seqGet, hg]
      show Stats.sum3 (seqGet k s).1.stats =
        Stats.sum3 s.stats + opCount (Op.get k) s
      rw [opCount, hs]
      show Stats.sum3 s3.stats = Stats.sum3 s.stats + 1
      unfold Stats.sum3
      omega
    | missNoLoader =>
      obtain ⟨_, _, _, _, _, _, _, _, _, _, _, hh, hm, hf2⟩ :=
        getLocked_missNoLoader h hg
      have hs : seqGet k s = (s3, GetRes.notFound) := by simp only [seqGet, hg]
      show Stats.sum3 (seqGet k s).1.stats =
        Stats.sum3 s.stats + opCount (Op.get k) s
      rw [opCount, hs]
      show Stats.sum3 s3.stats = Stats.sum3 s.stats + 1
      unfold Stats.sum3
      omega
    | waitOn tok =>
      obtain ⟨hse, _⟩ := getLocked_waitOn hg
      have hs : seqGet k s = (s3, GetRes.blocked) := by simp only [seqGet, hg]
      show Stats.sum3 (seqGet k s).1.stats =
        Stats.sum3 s.stats + opCount (Op.get k) s
      rw [opCount, hs, hse]
      show Stats.sum3 s.stats = Stats.sum3 s.stats + 0
      rfl
    | startLoad id tok =>
      obtain ⟨hI2, hidq, htokq, hlenq, hlkq, hgeq, hkeysq, hsubq, hfrq,
        hbaq, hnotq, hclq, hntq, hlfq, hmsq, httlq, hnowq, hh1, hh2,
        hh3, hh4⟩ := getLocked_startLoad h hg
      cases hf : s3.loadFn with
      | none =>
        have hs : seqGet k s = (s3, GetRes.blocked) := by
          simp only [seqGet, hg, hf]
        show Stats.sum3 (seqGet k s).1.stats =
          Stats.sum3 s.stats + opCount (Op.get k) s
        rw [opCount, hs]
        show Stats.sum3 s3.stats = Stats.sum3 s.stats + 0
        unfold Stats.sum3
        omega
      | some f =>
        have hmlt3 : MappedLt s3 := hI2.1.2.1
        have hmltMid : MappedLt ({ setEntry s3 id
            { getEntry s3 id with loading := none } with
            closed := tok :: s3.closed } : LruCache K V) := by
          intro p hp
          have hp2 : p ∈ s3.byKey := hp
          show p.2 < (s3.entries.set id _).length
          rw [List.length_set]
          exact hmlt3 p hp2
        cases hfk : f k with
        | ok v expiry =>
          have hs : seqGet k s =
              (loadComplete k id tok (LoadRes.ok v expiry) s3,
               GetRes.loaded v) := by
            simp only [seqGet, hg, hf, hfk]
          show Stats.sum3 (seqGet k s).1.stats =
            Stats.sum3 s.stats + opCount (Op.get k) s
          rw [opCount, hs]
          show Stats.sum3 (loadComplete k id tok (LoadRes.ok v expiry) s3).stats
            = Stats.sum3 s.stats + 0
          obtain ⟨_, _, _, _, _, _, _, hh, hm, _, hf2, _⟩ :=
            putLocked_frames k v expiry _ hmltMid
          have hlc : loadComplete k id tok (LoadRes.ok v expiry) s3 =
              putLocked k v expiry ({ setEntry s3 id
                { getEntry s3 id with loading := none } with
                closed := tok :: s3.closed } : LruCache K V) := rfl
          rw [hlc]
          unfold Stats.sum3
          rw [hh, hm, hf2]
          show s3.stats.hits + s3.stats.misses + s3.stats.loadFailures =
            s.stats.hits + s.stats.misses + s.stats.loadFailures + 0
          omega
        | notFound =>
          have hs : seqGet k s =
              (loadComplete k id tok LoadRes.notFound s3,
               GetRes.loadNotFound) := by
            simp only [seqGet, hg, hf, hfk]
          show Stats.sum3 (seqGet k s).1.stats =
            Stats.sum3 s.stats + opCount (Op.get k) s
          rw [opCount, hs]
          show Stats.sum3 (loadComplete k id tok LoadRes.notFound s3).stats
            = Stats.sum3 s.stats + 1
          show s3.stats.hits + (s3.stats.misses + 1) + s3.stats.loadFailures =
            s.stats.hits + s.stats.misses + s.stats.loadFailures + 1
          omega
        | failure =>
          have hs : seqGet k s =
              (loadComplete k id tok LoadRes.failure s3,
               GetRes.loadFailed) := by
            simp only [seqGet, hg, hf, hfk]
          show Stats.sum3 (seqGet k s).1.stats =
            Stats.sum3 s.stats + opCount (Op.get k) s
          rw [opCount, hs]
          show Stats.sum3 (loadComplete k id tok LoadRes.failure s3).stats
            = Stats.sum3 s.stats + 1
          show s3.stats.hits + s3.stats.misses + (s3.stats.loadFailures + 1) =
            s.stats.hits + s.stats.misses + s.stats.loadFailures + 1
          omega

theorem sum3_runOps [Inhabited K] [DecidableEq K] (ops : List (Op K V))
    (s : LruCache K V) (h : Inv s) :
    Stats.sum3 (runOps ops s).stats = Stats.sum3 s.stats + runCount ops s := by
  induction ops generalizing s with
  | nil => rfl
  | cons op rest ih =>
    have hInv2 := (inv_applyOp op s h).1
    have hrest := ih (applyOp op s) hInv2
    rw [runCount_cons]
    show Stats.sum3 (runOps rest (applyOp op s)).stats = _
    rw [hrest, sum3_applyOp op s h]
    omega

theorem evictFuel_survive [Inhabited K] [DecidableEq K] (fuel : Nat) :
    ∀ (s : LruCache K V) (k : K) (id : Nat),
    s.byAccess.Nodup → ListedMapped s →
    lookupKey k s.byKey = some id → s.byAccess.head? = some id →
    0 < s.maxSize →
    lookupKey k (evictFuel fuel s).byKey = some id ∧
    (evictFuel fuel s).entries = s.entries := by
  induction fuel with
  | zero =>
    intro s k id _ _ hlk _ _
    exact ⟨hlk, rfl⟩
  | succ fuel ih =>
    intro s k id hnd hlm hlk hhd hms
    by_cases hlen : (s.byAccess.length : Int) > s.maxSize
    · have hne : s.byAccess ≠ [] := by
        intro hnil
        rw [hnil] at hhd
        cases hhd
      have hgl : s.byAccess.getLast? = some (s.byAccess.getLast hne) :=
        List.getLast?_eq_getLast _ hne
      have hbackmem : s.byAccess.getLast hne ∈ s.byAccess := List.getLast_mem hne
      obtain ⟨t, ht⟩ : ∃ t, s.byAccess = id :: t := by
        cases hb : s.byAccess with
        | nil => exact absurd hb hne
        | cons a t =>
          rw [hb] at hhd
          injection hhd with ha
          exact ⟨t, by rw [ha]⟩
      have hlen2 : 2 ≤ s.byAccess.length := by
        rw [ht]
        rw [ht] at hlen
        cases t with
        | nil =>
          exfalso
          simp only [List.length_cons, List.length_nil] at hlen
          omega
        | cons b t2 =>
          simp only [List.length_cons]
          omega
      obtain ⟨b0, t2, ht2⟩ : ∃ b0 t2, s.byAccess = id :: b0 :: t2 := by
        cases htl : t with
        | nil =>
          exfalso
          rw [ht, htl] at hlen2
          simp at hlen2
        | cons b0 t2 => exact ⟨b0, t2, by rw [ht, htl]⟩
      have hidmem : id ∈ s.byAccess.dropLast := by
        rw [ht2]
        exact List.mem_cons_self _ _
      have hbackne : s.byAccess.getLast hne ≠ id := by
        intro he
        exact (nodup_not_mem_dropLast _ _ hnd hgl) (he ▸ hidmem)
      have hkback : (getEntry s (s.byAccess.getLast hne)).key ≠ k := by
        intro hkb
        have hb := hlm _ hbackmem
        rw [hkb, hlk] at hb
        exact hbackne (Option.some_injective _ hb).symm
      have hnd2 : (evictStep s (s.byAccess.getLast hne)).byAccess.Nodup :=
        List.Nodup.sublist (List.dropLast_sublist _) hnd
      have hlm2 : ListedMapped (evictStep s (s.byAccess.getLast hne)) := by
        intro b hb
        have hbmem : b ∈ s.byAccess := (List.dropLast_sublist _).subset hb
        have hbne : b ≠ s.byAccess.getLast hne := by
          intro he
          exact (nodup_not_mem_dropLast _ _ hnd hgl) (he ▸ hb)
        have hbmap := hlm b hbmem
        have hkne : (getEntry s b).key ≠ (getEntry s (s.byAccess.getLast hne)).key := by
          intro he
          have hb2 := hlm _ hbackmem
          rw [← he, hbmap] at hb2
          exact hbne (Option.some_injective _ hb2)
        show lookupKey (getEntry s b).key
          (eraseKey (getEntry s (s.byAccess.getLast hne)).key s.byKey) = some b
        rw [lookupKey_eraseKey_ne _ hkne]
        exact hbmap
      have hlk2 : lookupKey k (evictStep s (s.byAccess.getLast hne)).byKey
          = some id := by
        show lookupKey k
          (eraseKey (getEntry s (s.byAccess.getLast hne)).key s.byKey) = some id
        rw [lookupKey_eraseKey_ne _ (fun he => hkback he.symm)]
        exact hlk
      have hhd2 : (evictStep s (s.byAccess.getLast hne)).byAccess.head?
          = some id := by
        show (s.byAccess.dropLast).head? = some id
        rw [ht2]
        rfl
      obtain ⟨hA, hB⟩ := ih (evictStep s (s.byAccess.getLast hne)) k id
        hnd2 hlm2 hlk2 hhd2 hms
      rw [evictFuel, if_pos hlen, hgl]
      exact ⟨hA, hB⟩
    · rw [evictFuel, if_neg hlen]
      exact ⟨hlk, rfl⟩

theorem putLocked_expiry [Inhabited K] [DecidableEq K] (k : K) (v : V)
    (expiry : Int) (s : LruCache K V) (h : SeqInv s) (hms : 0 < s.maxSize) :
    entryExpiryOf (putLocked k v expiry s) k =
      some (newExpiry s expiry (match lookupKey k s.byKey with
        | some id => (getEntry s id).expiry
        | none => 0)) := by
  obtain ⟨⟨⟨h1, h2, h3, h4, h5, h6, h7⟩, h8⟩, hnl, hlm⟩ := h
  cases hlk : lookupKey k s.byKey with
  | some id =>
    have hmem := lookupKey_mem hlk
    have hid : id < s.entries.length := h2 _ hmem
    have hload : (getEntry s id).loading = none := hnl _ hmem
    have hacc : id ∈ s.byAccess := h3 _ hmem hload
    have hhas : (getEntry s id).hasElem = true := (h6 _ hacc).2
    have hput : putLocked k v expiry s = evictToSize (moveToFrontLocked
        (setEntry s id ({
          key := k, val := some v,
          expiry := newExpiry s expiry (getEntry s id).expiry,
          loading := (getEntry s id).loading,
          hasElem := (getEntry s id).hasElem } : Entry K V)) id) := by
      unfold putLocked
      simp only [hlk]
    have hself : getEntry (setEntry s id ({
        key := k, val := some v,
        expiry := newExpiry s expiry (getEntry s id).expiry,
        loading := (getEntry s id).loading,
        hasElem := (getEntry s id).hasElem } : Entry K V)) id = ({
        key := k, val := some v,
        expiry := newExpiry s expiry (getEntry s id).expiry,
        loading := (getEntry s id).loading,
        hasElem := (getEntry s id).hasElem } : Entry K V) :=
      getD_set_self s.entries id _ Entry.blank hid
    have hmf : moveToFrontLocked (setEntry s id ({
        key := k, val := some v,
        expiry := newExpiry s expiry (getEntry s id).expiry,
        loading := (getEntry s id).loading,
        hasElem := (getEntry s id).hasElem } : Entry K V)) id =
        { setEntry s id ({
            key := k, val := some v,
            expiry := newExpiry s expiry (getEntry s id).expiry,
            loading := (getEntry s id).loading,
            hasElem := (getEntry s id).hasElem } : Entry K V) with
          byAccess := id :: s.byAccess.erase id } := by
      have hc : (getEntry (setEntry s id ({
          key := k, val := some v,
          expiry := newExpiry s expiry (getEntry s id).expiry,
          loading := (getEntry s id).loading,
          hasElem := (getEntry s id).hasElem } : Entry K V)) id).hasElem = true := by
        rw [hself]
        exact hhas
      simp only [moveToFrontLocked]
      rw [if_pos hc]
      rfl
    have hnd2 : (id :: s.byAccess.erase id).Nodup :=
      List.nodup_cons.mpr
        ⟨fun hmem2 => ((List.Nodup.mem_erase_iff h7).mp hmem2).1 rfl, h7.erase id⟩
    have hlm2 : ListedMapped ({ setEntry s id ({
        key := k, val := some v,
        expiry := newExpiry s expiry (getEntry s id).expiry,
        loading := (getEntry s id).loading,
        hasElem := (getEntry s id).hasElem } : Entry K V) with
        byAccess := id :: s.byAccess.erase id } : LruCache K V) := by
      intro b hb
      rcases List.mem_cons.mp hb with hb1 | hb2
      · subst hb1
        show lookupKey (getEntry (setEntry s b _) b).key s.byKey = some b
        rw [hself]
        exact hlk
      · have hbne : b ≠ id := ((List.Nodup.mem_erase_iff h7).mp hb2).1
        have hbmem : b ∈ s.byAccess := List.mem_of_mem_erase hb2
        show lookupKey (getEntry (setEntry s id _) b).key s.byKey = some b
        have hgb : getEntry (setEntry s id ({
            key := k, val := some v,
            expiry := newExpiry s expiry (getEntry s id).expiry,
            loading := (getEntry s id).loading,
            hasElem := (getEntry s id).hasElem } : Entry K V)) b = getEntry s b :=
          getD_set_ne s.entries id b _ Entry.blank hbne
        rw [hgb]
        exact hlm b hbmem
    obtain ⟨hlkF, hentF⟩ := evictFuel_survive _ _ k id hnd2 hlm2
      (by show lookupKey k s.byKey = some id; exact hlk) rfl hms
    rw [hput]
    show (lookupKey k (evictToSize _).byKey).map _ = _
    rw [hmf]
    unfold evictToSize
    rw [hlkF]
    show some ((getEntry _ id).expiry) = _
    have hge : getEntry (evictFuel ((({ setEntry s id ({
        key := k, val := some v,
        expiry := newExpiry s expiry (getEntry s id).expiry,
        loading := (getEntry s id).loading,
        hasElem := (getEntry s id).hasElem } : Entry K V) with
        byAccess := id :: s.byAccess.erase id } : LruCache K V)).byAccess.length)
        ({ setEntry s id ({
        key := k, val := some v,
        expiry := newExpiry s expiry (getEntry s id).expiry,
        loading := (getEntry s id).loading,
        hasElem := (getEntry s id).hasElem } : Entry K V) with
        byAccess := id :: s.byAccess.erase id } : LruCache K V)) id = ({
        key := k, val := some v,
        expiry := newExpiry s expiry (getEntry s id).expiry,
        loading := (getEntry s id).loading,
        hasElem := (getEntry s id).hasElem } : Entry K V) := by
      show (evictFuel _ _).entries.getD id Entry.blank = _
      rw [hentF]
      exact hself
    rw [hge]
  | none =>
    have hid0 : s.entries.length ∉ s.byAccess := by
      intro hin
      exact absurd ((h6 _ hin).1) (lt_irrefl _)
    have hput : putLocked k v expiry s = evictToSize (moveToFrontLocked
        ({ s with
          entries := s.entries ++ [({
            key := k, val := some v, expiry := newExpiry s expiry 0,
            loading := none, hasElem := false } : Entry K V)],
          byKey := insertKey k s.entries.length s.byKey } : LruCache K V)
        s.entries.length) := by
      unfold putLocked
      simp only [hlk]
    have hself : getEntry ({ s with
        entries := s.entries ++ [({
          key := k, val := some v, expiry := newExpiry s expiry 0,
          loading := none, hasElem := false } : Entry K V)],
        byKey := insertKey k s.entries.length s.byKey } : LruCache K V)
        s.entries.length = ({
          key := k, val := some v, expiry := newExpiry s expiry 0,
          loading := none, hasElem := false } : Entry K V) :=
      getD_append_length s.entries _ Entry.blank
    have hmf : moveToFrontLocked ({ s with
        entries := s.entries ++ [({
          key := k, val := some v, expiry := newExpiry s expiry 0,
          loading := none, hasElem := false } : Entry K V)],
        byKey := insertKey k s.entries.length s.byKey } : LruCache K V)
        s.entries.length =
        ({ setEntry ({ s with
            entries := s.entries ++ [({
              key := k, val := some v, expiry := newExpiry s expiry 0,
              loading := none, hasElem := false } : Entry K V)],
            byKey := insertKey k s.entries.length s.byKey } : LruCache K V)
          s.entries.length ({
            key := k, val := some v, expiry := newExpiry s expiry 0,
            loading := none, hasElem := true } : Entry K V) with
          byAccess := s.entries.length :: s.byAccess } : LruCache K V) := by
      unfold moveToFrontLocked
      simp only [hself, Bool.false_eq_true, if_false]
    have hlen1 : s.entries.length <
        (s.entries ++ [({
          key := k, val := some v, expiry := newExpiry s expiry 0,
          loading := none, hasElem := false } : Entry K V)]).length := by
      rw [List.length_append]
      simp
    have hnd2 : (s.entries.length :: s.byAccess).Nodup :=
      List.nodup_cons.mpr ⟨hid0, h7⟩
    have hself2 : ((s.entries ++ [({
        key := k, val := some v, expiry := newExpiry s expiry 0,
        loading := none, hasElem := false } : Entry K V)]).set s.entries.length
        ({ key := k, val := some v, expiry := newExpiry s expiry 0,
           loading := none, hasElem := true } : Entry K V)).getD s.entries.length
        Entry.blank = ({
          key := k, val := some v, expiry := newExpiry s expiry 0,
          loading := none, hasElem := true } : Entry K V) :=
      getD_set_self _ _ _ Entry.blank hlen1
    have hlm2 : ListedMapped (({ setEntry ({ s with
        entries := s.entries ++ [({
          key := k, val := some v, expiry := newExpiry s expiry 0,
          loading := none, hasElem := false } : Entry K V)],
        byKey := insertKey k s.entries.length s.byKey } : LruCache K V)
        s.entries.length ({
          key := k, val := some v, expiry := newExpiry s expiry 0,
          loading := none, hasElem := true } : Entry K V) with
        byAccess := s.entries.length :: s.byAccess } : LruCache K V)) := by
      intro b hb
      rcases List.mem_cons.mp hb with hb1 | hb2
      · subst hb1
        show lookupKey (((s.entries ++ _).set s.entries.length _).getD
          s.entries.length Entry.blank).key
          (insertKey k s.entries.length s.byKey) = some s.entries.length
        rw [hself2]
        exact lookupKey_insertKey_self k s.entries.length s.byKey
      · have hblt : b < s.entries.length := (h6 _ hb2).1
        have hbne : b ≠ s.entries.length := Nat.ne_of_lt hblt
        show lookupKey (((s.entries ++ _).set s.entries.length _).getD b
          Entry.blank).key (insertKey k s.entries.length s.byKey) = some b
        rw [getD_set_ne _ _ _ _ Entry.blank hbne,
          getD_append_left s.entries _ b Entry.blank hblt]
        have hkb : (s.entries.getD b Entry.blank).key ≠ k := by
          intro he
          have h9 : lookupKey (s.entries.getD b Entry.blank).key s.byKey
              = some b := hlm b hb2
          rw [he, hlk] at h9
          cases h9
        rw [lookupKey_insertKey_ne _ _ hkb]
        exact hlm b hb2
    obtain ⟨hlkF, hentF⟩ := evictFuel_survive
      (({ setEntry ({ s with
          entries := s.entries ++ [({
            key := k, val := some v, expiry := newExpiry s expiry 0,
            loading := none, hasElem := false } : Entry K V)],
          byKey := insertKey k s.entries.length s.byKey } : LruCache K V)
          s.entries.length ({
            key := k, val := some v, expiry := newExpiry s expiry 0,
            loading := none, hasElem := true } : Entry K V) with
        byAccess := s.entries.length :: s.byAccess } : LruCache K V).byAccess.length)
      (({ setEntry ({ s with
          entries := s.entries ++ [({
            key := k, val := some v, expiry := newExpiry s expiry 0,
            loading := none, hasElem := false } : Entry K V)],
          byKey := insertKey k s.entries.length s.byKey } : LruCache K V)
          s.entries.length ({
            key := k, val := some v, expiry := newExpiry s expiry 0,
            loading := none, hasElem := true } : Entry K V) with
        byAccess := s.entries.length :: s.byAccess } : LruCache K V))
      k s.entries.length hnd2 hlm2
      (lookupKey_insertKey_self k s.entries.length s.byKey) rfl hms
    rw [hput]
    show (lookupKey k (evictToSize _).byKey).map _ = _
    rw [hmf]
    unfold evictToSize
    rw [hlkF]
    show some (((evictFuel (({ setEntry ({ s with
          entries := s.entries ++ [({
            key := k, val := some v, expiry := newExpiry s expiry 0,
            loading := none, hasElem := false } : Entry K V)],
          byKey := insertKey k s.entries.length s.byKey } : LruCache K V)
          s.entries.length ({
            key := k, val := some v, expiry := newExpiry s expiry 0,
            loading := none, hasElem := true } : Entry K V) with
        byAccess := s.entries.length :: s.byAccess } : LruCache K V).byAccess.length)
      ({ setEntry ({ s with
          entries := s.entries ++ [({
            key := k, val := some v, expiry := newExpiry s expiry 0,
            loading := none, hasElem := false } : Entry K V)],
          byKey := insertKey k s.entries.length s.byKey } : LruCache K V)
          s.entries.length ({
            key := k, val := some v, expiry := newExpiry s expiry 0,
            loading := none, hasElem := true } : Entry K V) with
        byAccess := s.entries.length :: s.byAccess } : LruCache K V)).entries.getD s.entries.length Entry.blank).expiry) = _
    rw [hentF]
    show some ((((s.entries ++ [({
      key := k, val := some v, expiry := newExpiry s expiry 0,
      loading := none, hasElem := false } : Entry K V)]).set s.entries.length
      ({ key := k, val := some v, expiry := newExpiry s expiry 0,
         loading := none, hasElem := true } : Entry K V)).getD s.entries.length
      Entry.blank).expiry) = _
    rw [hself2]

theorem applyBuildOpt_maxSize {K V C : Type} (p : CacheProperties K V C)
    (opt : BuildOpt K V C) : (applyBuildOpt p opt).maxSize = p.maxSize := by
  cases opt <;> rfl

theorem foldl_buildOpts_maxSize {K V C : Type} (opts : List (BuildOpt K V C))
    (p : CacheProperties K V C) :
    (opts.foldl applyBuildOpt p).maxSize = p.maxSize := by
  induction opts generalizing p with
  | nil => rfl
  | cons o rest ih =>
    show ((o :: rest).foldl applyBuildOpt p).maxSize = p.maxSize
    rw [List.foldl_cons, ih (applyBuildOpt p o), applyBuildOpt_maxSize]

/-- C8: with an effective shard count n ≥ 2 after folding the options, New
returns a sharded cache of exactly n identical LRU shard configurations,
each carrying the FULL configured capacity (not capacity / n) and the
folded default TTL and load provider; with n ≤ 1 it returns a single LRU
cache of the full capacity. -/
theorem builder_shard_dispatch {K V C : Type} (realClock : C) (cap : Int)
    (opts : List (BuildOpt K V C)) (n : Nat) (hfn : Option (K → Int))
    (hn : (opts.foldl applyBuildOpt (defaultProperties cap)).shardCount = n)
    (hh : (opts.foldl applyBuildOpt (defaultProperties cap)).hashFn = hfn) :
    (2 ≤ n → ∃ cfg : LRUConfig K V C,
      cacheNew realClock cap opts =
        BuiltCache.sharded (List.replicate n cfg) hfn ∧
      cfg.maxSize = cap ∧
      cfg.defaultTTL =
        (opts.foldl applyBuildOpt (defaultProperties cap)).defaultTTL ∧
      cfg.loadFn = (opts.foldl applyBuildOpt (defaultProperties cap)).loadFn) ∧
    (n ≤ 1 → ∃ cfg : LRUConfig K V C,
      cacheNew realClock cap opts = BuiltCache.lru cfg ∧
      cfg.maxSize = cap) := by
  have hms := foldl_buildOpts_maxSize opts (defaultProperties (K := K) (V := V) (C := C) cap)
  cases hc : (opts.foldl applyBuildOpt (defaultProperties cap)).clock with
  | none =>
    have hcn : cacheNew realClock cap opts =
        if n > 1 then
          BuiltCache.sharded (List.replicate n (newLRUConfig
            { opts.foldl applyBuildOpt (defaultProperties cap) with
              clock := some realClock, shardCount := 0, hashFn := none })) hfn
        else BuiltCache.lru (newLRUConfig
          { opts.foldl applyBuildOpt (defaultProperties cap) with
            clock := some realClock }) := by
      unfold cacheNew newShardedCache
      simp only [hc, hn, hh]
    constructor
    · intro h2
      have h1 : n > 1 := by omega
      refine ⟨newLRUConfig
        { opts.foldl applyBuildOpt (defaultProperties cap) with
          clock := some realClock, shardCount := 0, hashFn := none },
        ?_, ?_, rfl, rfl⟩
      · rw [hcn, if_pos h1]
      · exact hms
    · intro hle
      have h1 : ¬ n > 1 := by omega
      exact ⟨newLRUConfig
        { opts.foldl applyBuildOpt (defaultProperties cap) with
          clock := some realClock },
        by rw [hcn, if_neg h1], hms⟩
  | some c0 =>
    have hcn : cacheNew realClock cap opts =
        if n > 1 then
          BuiltCache.sharded (List.replicate n (newLRUConfig
            { opts.foldl applyBuildOpt (defaultProperties cap) with
              shardCount := 0, hashFn := none })) hfn
        else BuiltCache.lru (newLRUConfig
          (opts.foldl applyBuildOpt (defaultProperties cap))) := by
      unfold cacheNew newShardedCache
      simp only [hc, hn, hh]
    constructor
    · intro h2
      have h1 : n > 1 := by omega
      refine ⟨newLRUConfig
        { opts.foldl applyBuildOpt (defaultProperties cap) with
          shardCount := 0, hashFn := none },
        ?_, ?_, rfl, rfl⟩
      · rw [hcn, if_pos h1]
      · exact hms
    · intro hle
      have h1 : ¬ n > 1 := by omega
      exact ⟨newLRUConfig (opts.foldl applyBuildOpt (defaultProperties cap)),
        by rw [hcn, if_neg h1], hms⟩

theorem builder_shard_dispatch_witness :
    (2 ≤ 3 → ∃ cfg : LRUConfig String String Unit,
      cacheNew () 7 ([BuildOpt.sharded 3 none] : List (BuildOpt String String Unit)) =
        BuiltCache.sharded (List.replicate 3 cfg) none ∧
      cfg.maxSize = 7 ∧ cfg.defaultTTL = 0 ∧ cfg.loadFn = none) ∧
    (3 ≤ 1 → ∃ cfg : LRUConfig String String Unit,
      cacheNew () 7 ([BuildOpt.sharded 3 none] : List (BuildOpt String String Unit)) =
        BuiltCache.lru cfg ∧ cfg.maxSize = 7) :=
  builder_shard_dispatch () 7 _ 3 none rfl rfl

/-- C10 (amended): the builder performs NO validation and has no error
result: for every capacity (including non-positive ones) and every option
list (including sharding without a hasher) New returns a cache, either a
single LRU shard or a sharded cache; a missing hasher surfaces only at
operation time, when shard dispatch faults on the nil hash function. -/
theorem builder_never_validates {K V C : Type} (realClock : C) (cap : Int)
    (opts : List (BuildOpt K V C)) :
    ((∃ cfg : LRUConfig K V C,
        cacheNew realClock cap opts = BuiltCache.lru cfg ∧ cfg.maxSize = cap) ∨
     (∃ (cfg : LRUConfig K V C) (hfn : Option (K → Int)) (n : Nat),
        cacheNew realClock cap opts =
          BuiltCache.sharded (List.replicate n cfg) hfn)) ∧
    (∀ (count : Nat) (k : K),
      shardedDispatch (none : Option (K → Int)) count k = none) := by
  have hms := foldl_buildOpts_maxSize opts (defaultProperties (K := K) (V := V) (C := C) cap)
  constructor
  · cases hc : (opts.foldl applyBuildOpt (defaultProperties cap)).clock with
    | none =>
      unfold cacheNew newShardedCache
      simp only [hc]
      by_cases h1 :
          (opts.foldl applyBuildOpt (defaultProperties cap)).shardCount > 1
      · rw [if_pos h1]
        right
        exact ⟨_, _, _, rfl⟩
      · rw [if_neg h1]
        left
        exact ⟨_, rfl, hms⟩
    | some c0 =>
      unfold cacheNew newShardedCache
      simp only [hc]
      by_cases h1 :
          (opts.foldl applyBuildOpt (defaultProperties cap)).shardCount > 1
      · rw [if_pos h1]
        right
        exact ⟨_, _, _, rfl⟩
      · rw [if_neg h1]
        left
        exact ⟨_, rfl, hms⟩
  · intro count k
    rfl

/-- C3 (amended): with a non-zero default TTL configured, put-with-expiry
of an explicit zero expiry does NOT store "no expiry": putLocked applies
the default TTL, storing absolute expiry now + defaultTTL, so the entry is
reported expired once the clock passes that time. -/
theorem putWithTTL_zero_applies_default_ttl {K V : Type} [Inhabited K]
    [DecidableEq K] (k : K) (v : V) (s : LruCache K V) (h : SeqInv s)
    (hms : 0 < s.maxSize) (httl : s.defaultTTL ≠ 0) :
    entryExpiryOf (putLocked k v 0 s) k = some (s.now + s.defaultTTL) := by
  rw [putLocked_expiry k v 0 s h hms]
  have hne : ∀ old : Int, newExpiry s 0 old = s.now + s.defaultTTL := by
    intro old
    unfold newExpiry
    simp [httl]
  rw [hne]

theorem putWithTTL_zero_applies_default_ttl_witness :
    entryExpiryOf (putLocked "k" "v" 0
      (newLRUCache 100 60 none 100 : LruCache String String)) "k"
      = some 160 :=
  putWithTTL_zero_applies_default_ttl "k" "v" _
    ⟨inv_newLRUCache 100 60 100 none,
     fun p hp => absurd hp (List.not_mem_nil p),
     fun b hb => absurd hb (List.not_mem_nil b)⟩
    (by decide) (by decide)

/-- C4 (amended): put(k, v) stores expiry now + defaultTTL when a default
TTL is configured; with no default TTL a plain put that overwrites an
existing entry PRESERVES the entry's previous expiry, instead of leaving
the entry with no expiry as claimed. -/
theorem put_overwrite_preserves_expiry {K V : Type} [Inhabited K]
    [DecidableEq K] (k : K) (v : V) (s : LruCache K V) (id : Nat)
    (h : SeqInv s) (hms : 0 < s.maxSize) (httl : s.defaultTTL = 0)
    (hlk : lookupKey k s.byKey = some id) :
    entryExpiryOf (putLocked k v 0 s) k = some ((getEntry s id).expiry) := by
  rw [putLocked_expiry k v 0 s h hms]
  simp only [hlk]
  have hne : newExpiry s 0 (getEntry s id).expiry = (getEntry s id).expiry := by
    unfold newExpiry
    simp [httl]
  rw [hne]

theorem put_overwrite_preserves_expiry_witness :
    entryExpiryOf (putLocked "k" "v2" 0
      (putLocked "k" "v1" 500
        (newLRUCache 100 0 none 100 : LruCache String String))) "k"
      = some 500 :=
  put_overwrite_preserves_expiry "k" "v2" _ 0
    ⟨⟨⟨by unfold KeysNodup; decide, by unfold MappedLt; decide,
       by unfold MappedListed; decide, by unfold ValInj; decide,
       by unfold MappedKeyField; decide, by unfold ListedWF; decide,
       by unfold AccessNodup; decide⟩, by unfold SizeLe; decide⟩,
     by decide, by unfold ListedMapped; decide⟩
    (by decide) (by decide) (by decide)

/-- C5 (amended): over the lifetime of an LRU shard,
hits + misses + loadFailures equals the number of completed gets that were
NOT satisfied by a successful read-through load; a get that completes by
loading a value successfully increments only loadAttempts and is not
counted in this sum, contrary to the claim's "including" clause. -/
theorem get_statistics_accounting {K V : Type} [Inhabited K] [DecidableEq K]
    (cap defaultTTL now : Int) (lf : Option (K → LoadRes V))
    (ops : List (Op K V)) :
    Stats.sum3 (runOps ops (newLRUCache cap defaultTTL lf now)).stats =
      runCount ops (newLRUCache cap defaultTTL lf now) := by
  have h := sum3_runOps ops (newLRUCache cap defaultTTL lf now : LruCache K V)
    (inv_newLRUCache cap defaultTTL now lf)
  have hz : Stats.sum3 (newLRUCache cap defaultTTL lf now : LruCache K V).stats
      = 0 := rfl
  rw [h, hz]
  omega

/-- C1: for every positive capacity, after any finite sequence of Get, Put
and PutWithTTL operations (with arbitrary clock advances) on a single LRU
shard built with that capacity, the CurrentSize reported by Statistics —
the recency-list length — is at most the capacity. -/
theorem lru_currentSize_le_capacity {K V : Type} [Inhabited K] [DecidableEq K]
    (cap defaultTTL now : Int) (lf : Option (K → LoadRes V))
    (ops : List (Op K V)) (hcap : 0 < cap) :
    ((statisticsLocked (runOps ops
      (newLRUCache cap defaultTTL lf now))).currentSize : Int) ≤ cap := by
  have hInv0 := inv_newLRUCache (K := K) (V := V) cap defaultTTL now lf
  obtain ⟨hInv, hms⟩ := inv_runOps ops _ hInv0
  have hm0 : (0 : Int) ≤
      (runOps ops (newLRUCache cap defaultTTL lf now : LruCache K V)).maxSize := by
    rw [hms]
    exact hcap.le
  have hle := hInv.2 hm0
  rw [hms] at hle
  exact hle

theorem lru_currentSize_le_capacity_witness :
    ((statisticsLocked (runOps
      [Op.put "a" 1, Op.put "b" 2, Op.putTTL "c" 3 50, Op.get "a", Op.get "x"]
      (newLRUCache 2 0 none 0 : LruCache String Nat))).currentSize : Int) ≤ 2 :=
  lru_currentSize_le_capacity 2 0 0 none _ (by decide)

theorem mem_of_getElem_opt {α : Type} {l : List α} {i : Nat} {a : α}
    (h : l[i]? = some a) : a ∈ l := by
  have hlt : i < l.length := by
    by_contra hge
    rw [List.getElem?_eq_none (Nat.le_of_not_lt hge)] at h
    cases h
  rw [List.getElem?_eq_getElem hlt] at h
  have ha : l[i] = a := Option.some_injective _ h
  rw [← ha]
  exact l.getElem_mem hlt

theorem getEntry_entries_eq {K V : Type} [Inhabited K] {c c2 : LruCache K V}
    (h : c2.entries = c.entries) (j : Nat) : getEntry c2 j = getEntry c j := by
  unfold getEntry
  rw [h]

theorem threadOK_not_inLoad [Inhabited K] [DecidableEq K] (c : LruCache K V)
    (t : TState K V) (h : t.isInLoad = false) : ThreadOK c t := by
  cases t with
  | inLoad k id tok => simp [TState.isInLoad] at h
  | getStart k => trivial
  | waiting k tok => trivial
  | putStart k v e => trivial
  | halted r => trivial
  | haltedPut => trivial

theorem inLoadIdsInj_no_load {K V : Type} (sys : Sys K V)
    (h : ∀ t ∈ sys.threads, t.isInLoad = false) : InLoadIdsInj sys := by
  intro i j k k2 id tok tok2 h1 h2
  exfalso
  have hx := h _ (mem_of_getElem_opt h1)
  simp [TState.isInLoad] at hx

theorem inj_set_no_load [Inhabited K] [DecidableEq K] (sys : Sys K V)
    (c2 : LruCache K V) (i : Nat) (t2 : TState K V) (hInj : InLoadIdsInj sys)
    (hnot : t2.isInLoad = false) :
    InLoadIdsInj (⟨c2, sys.threads.set i t2⟩ : Sys K V) := by
  intro i1 j1 k1 k2 id1 tok1 tok2 h1 h2
  have hth : ∀ (j : Nat) (kk : K) (ii tt : Nat),
      (sys.threads.set i t2)[j]? = some (TState.inLoad kk ii tt) →
      sys.threads[j]? = some (TState.inLoad kk ii tt) := by
    intro j kk ii tt hj
    by_cases hji : i = j
    · subst hji
      rw [List.getElem?_set_self'] at hj
      cases hx : sys.threads[i]? with
      | none => rw [hx] at hj; cases hj
      | some x =>
        rw [hx] at hj
        have hj2 : some t2 = some (TState.inLoad kk ii tt) := hj
        injection hj2 with hj3
        rw [hj3] at hnot
        simp [TState.isInLoad] at hnot
    · rw [List.getElem?_set_ne hji] at hj
      exact hj
  exact hInj i1 j1 k1 k2 id1 tok1 tok2
    (hth _ _ _ _ h1) (hth _ _ _ _ h2)

theorem loadComplete_key_cases [Inhabited K] [DecidableEq K] (k : K)
    (id tok : Nat) (res : LoadRes V) (s : LruCache K V) (hmlt : MappedLt s)
    (j : Nat) (hjlen : j < s.entries.length) (hjid : j ≠ id) :
    (lookupKey k s.byKey = some j ∧
      (getEntry (loadComplete k id tok res s) j).key = k) ∨
    (getEntry (loadComplete k id tok res s) j).key = (getEntry s j).key := by
  have hS2ne : ∀ j2, j2 ≠ id → getEntry { setEntry s id
      { getEntry s id with loading := none } with closed := tok :: s.closed } j2
      = getEntry s j2 := by
    intro j2 hj2
    exact getD_set_ne s.entries id j2 _ Entry.blank hj2
  have hS2mlt : MappedLt ({ setEntry s id
      { getEntry s id with loading := none } with
      closed := tok :: s.closed } : LruCache K V) := by
    intro p hp
    have hp2 : p ∈ s.byKey := hp
    show p.2 < (s.entries.set id _).length
    rw [List.length_set]
    exact hmlt p hp2
  cases res with
  | ok v expiry =>
    have hlc : loadComplete k id tok (LoadRes.ok v expiry) s =
        putLocked k v expiry ({ setEntry s id
          { getEntry s id with loading := none } with
          closed := tok :: s.closed } : LruCache K V) := rfl
    rw [hlc]
    obtain ⟨_, _, _, _, _, _, _, _, _, _, _, _, f13, f14, f15, f16, f17⟩ :=
      putLocked_frames k v expiry ({ setEntry s id
        { getEntry s id with loading := none } with
        closed := tok :: s.closed } : LruCache K V) hS2mlt
    by_cases hq : lookupKey k s.byKey = some j
    · left
      exact ⟨hq, f15 j hq⟩
    · right
      have hj2 : j < ({ setEntry s id
          { getEntry s id with loading := none } with
          closed := tok :: s.closed } : LruCache K V).entries.length := by
        show j < (s.entries.set id _).length
        rw [List.length_set]
        exact hjlen
      exact ((f14 j hj2 hq).1).trans (congrArg Entry.key (hS2ne j hjid))
  | notFound =>
    right
    exact congrArg Entry.key (hS2ne j hjid)
  | failure =>
    right
    exact congrArg Entry.key (hS2ne j hjid)

theorem sysOK_runGet [Inhabited K] [DecidableEq K] (k : K) (sys : Sys K V)
    (i : Nat) (h : SysOK sys) :
    SysOK (⟨(runGetSection k sys.cache).1,
           sys.threads.set i (runGetSection k sys.cache).2⟩ : Sys K V) := by
  obtain ⟨hInv, hTok, hInj⟩ := h
  rcases hg : getLocked k sys.cache with ⟨c2, r⟩
  cases r with
  | hit v =>
    have hrg : runGetSection k sys.cache = (c2, TState.halted (GetRes.hit v)) := by
      simp only [runGetSection, hg]
    rw [hrg]
    obtain ⟨hI, hent, hbk, _⟩ := getLocked_hit hInv hg
    refine ⟨hI, ?_, inj_set_no_load sys c2 i _ hInj rfl⟩
    intro t ht
    rcases List.mem_or_eq_of_mem_set ht with htold | htnew
    · have hok := hTok t htold
      cases t with
      | inLoad k0 id0 tok0 =>
        obtain ⟨h1, h2, h3, h4⟩ := hok
        have hge := getEntry_entries_eq hent id0
        refine ⟨by rw [hent]; exact h1, by rw [hge]; exact h2,
          by rw [hge]; exact h3, ?_⟩
        intro p hp hpid
        rw [hbk] at hp
        exact h4 p hp hpid
      | getStart k1 => trivial
      | waiting k1 t1 => trivial
      | putStart k1 v1 e1 => trivial
      | halted r1 => trivial
      | haltedPut => trivial
    · rw [htnew]; trivial
  | missNoLoader =>
    have hrg : runGetSection k sys.cache = (c2, TState.halted GetRes.notFound) := by
      simp only [runGetSection, hg]
    rw [hrg]
    obtain ⟨hI, _, _, hent, hbk5, _⟩ := getLocked_missNoLoader hInv hg
    refine ⟨hI, ?_, inj_set_no_load sys c2 i _ hInj rfl⟩
    intro t ht
    rcases List.mem_or_eq_of_mem_set ht with htold | htnew
    · have hok := hTok t htold
      cases t with
      | inLoad k0 id0 tok0 =>
        obtain ⟨h1, h2, h3, h4⟩ := hok
        have hge := getEntry_entries_eq hent id0
        refine ⟨by rw [hent]; exact h1, by rw [hge]; exact h2,
          by rw [hge]; exact h3, ?_⟩
        intro p hp hpid
        exact h4 p (hbk5 p hp) hpid
      | getStart k1 => trivial
      | waiting k1 t1 => trivial
      | putStart k1 v1 e1 => trivial
      | halted r1 => trivial
      | haltedPut => trivial
    · rw [htnew]; trivial
  | waitOn tok =>
    have hrg : runGetSection k sys.cache = (c2, TState.waiting k tok) := by
      simp only [runGetSection, hg]
    rw [hrg]
    obtain ⟨hse, _⟩ := getLocked_waitOn hg
    rw [hse]
    refine ⟨hInv, ?_, inj_set_no_load sys sys.cache i _ hInj rfl⟩
    intro t ht
    rcases List.mem_or_eq_of_mem_set ht with htold | htnew
    · exact hTok t htold
    · rw [htnew]; trivial
  | startLoad id tok =>
    have hrg : runGetSection k sys.cache = (c2, TState.inLoad k id tok) := by
      simp only [runGetSection, hg]
    rw [hrg]
    obtain ⟨hI2, hidq, htokq, hlenq, hlkq, hgeq, hkeysq, hsubq, hfrq,
      hbaq, hnotq, hclq, hntq, hlfq, hmsq, httlq, hnowq, _⟩ :=
      getLocked_startLoad hInv hg
    refine ⟨hI2, ?_, ?_⟩
    · intro t ht
      rcases List.mem_or_eq_of_mem_set ht with htold | htnew
      · have hok := hTok t htold
        cases t with
        | inLoad k0 id0 tok0 =>
          obtain ⟨h1, h2, h3, h4⟩ := hok
          refine ⟨by rw [hlenq]; omega, by rw [hfrq id0 h1]; exact h2,
            by rw [hfrq id0 h1]; exact h3, ?_⟩
          intro p hp hpid
          rcases hsubq p hp with hpo | hpn
          · exact h4 p hpo hpid
          · exfalso
            have hne : id = id0 := by rw [hpn] at hpid; exact hpid
            omega
        | getStart k1 => trivial
        | waiting k1 t1 => trivial
        | putStart k1 v1 e1 => trivial
        | halted r1 => trivial
        | haltedPut => trivial
      · rw [htnew]
        refine ⟨?_, ?_, ?_, hkeysq⟩
        · rw [hlenq, hidq]; omega
        · rw [hgeq]
        · rw [hgeq]
    · intro i1 j1 k1 k2 id1 tok1 tok2 h1 h2
      by_cases e1 : i = i1
      · by_cases e2 : i = j1
        · rw [← e1, ← e2]
        · subst e1
          rw [List.getElem?_set_self'] at h1
          cases hx : sys.threads[i]? with
          | none => rw [hx] at h1; cases h1
          | some x =>
            rw [hx] at h1
            have h1b : some (TState.inLoad k id tok) =
                some (TState.inLoad k1 id1 tok1) := h1
            injection h1b with h1c
            injection h1c with ek eid etok
            rw [List.getElem?_set_ne e2] at h2
            have hmem2 := mem_of_getElem_opt h2
            obtain ⟨hlt2, _⟩ := hTok _ hmem2
            exfalso
            omega
      · by_cases e2 : i = j1
        · subst e2
          rw [List.getElem?_set_ne e1] at h1
          rw [List.getElem?_set_self'] at h2
          cases hx : sys.threads[i]? with
          | none => rw [hx] at h2; cases h2
          | some x =>
            rw [hx] at h2
            have h2b : some (TState.inLoad k id tok) =
                some (TState.inLoad k2 id1 tok2) := h2
            injection h2b with h2c
            injection h2c with ek eid etok
            have hmem1 := mem_of_getElem_opt h1
            obtain ⟨hlt1, _⟩ := hTok _ hmem1
            exfalso
            omega
        · rw [List.getElem?_set_ne e1] at h1
          rw [List.getElem?_set_ne e2] at h2
          exact hInj i1 j1 k1 k2 id1 tok1 tok2 h1 h2

theorem sysOK_applyAct [Inhabited K] [DecidableEq K] (a : Act V)
    (s1 s2 : Sys K V) (h : SysOK s1) (ha : applyAct a s1 = some s2) :
    SysOK s2 := by
  obtain ⟨hInv, hTok, hInj⟩ := h
  cases a with
  | start i =>
    cases hti : s1.threads[i]? with
    | none =>
      simp only [applyAct, hti] at ha
      exact Option.noConfusion ha
    | some t =>
      cases t with
      | getStart k =>
        simp only [applyAct, hti] at ha
        injection ha with ha2
        rw [← ha2]
        exact sysOK_runGet k s1 i ⟨hInv, hTok, hInj⟩
      | putStart k v expiry =>
        simp only [applyAct, hti] at ha
        injection ha with ha2
        rw [← ha2]
        refine ⟨?_, ?_, inj_set_no_load s1 _ i _ hInj rfl⟩
        · obtain ⟨⟨g1, g2, g3, g4, g5, g6, g7⟩, g8⟩ := hInv
          exact inv_putLocked k v expiry s1.cache
            ⟨g1, g2, fun p hp _ hl => g3 p hp hl, g4, g5, g6, g7⟩
        · intro t ht
          rcases List.mem_or_eq_of_mem_set ht with htold | htnew
          · have hok := hTok t htold
            cases t with
            | inLoad k0 id0 tok0 =>
              obtain ⟨h1, h2, h3, h4⟩ := hok
              obtain ⟨f1, _, _, _, _, _, _, _, _, _, _, _, f13, f14, f15,
                f16, f17⟩ := putLocked_frames k v expiry s1.cache hInv.1.2.1
              refine ⟨lt_of_lt_of_le h1 f1,
                by rw [f13 id0 h1]; exact h2, ?_, ?_⟩
              · by_cases hq : lookupKey k s1.cache.byKey = some id0
                · have hk0 : k = k0 := h4 _ (lookupKey_mem hq) rfl
                  rw [f15 id0 hq, hk0]
                · rw [(f14 id0 h1 hq).1]
                  exact h3
              · intro p hp hpid
                rcases f16 p hp with hpo | hpn
                · exact h4 p hpo hpid
                · exfalso
                  obtain ⟨_, hp2⟩ := hpn
                  omega
            | getStart k1 => trivial
            | waiting k1 t1 => trivial
            | putStart k1 v1 e1 => trivial
            | halted r1 => trivial
            | haltedPut => trivial
          · rw [htnew]; trivial
      | waiting k1 t1 =>
        simp only [applyAct, hti] at ha
        exact Option.noConfusion ha
      | inLoad k1 i1 t1 =>
        simp only [applyAct, hti] at ha
        exact Option.noConfusion ha
      | halted r1 =>
        simp only [applyAct, hti] at ha
        exact Option.noConfusion ha
      | haltedPut =>
        simp only [applyAct, hti] at ha
        exact Option.noConfusion ha
  | wake i =>
    cases hti : s1.threads[i]? with
    | none =>
        simp only [applyAct, hti] at ha
        exact Option.noConfusion ha
    | some t =>
      cases t with
      | waiting k tok =>
        simp only [applyAct, hti] at ha
        split_ifs at ha with hcl
        injection ha with ha2
        rw [← ha2]
        exact sysOK_runGet k s1 i ⟨hInv, hTok, hInj⟩
      | getStart k1 =>
        simp only [applyAct, hti] at ha
        exact Option.noConfusion ha
      | inLoad k1 i1 t1 =>
        simp only [applyAct, hti] at ha
        exact Option.noConfusion ha
      | putStart k1 v1 e1 =>
        simp only [applyAct, hti] at ha
        exact Option.noConfusion ha
      | halted r1 =>
        simp only [applyAct, hti] at ha
        exact Option.noConfusion ha
      | haltedPut =>
        simp only [applyAct, hti] at ha
        exact Option.noConfusion ha
  | cancel i =>
    cases hti : s1.threads[i]? with
    | none =>
        simp only [applyAct, hti] at ha
        exact Option.noConfusion ha
    | some t =>
      cases t with
      | waiting k tok =>
        simp only [applyAct, hti] at ha
        injection ha with ha2
        rw [← ha2]
        refine ⟨hInv, ?_, inj_set_no_load s1 _ i _ hInj rfl⟩
        intro t ht
        rcases List.mem_or_eq_of_mem_set ht with htold | htnew
        · exact hTok t htold
        · rw [htnew]; trivial
      | getStart k1 =>
        simp only [applyAct, hti] at ha
        exact Option.noConfusion ha
      | inLoad k1 i1 t1 =>
        simp only [applyAct, hti] at ha
        exact Option.noConfusion ha
      | putStart k1 v1 e1 =>
        simp only [applyAct, hti] at ha
        exact Option.noConfusion ha
      | halted r1 =>
        simp only [applyAct, hti] at ha
        exact Option.noConfusion ha
      | haltedPut =>
        simp only [applyAct, hti] at ha
        exact Option.noConfusion ha
  | finish i res =>
    cases hti : s1.threads[i]? with
    | none =>
        simp only [applyAct, hti] at ha
        exact Option.noConfusion ha
    | some t =>
      cases t with
      | inLoad k id tok =>
        simp only [applyAct, hti] at ha
        injection ha with ha2
        rw [← ha2]
        have hmem_i := mem_of_getElem_opt hti
        obtain ⟨hid, hloadi, hkeyi, hkeysi⟩ := hTok _ hmem_i
        refine ⟨inv_loadComplete k id tok res s1.cache hInv hid hkeyi hkeysi,
          ?_, inj_set_no_load s1 _ i _ hInj (by cases res <;> rfl)⟩
        intro t ht
        obtain ⟨j, hj⟩ := List.mem_iff_getElem?.mp ht
        by_cases hji : i = j
        · subst hji
          rw [List.getElem?_set_self'] at hj
          rw [hti] at hj
          have hjt : some (loadHalt res) = some t := hj
          injection hjt with hjt2
          rw [← hjt2]
          cases res with
          | ok v e => trivial
          | notFound => trivial
          | failure => trivial
        · rw [List.getElem?_set_ne hji] at hj
          have hmem := mem_of_getElem_opt hj
          have hok := hTok t hmem
          cases t with
          | inLoad k2 id2 tok2 =>
            obtain ⟨h1, h2, h3, h4⟩ := hok
            have hne : id2 ≠ id := by
              intro he
              subst he
              exact hji (hInj i j k k2 id2 tok tok2 hti hj)
            obtain ⟨l1, l2, l3, l4, l5, l6, l7, l8, l9, l10, l11⟩ :=
              loadComplete_frames k id tok res s1.cache hInv.1.2.1 hid
            refine ⟨lt_of_lt_of_le h1 l1,
              by rw [l8 id2 h1 hne]; exact h2, ?_, ?_⟩
            · rcases loadComplete_key_cases k id tok res s1.cache
                hInv.1.2.1 id2 h1 hne with ⟨hq, hkk⟩ | hkO
              · have hk2 : k = k2 := h4 _ (lookupKey_mem hq) rfl
                rw [hkk, hk2]
              · rw [hkO]
                exact h3
            · intro p hp hpid
              rcases l10 p hp with hpo | hpn
              · exact h4 p hpo hpid
              · exfalso
                obtain ⟨_, hp2⟩ := hpn
                omega
          | getStart k1 => trivial
          | waiting k1 t1 => trivial
          | putStart k1 v1 e1 => trivial
          | halted r1 => trivial
          | haltedPut => trivial
      | getStart k1 =>
        simp only [applyAct, hti] at ha
        exact Option.noConfusion ha
      | waiting k1 t1 =>
        simp only [applyAct, hti] at ha
        exact Option.noConfusion ha
      | putStart k1 v1 e1 =>
        simp only [applyAct, hti] at ha
        exact Option.noConfusion ha
      | halted r1 =>
        simp only [applyAct, hti] at ha
        exact Option.noConfusion ha
      | haltedPut =>
        simp only [applyAct, hti] at ha
        exact Option.noConfusion ha
  | tick d =>
    simp only [applyAct] at ha
    injection ha with ha2
    rw [← ha2]
    refine ⟨hInv, ?_, ?_⟩
    · intro t ht
      have hok := hTok t ht
      cases t with
      | inLoad k0 id0 tok0 => exact hok
      | getStart k1 => trivial
      | waiting k1 t1 => trivial
      | putStart k1 v1 e1 => trivial
      | halted r1 => trivial
      | haltedPut => trivial
    · intro i1 j1 k1 k2 id1 tok1 tok2 h1 h2
      exact hInj i1 j1 k1 k2 id1 tok1 tok2 h1 h2

theorem sysOK_reachable [Inhabited K] [DecidableEq K] (s1 s2 : Sys K V)
    (h : SysOK s1) (hr : ReachableSys s1 s2) : SysOK s2 := by
  induction hr with
  | refl => exact h
  | tail hpre hstep ih =>
    obtain ⟨a, ha⟩ := hstep
    exact sysOK_applyAct a _ _ ih ha

/-- C7 (amended): in every state reachable from a well-formed system, every
entry reachable from the key→entry map either carries a load signal or is
present in the recency list.  The claimed exclusive-or fails: a put that
overlaps an in-flight load links the loading placeholder into the recency
list, so an entry can be both loading and listed. -/
theorem mapped_loading_or_listed [Inhabited K] [DecidableEq K]
    (sys1 sys2 : Sys K V) (h : SysOK sys1) (hr : ReachableSys sys1 sys2) :
    ∀ p ∈ sys2.cache.byKey,
      (getEntry sys2.cache p.2).loading ≠ none ∨
      p.2 ∈ sys2.cache.byAccess := by
  have h2 := sysOK_reachable sys1 sys2 h hr
  intro p hp
  by_cases hl : (getEntry sys2.cache p.2).loading = none
  · right
    exact h2.1.1.2.2.1 p hp hl
  · left
    exact hl

theorem mapped_loading_or_listed_witness :
    (getEntry putDuringLoadFinal.cache 0).loading ≠ none ∨
    0 ∈ putDuringLoadFinal.cache.byAccess :=
  mapped_loading_or_listed putDuringLoadInit putDuringLoadFinal
    ⟨inv_newLRUCache 100 0 0 (some fixedLoadFn),
     fun t ht => threadOK_not_inLoad _ t
       ((by decide : ∀ t2 ∈ putDuringLoadInit.threads, t2.isInLoad = false)
         t ht),
     inLoadIdsInj_no_load _ (by decide)⟩
    (runActs_reachable putDuringLoadActs putDuringLoadInit putDuringLoadFinal
      rfl)
    ("a", 0) (by decide)

theorem evictFuel_gets [Inhabited K] [DecidableEq K] (fuel : Nat) :
    ∀ (s : LruCache K V),
    s.byAccess.Nodup → ListedMapped s →
    ListedMapped (evictFuel fuel s) ∧
    (evictFuel fuel s).byAccess.Nodup ∧
    (evictFuel fuel s).entries = s.entries ∧
    (∀ x ∈ (evictFuel fuel s).byAccess, x ∈ s.byAccess) ∧
    (∀ (k2 : K) (id2 : Nat), lookupKey k2 s.byKey = some id2 →
      id2 ∉ s.byAccess → lookupKey k2 (evictFuel fuel s).byKey = some id2) ∧
    (evictFuel fuel s).closed = s.closed ∧
    (evictFuel fuel s).nextTok = s.nextTok := by
  induction fuel with
  | zero =>
    intro s hnd hlm
    exact ⟨hlm, hnd, rfl, fun x hx => hx, fun k2 id2 hk _ => hk, rfl, rfl⟩
  | succ fuel ih =>
    intro s hnd hlm
    by_cases hlen : (s.byAccess.length : Int) > s.maxSize
    · cases hgl : s.byAccess.getLast? with
      | none =>
        rw [evictFuel, if_pos hlen, hgl]
        exact ⟨hlm, hnd, rfl, fun x hx => hx, fun k2 id2 hk _ => hk, rfl, rfl⟩
      | some back =>
        have hne : s.byAccess ≠ [] := by
          intro hnil
          rw [hnil] at hgl
          cases hgl
        have hbackmem : back ∈ s.byAccess := by
          have h2 : s.byAccess.getLast hne = back := by
            rw [List.getLast?_eq_getLast _ hne] at hgl
            exact Option.some_injective _ hgl
          rw [← h2]
          exact List.getLast_mem hne
        have hnd2 : (evictStep s back).byAccess.Nodup :=
          List.Nodup.sublist (List.dropLast_sublist _) hnd
        have hlm2 : ListedMapped (evictStep s back) := by
          intro b hb
          have hbmem : b ∈ s.byAccess := (List.dropLast_sublist _).subset hb
          have hbne : b ≠ back := by
            intro he
            exact (nodup_not_mem_dropLast _ _ hnd hgl) (he ▸ hb)
          have hbmap := hlm b hbmem
          have hkne : (getEntry s b).key ≠ (getEntry s back).key := by
            intro he
            have hb2 := hlm _ hbackmem
            rw [← he, hbmap] at hb2
            exact hbne (Option.some_injective _ hb2)
          show lookupKey (getEntry s b).key
            (eraseKey (getEntry s back).key s.byKey) = some b
          rw [lookupKey_eraseKey_ne _ hkne]
          exact hbmap
        obtain ⟨q1, q2, q3, q4, q5, q6, q7⟩ := ih (evictStep s back) hnd2 hlm2
        rw [evictFuel, if_pos hlen, hgl]
        refine ⟨q1, q2, q3, ?_, ?_, q6, q7⟩
        · intro x hx
          exact (List.dropLast_sublist _).subset (q4 x hx)
        · intro k2 id2 hk hid2
          have hkne2 : k2 ≠ (getEntry s back).key := by
            intro he
            have hb2 := hlm _ hbackmem
            rw [← he, hk] at hb2
            exact hid2 ((Option.some_injective _ hb2) ▸ hbackmem)
          have hk2 : lookupKey k2 (evictStep s back).byKey = some id2 := by
            show lookupKey k2 (eraseKey (getEntry s back).key s.byKey) = some id2
            rw [lookupKey_eraseKey_ne _ hkne2]
            exact hk
          have hid2b : id2 ∉ (evictStep s back).byAccess := by
            intro hin
            exact hid2 ((List.dropLast_sublist _).subset hin)
          exact q5 k2 id2 hk2 hid2b
    · rw [evictFuel, if_neg hlen]
      exact ⟨hlm, hnd, rfl, fun x hx => hx, fun k2 id2 hk _ => hk, rfl, rfl⟩

theorem loadOK_not_inLoad [Inhabited K] [DecidableEq K] (c : LruCache K V)
    (t : TState K V) (h : t.isInLoad = false) : LoadOK c t := by
  cases t with
  | inLoad k id tok => simp [TState.isInLoad] at h
  | getStart k => trivial
  | waiting k tok => trivial
  | putStart k v e => trivial
  | halted r => trivial
  | haltedPut => trivial

theorem inLoadToksInj_no_load {K V : Type} (sys : Sys K V)
    (h : ∀ t ∈ sys.threads, t.isInLoad = false) : InLoadToksInj sys := by
  intro i j k k2 id id2 tok h1 h2
  exfalso
  have hx := h _ (mem_of_getElem_opt h1)
  simp [TState.isInLoad] at hx

theorem toks_set_no_load [Inhabited K] [DecidableEq K] (sys : Sys K V)
    (c2 : LruCache K V) (i : Nat) (t2 : TState K V) (hToks : InLoadToksInj sys)
    (hnot : t2.isInLoad = false) :
    InLoadToksInj (⟨c2, sys.threads.set i t2⟩ : Sys K V) := by
  intro i1 j1 k1 k2 id1 id2 tok1 h1 h2
  have hth : ∀ (j : Nat) (kk : K) (ii tt : Nat),
      (sys.threads.set i t2)[j]? = some (TState.inLoad kk ii tt) →
      sys.threads[j]? = some (TState.inLoad kk ii tt) := by
    intro j kk ii tt hj
    by_cases hji : i = j
    · subst hji
      rw [List.getElem?_set_self'] at hj
      cases hx : sys.threads[i]? with
      | none => rw [hx] at hj; cases hj
      | some x =>
        rw [hx] at hj
        have hj2 : some t2 = some (TState.inLoad kk ii tt) := hj
        injection hj2 with hj3
        rw [hj3] at hnot
        simp [TState.isInLoad] at hnot
    · rw [List.getElem?_set_ne hji] at hj
      exact hj
  exact hToks i1 j1 k1 k2 id1 id2 tok1 (hth _ _ _ _ h1) (hth _ _ _ _ h2)

theorem getLocked_gets_extra [Inhabited K] [DecidableEq K] (k : K)
    (s : LruCache K V) (h : Inv s) (hlm : ListedMapped s) :
    ListedMapped (getLocked k s).1 ∧
    (∀ k2, k2 ≠ k →
      lookupKey k2 (getLocked k s).1.byKey = lookupKey k2 s.byKey) ∧
    s.nextTok ≤ (getLocked k s).1.nextTok ∧
    (getLocked k s).1.closed = s.closed ∧
    (∀ x ∈ (getLocked k s).1.byAccess, x ∈ s.byAccess ∨ x = s.entries.length) ∧
    (∀ j, j < s.entries.length →
      (getEntry (getLocked k s).1 j).hasElem = (getEntry s j).hasElem) := by
  obtain ⟨⟨c1, c2m, c3, c4, c5, c6, c7⟩, c8⟩ := h
  cases hlk : lookupKey k s.byKey with
  | none =>
    rcases hll : loadLocked k s with ⟨s3, r⟩
    cases r with
    | miss =>
      obtain ⟨hfn, hs3⟩ := loadLocked_miss hll
      have h1g : (getLocked k s).1 = s3 := by simp only [getLocked, hlk, hll]
      rw [h1g, hs3]
      exact ⟨fun b hb => hlm b hb, fun k2 _ => rfl, le_refl _, rfl,
        fun x hx => Or.inl hx, fun j _ => rfl⟩
    | started id2 tok2 =>
      obtain ⟨hid, htok, hfn, hbk, hent, hba, hcl, hnt, hms, httl, hlf2,
        hnow, hst⟩ := loadLocked_started hll
      have h1g : (getLocked k s).1 = s3 := by simp only [getLocked, hlk, hll]
      rw [h1g]
      refine ⟨?_, ?_, by rw [hnt]; omega, hcl, ?_, ?_⟩
      · intro b hb
        rw [hba] at hb
        have hblt := (c6 b hb).1
        have hgb : getEntry s3 b = getEntry s b := by
          show s3.entries.getD b Entry.blank = _
          rw [hent]
          exact getD_append_left s.entries _ b Entry.blank hblt
        rw [hgb, hbk]
        have hkb : (getEntry s b).key ≠ k := by
          intro he
          have hb2 := hlm b hb
          rw [he, hlk] at hb2
          cases hb2
        rw [lookupKey_insertKey_ne _ _ hkb]
        exact hlm b hb
      · intro k2 hk2
        rw [hbk]
        exact lookupKey_insertKey_ne _ _ hk2
      · intro x hx
        rw [hba] at hx
        exact Or.inl hx
      · intro j hj
        have hgj : getEntry s3 j = getEntry s j := by
          show s3.entries.getD j Entry.blank = _
          rw [hent]
          exact getD_append_left s.entries _ j Entry.blank hj
        rw [hgj]
  | some id =>
    cases hload : (getEntry s id).loading with
    | some t =>
      have h1g : (getLocked k s).1 = s := by
        simp only [getLocked, hlk, hload]
      rw [h1g]
      exact ⟨hlm, fun _ _ => rfl, le_refl _, rfl, fun x hx => Or.inl hx,
        fun j _ => rfl⟩
    | none =>
      have hmem := lookupKey_mem hlk
      by_cases hexp : (getEntry s id).expiry ≠ 0 ∧ s.now > (getEntry s id).expiry
      · have hacc : id ∈ s.byAccess := c3 _ hmem hload
        have hkid : (getEntry s id).key = k := c5 _ hmem hacc
        rcases hll : loadLocked k { s with
          stats := { s.stats with expirations := s.stats.expirations + 1 },
          byKey := eraseKey (getEntry s id).key s.byKey,
          byAccess := s.byAccess.erase id } with ⟨s3, r⟩
        have hlmX : ListedMapped ({ s with
            stats := { s.stats with expirations := s.stats.expirations + 1 },
            byKey := eraseKey (getEntry s id).key s.byKey,
            byAccess := s.byAccess.erase id } : LruCache K V) := by
          intro b hb
          have hbne : b ≠ id := ((List.Nodup.mem_erase_iff c7).mp hb).1
          have hbmem : b ∈ s.byAccess := List.mem_of_mem_erase hb
          have hkb : (getEntry s b).key ≠ (getEntry s id).key := by
            intro he
            have hb2 := hlm b hbmem
            rw [he, hkid, hlk] at hb2
            exact hbne (Option.some_injective _ hb2).symm
          show lookupKey (getEntry s b).key
            (eraseKey (getEntry s id).key s.byKey) = some b
          rw [lookupKey_eraseKey_ne _ hkb]
          exact hlm b hbmem
        cases r with
        | miss =>
          obtain ⟨hfn, hs3⟩ := loadLocked_miss hll
          have h1g : (getLocked k s).1 = s3 := by
            simp only [getLocked, hlk, hload]
            rw [if_pos hexp, hll]
          rw [h1g, hs3]
          refine ⟨fun b hb => hlmX b hb, ?_, le_refl _, rfl, ?_, fun j _ => rfl⟩
          · intro k2 hk2
            show lookupKey k2 (eraseKey (getEntry s id).key s.byKey) = _
            rw [hkid]
            exact lookupKey_eraseKey_ne _ hk2
          · intro x hx
            exact Or.inl (List.mem_of_mem_erase hx)
        | started id2 tok2 =>
          obtain ⟨hid, htok, hfn, hbk, hent, hba, hcl, hnt, hms, httl, hlf2,
            hnow, hst⟩ := loadLocked_started hll
          have h1g : (getLocked k s).1 = s3 := by
            simp only [getLocked, hlk, hload]
            rw [if_pos hexp, hll]
          rw [h1g]
          refine ⟨?_, ?_, by rw [hnt]; exact Nat.le_succ _, by rw [hcl], ?_, ?_⟩
          · intro b hb
            rw [hba] at hb
            have hbne : b ≠ id := ((List.Nodup.mem_erase_iff c7).mp hb).1
            have hbmem : b ∈ s.byAccess := List.mem_of_mem_erase hb
            have hblt := (c6 b hbmem).1
            have hgb : getEntry s3 b = getEntry s b := by
              show s3.entries.getD b Entry.blank = _
              rw [hent]
              exact getD_append_left s.entries _ b Entry.blank hblt
            rw [hgb, hbk]
            have hkb : (getEntry s b).key ≠ k := by
              intro he
              have hb2 := hlm b hbmem
              rw [he, hlk] at hb2
              exact hbne (Option.some_injective _ hb2).symm
            rw [lookupKey_insertKey_ne _ _ hkb]
            show lookupKey (getEntry s b).key
              (eraseKey (getEntry s id).key s.byKey) = some b
            rw [hkid, lookupKey_eraseKey_ne _ hkb]
            exact hlm b hbmem
          · intro k2 hk2
            rw [hbk, lookupKey_insertKey_ne _ _ hk2]
            show lookupKey k2 (eraseKey (getEntry s id).key s.byKey) = _
            rw [hkid]
            exact lookupKey_eraseKey_ne _ hk2
          · intro x hx
            rw [hba] at hx
            exact Or.inl (List.mem_of_mem_erase hx)
          · intro j hj
            have hgj : getEntry s3 j = getEntry s j := by
              show s3.entries.getD j Entry.blank = _
              rw [hent]
              exact getD_append_left s.entries _ j Entry.blank hj
            rw [hgj]
      · have hacc : id ∈ s.byAccess := c3 _ hmem hload
        have hhas : (getEntry s id).hasElem = true := (c6 _ hacc).2
        have hkid : (getEntry s id).key = k := c5 _ hmem hacc
        have hres : moveToFrontLocked s id =
            { s with byAccess := id :: s.byAccess.erase id } := by
          unfold moveToFrontLocked
          simp only [hhas, if_true]
        have h1g : (getLocked k s).1 = { moveToFrontLocked s id with
            stats := { (moveToFrontLocked s id).stats with
              hits := (moveToFrontLocked s id).stats.hits + 1 } } := by
          simp only [getLocked, hlk, hload]
          rw [if_neg hexp]
        rw [h1g, hres]
        refine ⟨?_, fun k2 _ => rfl, le_refl _, rfl, ?_, fun j _ => rfl⟩
        · intro b hb
          rcases List.mem_cons.mp hb with hb1 | hb2
          · subst hb1
            show lookupKey (getEntry s b).key s.byKey = some b
            rw [hkid]
            exact hlk
          · have hb3 := List.mem_of_mem_erase hb2
            exact hlm b hb3
        · intro x hx
          rcases List.mem_cons.mp hx with h1 | h2
          · exact Or.inl (h1 ▸ hacc)
          · exact Or.inl (List.mem_of_mem_erase h2)

theorem putLocked_overwrite_gets [Inhabited K] [DecidableEq K] (k : K) (v : V)
    (expiry : Int) (s : LruCache K V) (id : Nat)
    (hnd : s.byAccess.Nodup) (hvi : ValInj s) (hmlt : MappedLt s)
    (hlm : ListedMapped s) (hlkk : lookupKey k s.byKey = some id)
    (hnotl : id ∉ s.byAccess) (hhasf : (getEntry s id).hasElem = false) :
    ListedMapped (putLocked k v expiry s) ∧
    (∀ k2, k2 ≠ k → ∀ id2, lookupKey k2 s.byKey = some id2 → id2 ∉ s.byAccess →
      lookupKey k2 (putLocked k v expiry s).byKey = some id2 ∧
      id2 ∉ (putLocked k v expiry s).byAccess ∧
      (getEntry (putLocked k v expiry s) id2).hasElem =
        (getEntry s id2).hasElem) := by
  have hid := hmlt _ (lookupKey_mem hlkk)
  have hput : putLocked k v expiry s = evictToSize (moveToFrontLocked
      (setEntry s id ({
      key := k, val := some v,
      expiry := newExpiry s expiry (getEntry s id).expiry,
      loading := (getEntry s id).loading,
      hasElem := (getEntry s id).hasElem } : Entry K V)) id) := by
    unfold putLocked
    simp only [hlkk]
  have hself : getEntry (setEntry s id ({
      key := k, val := some v,
      expiry := newExpiry s expiry (getEntry s id).expiry,
      loading := (getEntry s id).loading,
      hasElem := (getEntry s id).hasElem } : Entry K V)) id = ({
      key := k, val := some v,
      expiry := newExpiry s expiry (getEntry s id).expiry,
      loading := (getEntry s id).loading,
      hasElem := (getEntry s id).hasElem } : Entry K V) :=
    getD_set_self s.entries id _ Entry.blank hid
  have hmf : moveToFrontLocked (setEntry s id ({
      key := k, val := some v,
      expiry := newExpiry s expiry (getEntry s id).expiry,
      loading := (getEntry s id).loading,
      hasElem := (getEntry s id).hasElem } : Entry K V)) id = ({ setEntry (setEntry s id ({
      key := k, val := some v,
      expiry := newExpiry s expiry (getEntry s id).expiry,
      loading := (getEntry s id).loading,
      hasElem := (getEntry s id).hasElem } : Entry K V)) id
      ({
      key := k, val := some v,
      expiry := newExpiry s expiry (getEntry s id).expiry,
      loading := (getEntry s id).loading,
      hasElem := true } : Entry K V) with
      byAccess := id :: s.byAccess } : LruCache K V) := by
    have hcond : ¬ ((getEntry s id).hasElem = true) := by
      rw [hhasf]
      exact Bool.false_ne_true
    simp only [moveToFrontLocked, hself]
    rw [if_neg hcond]
    rfl
  have hlen2 : id < (s.entries.set id ({
      key := k, val := some v,
      expiry := newExpiry s expiry (getEntry s id).expiry,
      loading := (getEntry s id).loading,
      hasElem := (getEntry s id).hasElem } : Entry K V)).length := by
    rw [List.length_set]
    exact hid
  have hselfF : getEntry ({ setEntry (setEntry s id ({
      key := k, val := some v,
      expiry := newExpiry s expiry (getEntry s id).expiry,
      loading := (getEntry s id).loading,
      hasElem := (getEntry s id).hasElem } : Entry K V)) id
      ({
      key := k, val := some v,
      expiry := newExpiry s expiry (getEntry s id).expiry,
      loading := (getEntry s id).loading,
      hasElem := true } : Entry K V) with
      byAccess := id :: s.byAccess } : LruCache K V) id = ({
      key := k, val := some v,
      expiry := newExpiry s expiry (getEntry s id).expiry,
      loading := (getEntry s id).loading,
      hasElem := true } : Entry K V) :=
    getD_set_self (s.entries.set id ({
      key := k, val := some v,
      expiry := newExpiry s expiry (getEntry s id).expiry,
      loading := (getEntry s id).loading,
      hasElem := (getEntry s id).hasElem } : Entry K V)) id _ Entry.blank hlen2
  have hndF : (id :: s.byAccess).Nodup := List.nodup_cons.mpr ⟨hnotl, hnd⟩
  have hfrF : ∀ b, b ≠ id → getEntry ({ setEntry (setEntry s id ({
      key := k, val := some v,
      expiry := newExpiry s expiry (getEntry s id).expiry,
      loading := (getEntry s id).loading,
      hasElem := (getEntry s id).hasElem } : Entry K V)) id
      ({
      key := k, val := some v,
      expiry := newExpiry s expiry (getEntry s id).expiry,
      loading := (getEntry s id).loading,
      hasElem := true } : Entry K V) with
      byAccess := id :: s.byAccess } : LruCache K V) b = getEntry s b := by
    intro b hbne
    show ((s.entries.set id ({
      key := k, val := some v,
      expiry := newExpiry s expiry (getEntry s id).expiry,
      loading := (getEntry s id).loading,
      hasElem := (getEntry s id).hasElem } : Entry K V)).set id
      ({
      key := k, val := some v,
      expiry := newExpiry s expiry (getEntry s id).expiry,
      loading := (getEntry s id).loading,
      hasElem := true } : Entry K V)).getD b Entry.blank = _
    rw [getD_set_ne _ _ _ _ Entry.blank hbne, getD_set_ne _ _ _ _ Entry.blank hbne]
    rfl
  have hlmF : ListedMapped ({ setEntry (setEntry s id ({
      key := k, val := some v,
      expiry := newExpiry s expiry (getEntry s id).expiry,
      loading := (getEntry s id).loading,
      hasElem := (getEntry s id).hasElem } : Entry K V)) id
      ({
      key := k, val := some v,
      expiry := newExpiry s expiry (getEntry s id).expiry,
      loading := (getEntry s id).loading,
      hasElem := true } : Entry K V) with
      byAccess := id :: s.byAccess } : LruCache K V) := by
    intro b hb
    rcases List.mem_cons.mp hb with hb1 | hb2
    · rw [hb1]
      show lookupKey (getEntry ({ setEntry (setEntry s id ({
      key := k, val := some v,
      expiry := newExpiry s expiry (getEntry s id).expiry,
      loading := (getEntry s id).loading,
      hasElem := (getEntry s id).hasElem } : Entry K V)) id
      ({
      key := k, val := some v,
      expiry := newExpiry s expiry (getEntry s id).expiry,
      loading := (getEntry s id).loading,
      hasElem := true } : Entry K V) with
      byAccess := id :: s.byAccess } : LruCache K V) id).key s.byKey = some id
      rw [hselfF]
      exact hlkk
    · have hbne : b ≠ id := fun he => hnotl (he ▸ hb2)
      show lookupKey (getEntry ({ setEntry (setEntry s id ({
      key := k, val := some v,
      expiry := newExpiry s expiry (getEntry s id).expiry,
      loading := (getEntry s id).loading,
      hasElem := (getEntry s id).hasElem } : Entry K V)) id
      ({
      key := k, val := some v,
      expiry := newExpiry s expiry (getEntry s id).expiry,
      loading := (getEntry s id).loading,
      hasElem := true } : Entry K V) with
      byAccess := id :: s.byAccess } : LruCache K V) b).key s.byKey = some b
      rw [hfrF b hbne]
      exact hlm b hb2
  obtain ⟨q1, q2, q3, q4, q5, q6, q7⟩ :=
    evictFuel_gets (({ setEntry (setEntry s id ({
      key := k, val := some v,
      expiry := newExpiry s expiry (getEntry s id).expiry,
      loading := (getEntry s id).loading,
      hasElem := (getEntry s id).hasElem } : Entry K V)) id
      ({
      key := k, val := some v,
      expiry := newExpiry s expiry (getEntry s id).expiry,
      loading := (getEntry s id).loading,
      hasElem := true } : Entry K V) with
      byAccess := id :: s.byAccess } : LruCache K V).byAccess.length) ({ setEntry (setEntry s id ({
      key := k, val := some v,
      expiry := newExpiry s expiry (getEntry s id).expiry,
      loading := (getEntry s id).loading,
      hasElem := (getEntry s id).hasElem } : Entry K V)) id
      ({
      key := k, val := some v,
      expiry := newExpiry s expiry (getEntry s id).expiry,
      loading := (getEntry s id).loading,
      hasElem := true } : Entry K V) with
      byAccess := id :: s.byAccess } : LruCache K V) hndF hlmF
  constructor
  · rw [hput, hmf]
    show ListedMapped (evictFuel (({ setEntry (setEntry s id ({
      key := k, val := some v,
      expiry := newExpiry s expiry (getEntry s id).expiry,
      loading := (getEntry s id).loading,
      hasElem := (getEntry s id).hasElem } : Entry K V)) id
      ({
      key := k, val := some v,
      expiry := newExpiry s expiry (getEntry s id).expiry,
      loading := (getEntry s id).loading,
      hasElem := true } : Entry K V) with
      byAccess := id :: s.byAccess } : LruCache K V).byAccess.length) ({ setEntry (setEntry s id ({
      key := k, val := some v,
      expiry := newExpiry s expiry (getEntry s id).expiry,
      loading := (getEntry s id).loading,
      hasElem := (getEntry s id).hasElem } : Entry K V)) id
      ({
      key := k, val := some v,
      expiry := newExpiry s expiry (getEntry s id).expiry,
      loading := (getEntry s id).loading,
      hasElem := true } : Entry K V) with
      byAccess := id :: s.byAccess } : LruCache K V))
    exact q1
  · intro k2 hk2 id2 hlk2 hnot2
    have hne2 : id2 ≠ id := fun he =>
      hk2 (hvi _ (lookupKey_mem hlk2) _ (lookupKey_mem hlkk) (by rw [he]))
    have hm1 : lookupKey k2 ({ setEntry (setEntry s id ({
      key := k, val := some v,
      expiry := newExpiry s expiry (getEntry s id).expiry,
      loading := (getEntry s id).loading,
      hasElem := (getEntry s id).hasElem } : Entry K V)) id
      ({
      key := k, val := some v,
      expiry := newExpiry s expiry (getEntry s id).expiry,
      loading := (getEntry s id).loading,
      hasElem := true } : Entry K V) with
      byAccess := id :: s.byAccess } : LruCache K V).byKey = some id2 := hlk2
    have hm2 : id2 ∉ ({ setEntry (setEntry s id ({
      key := k, val := some v,
      expiry := newExpiry s expiry (getEntry s id).expiry,
      loading := (getEntry s id).loading,
      hasElem := (getEntry s id).hasElem } : Entry K V)) id
      ({
      key := k, val := some v,
      expiry := newExpiry s expiry (getEntry s id).expiry,
      loading := (getEntry s id).loading,
      hasElem := true } : Entry K V) with
      byAccess := id :: s.byAccess } : LruCache K V).byAccess := by
      intro hin
      rcases List.mem_cons.mp hin with h1 | h2
      · exact hne2 h1
      · exact hnot2 h2
    refine ⟨?_, ?_, ?_⟩
    · rw [hput, hmf]
      show lookupKey k2 (evictFuel (({ setEntry (setEntry s id ({
      key := k, val := some v,
      expiry := newExpiry s expiry (getEntry s id).expiry,
      loading := (getEntry s id).loading,
      hasElem := (getEntry s id).hasElem } : Entry K V)) id
      ({
      key := k, val := some v,
      expiry := newExpiry s expiry (getEntry s id).expiry,
      loading := (getEntry s id).loading,
      hasElem := true } : Entry K V) with
      byAccess := id :: s.byAccess } : LruCache K V).byAccess.length) ({ setEntry (setEntry s id ({
      key := k, val := some v,
      expiry := newExpiry s expiry (getEntry s id).expiry,
      loading := (getEntry s id).loading,
      hasElem := (getEntry s id).hasElem } : Entry K V)) id
      ({
      key := k, val := some v,
      expiry := newExpiry s expiry (getEntry s id).expiry,
      loading := (getEntry s id).loading,
      hasElem := true } : Entry K V) with
      byAccess := id :: s.byAccess } : LruCache K V)).byKey = some id2
      exact q5 k2 id2 hm1 hm2
    · rw [hput, hmf]
      show id2 ∉ (evictFuel (({ setEntry (setEntry s id ({
      key := k, val := some v,
      expiry := newExpiry s expiry (getEntry s id).expiry,
      loading := (getEntry s id).loading,
      hasElem := (getEntry s id).hasElem } : Entry K V)) id
      ({
      key := k, val := some v,
      expiry := newExpiry s expiry (getEntry s id).expiry,
      loading := (getEntry s id).loading,
      hasElem := true } : Entry K V) with
      byAccess := id :: s.byAccess } : LruCache K V).byAccess.length) ({ setEntry (setEntry s id ({
      key := k, val := some v,
      expiry := newExpiry s expiry (getEntry s id).expiry,
      loading := (getEntry s id).loading,
      hasElem := (getEntry s id).hasElem } : Entry K V)) id
      ({
      key := k, val := some v,
      expiry := newExpiry s expiry (getEntry s id).expiry,
      loading := (getEntry s id).loading,
      hasElem := true } : Entry K V) with
      byAccess := id :: s.byAccess } : LruCache K V)).byAccess
      intro hin
      exact hm2 (q4 id2 hin)
    · rw [hput, hmf]
      have hee : (evictFuel (({ setEntry (setEntry s id ({
      key := k, val := some v,
      expiry := newExpiry s expiry (getEntry s id).expiry,
      loading := (getEntry s id).loading,
      hasElem := (getEntry s id).hasElem } : Entry K V)) id
      ({
      key := k, val := some v,
      expiry := newExpiry s expiry (getEntry s id).expiry,
      loading := (getEntry s id).loading,
      hasElem := true } : Entry K V) with
      byAccess := id :: s.byAccess } : LruCache K V).byAccess.length) ({ setEntry (setEntry s id ({
      key := k, val := some v,
      expiry := newExpiry s expiry (getEntry s id).expiry,
      loading := (getEntry s id).loading,
      hasElem := (getEntry s id).hasElem } : Entry K V)) id
      ({
      key := k, val := some v,
      expiry := newExpiry s expiry (getEntry s id).expiry,
      loading := (getEntry s id).loading,
      hasElem := true } : Entry K V) with
      byAccess := id :: s.byAccess } : LruCache K V)).entries.getD id2
          Entry.blank = ({ setEntry (setEntry s id ({
      key := k, val := some v,
      expiry := newExpiry s expiry (getEntry s id).expiry,
      loading := (getEntry s id).loading,
      hasElem := (getEntry s id).hasElem } : Entry K V)) id
      ({
      key := k, val := some v,
      expiry := newExpiry s expiry (getEntry s id).expiry,
      loading := (getEntry s id).loading,
      hasElem := true } : Entry K V) with
      byAccess := id :: s.byAccess } : LruCache K V).entries.getD id2 Entry.blank := by
        rw [q3]
      show ((evictFuel (({ setEntry (setEntry s id ({
      key := k, val := some v,
      expiry := newExpiry s expiry (getEntry s id).expiry,
      loading := (getEntry s id).loading,
      hasElem := (getEntry s id).hasElem } : Entry K V)) id
      ({
      key := k, val := some v,
      expiry := newExpiry s expiry (getEntry s id).expiry,
      loading := (getEntry s id).loading,
      hasElem := true } : Entry K V) with
      byAccess := id :: s.byAccess } : LruCache K V).byAccess.length) ({ setEntry (setEntry s id ({
      key := k, val := some v,
      expiry := newExpiry s expiry (getEntry s id).expiry,
      loading := (getEntry s id).loading,
      hasElem := (getEntry s id).hasElem } : Entry K V)) id
      ({
      key := k, val := some v,
      expiry := newExpiry s expiry (getEntry s id).expiry,
      loading := (getEntry s id).loading,
      hasElem := true } : Entry K V) with
      byAccess := id :: s.byAccess } : LruCache K V)).entries.getD id2
        Entry.blank).hasElem = (getEntry s id2).hasElem
      rw [hee]
      exact congrArg Entry.hasElem (hfrF id2 hne2)


theorem loadComplete_gets_extra [Inhabited K] [DecidableEq K] (k : K)
    (id tok : Nat) (res : LoadRes V) (s : LruCache K V)
    (hnd : s.byAccess.Nodup) (hvi : ValInj s) (hmlt : MappedLt s)
    (hlm : ListedMapped s) (hlkk : lookupKey k s.byKey = some id)
    (hnotl : id ∉ s.byAccess) (hhasf : (getEntry s id).hasElem = false) :
    ListedMapped (loadComplete k id tok res s) ∧
    (∀ k2, k2 ≠ k → ∀ id2, lookupKey k2 s.byKey = some id2 → id2 ∉ s.byAccess →
      lookupKey k2 (loadComplete k id tok res s).byKey = some id2 ∧
      id2 ∉ (loadComplete k id tok res s).byAccess ∧
      (getEntry (loadComplete k id tok res s) id2).hasElem =
        (getEntry s id2).hasElem) := by
  have hid := hmlt _ (lookupKey_mem hlkk)
  have hfrM : ∀ b, b ≠ id → getEntry ({ setEntry s id { getEntry s id with loading := none } with
      closed := tok :: s.closed } : LruCache K V) b = getEntry s b := by
    intro b hbne
    exact getD_set_ne s.entries id b _ Entry.blank hbne
  have hselfM : getEntry ({ setEntry s id { getEntry s id with loading := none } with
      closed := tok :: s.closed } : LruCache K V) id = { getEntry s id with loading := none } :=
    getD_set_self s.entries id _ Entry.blank hid
  have hmlt2 : MappedLt ({ setEntry s id { getEntry s id with loading := none } with
      closed := tok :: s.closed } : LruCache K V) := by
    intro p hp
    have hp2 : p ∈ s.byKey := hp
    show p.2 < (s.entries.set id _).length
    rw [List.length_set]
    exact hmlt p hp2
  have hlm2 : ListedMapped ({ setEntry s id { getEntry s id with loading := none } with
      closed := tok :: s.closed } : LruCache K V) := by
    intro b hb
    have hb2 : b ∈ s.byAccess := hb
    have hbne : b ≠ id := fun he => hnotl (he ▸ hb2)
    show lookupKey (getEntry ({ setEntry s id { getEntry s id with loading := none } with
      closed := tok :: s.closed } : LruCache K V) b).key s.byKey = some b
    rw [hfrM b hbne]
    exact hlm b hb2
  have hhasf2 : (getEntry ({ setEntry s id { getEntry s id with loading := none } with
      closed := tok :: s.closed } : LruCache K V) id).hasElem = false := by
    rw [hselfM]
    exact hhasf
  cases res with
  | ok v expiry =>
    obtain ⟨p1, p2⟩ := putLocked_overwrite_gets k v expiry ({ setEntry s id { getEntry s id with loading := none } with
      closed := tok :: s.closed } : LruCache K V)
      id hnd hvi hmlt2 hlm2 hlkk hnotl hhasf2
    refine ⟨p1, ?_⟩
    intro k2 hk2 id2 hlk2 hnot2
    have hne2 : id2 ≠ id := fun he =>
      hk2 (hvi _ (lookupKey_mem hlk2) _ (lookupKey_mem hlkk) (by rw [he]))
    obtain ⟨r1, r2, r3⟩ := p2 k2 hk2 id2 hlk2 hnot2
    exact ⟨r1, r2, r3.trans (congrArg Entry.hasElem (hfrM id2 hne2))⟩
  | notFound =>
    refine ⟨?_, ?_⟩
    · intro b hb
      have hb2 : b ∈ s.byAccess := hb
      have hbne : b ≠ id := fun he => hnotl (he ▸ hb2)
      have hgb : getEntry (loadComplete k id tok LoadRes.notFound s) b =
          getEntry s b := hfrM b hbne
      have hkb : (getEntry s b).key ≠ k := by
        intro he
        have hq := hlm b hb2
        rw [he, hlkk] at hq
        exact hbne (Option.some_injective _ hq).symm
      show lookupKey (getEntry (loadComplete k id tok LoadRes.notFound s) b).key
        (eraseKey k s.byKey) = some b
      rw [hgb, lookupKey_eraseKey_ne _ hkb]
      exact hlm b hb2
    · intro k2 hk2 id2 hlk2 hnot2
      have hne2 : id2 ≠ id := fun he =>
        hk2 (hvi _ (lookupKey_mem hlk2) _ (lookupKey_mem hlkk) (by rw [he]))
      refine ⟨?_, hnot2, ?_⟩
      · show lookupKey k2 (eraseKey k s.byKey) = some id2
        rw [lookupKey_eraseKey_ne _ hk2]
        exact hlk2
      · have hgb : getEntry (loadComplete k id tok LoadRes.notFound s) id2 =
            getEntry s id2 := hfrM id2 hne2
        exact congrArg Entry.hasElem hgb
  | failure =>
    refine ⟨?_, ?_⟩
    · intro b hb
      have hb2 : b ∈ s.byAccess := hb
      have hbne : b ≠ id := fun he => hnotl (he ▸ hb2)
      have hgb : getEntry (loadComplete k id tok LoadRes.failure s) b =
          getEntry s b := hfrM b hbne
      have hkb : (getEntry s b).key ≠ k := by
        intro he
        have hq := hlm b hb2
        rw [he, hlkk] at hq
        exact hbne (Option.some_injective _ hq).symm
      show lookupKey (getEntry (loadComplete k id tok LoadRes.failure s) b).key
        (eraseKey k s.byKey) = some b
      rw [hgb, lookupKey_eraseKey_ne _ hkb]
      exact hlm b hb2
    · intro k2 hk2 id2 hlk2 hnot2
      have hne2 : id2 ≠ id := fun he =>
        hk2 (hvi _ (lookupKey_mem hlk2) _ (lookupKey_mem hlkk) (by rw [he]))
      refine ⟨?_, hnot2, ?_⟩
      · show lookupKey k2 (eraseKey k s.byKey) = some id2
        rw [lookupKey_eraseKey_ne _ hk2]
        exact hlk2
      · have hgb : getEntry (loadComplete k id tok LoadRes.failure s) id2 =
            getEntry s id2 := hfrM id2 hne2
        exact congrArg Entry.hasElem hgb


theorem getLocked_wait_of_loading [Inhabited K] [DecidableEq K] (k : K)
    (s : LruCache K V) (id2 tok2 : Nat)
    (hl2 : lookupKey k s.byKey = some id2)
    (hld2 : (getEntry s id2).loading = some tok2) :
    getLocked k s = (s, GetSection.waitOn tok2) := by
  unfold getLocked
  simp only [hl2, hld2]

theorem sysOKGets_runGet [Inhabited K] [DecidableEq K] (k : K) (sys : Sys K V)
    (i : Nat) (h : SysOKGets sys) :
    SysOKGets (⟨(runGetSection k sys.cache).1,
      sys.threads.set i (runGetSection k sys.cache).2⟩ : Sys K V) := by
  obtain ⟨hOK, hlm, hLoad, hToks, hGL, hCB⟩ := h
  obtain ⟨hInv, hTok, hInj⟩ := hOK
  have hOK2 := sysOK_runGet k sys i ⟨hInv, hTok, hInj⟩
  obtain ⟨hext1, hext2, hext3, hext4, hext5, hext6⟩ :=
    getLocked_gets_extra k sys.cache hInv hlm
  rcases hg : getLocked k sys.cache with ⟨c2, r⟩
  have hc1 : (getLocked k sys.cache).1 = c2 := by rw [hg]
  rw [hc1] at hext1 hext2 hext3 hext4 hext5 hext6
  cases r with
  | waitOn tok =>
    have hrg : runGetSection k sys.cache = (c2, TState.waiting k tok) := by
      simp only [runGetSection, hg]
    rw [hrg] at hOK2 ⊢
    obtain ⟨hse, _⟩ := getLocked_waitOn hg
    refine ⟨hOK2, hext1, ?_, toks_set_no_load sys c2 i _ hToks rfl, ?_, ?_⟩
    · intro t ht
      rcases List.mem_or_eq_of_mem_set ht with htold | htnew
      · cases t with
        | inLoad k2 id2 tok2 =>
          obtain ⟨lo1, lo2, lo3, lo4, lo5⟩ := hLoad _ htold
          rw [hse]
          exact ⟨lo1, lo2, lo3, lo4, lo5⟩
        | getStart k1 => trivial
        | waiting k1 t1 => trivial
        | putStart k1 v1 e1 => trivial
        | halted r1 => trivial
        | haltedPut => trivial
      · rw [htnew]; trivial
    · intro t ht
      rcases List.mem_or_eq_of_mem_set ht with htold | htnew
      · exact hGL t htold
      · rw [htnew]; rfl
    · intro tk htk
      rw [hext4] at htk
      exact lt_of_lt_of_le (hCB tk htk) hext3
  | hit v =>
    have hrg : runGetSection k sys.cache =
        (c2, TState.halted (GetRes.hit v)) := by
      simp only [runGetSection, hg]
    rw [hrg] at hOK2 ⊢
    refine ⟨hOK2, hext1, ?_, toks_set_no_load sys c2 i _ hToks rfl, ?_, ?_⟩
    · intro t ht
      rcases List.mem_or_eq_of_mem_set ht with htold | htnew
      · cases t with
        | inLoad k2 id2 tok2 =>
          obtain ⟨lo1, lo2, lo3, lo4, lo5⟩ := hLoad _ htold
          obtain ⟨to1, to2, to3, to4⟩ := hTok _ htold
          have hk2ne : k2 ≠ k := by
            intro he
            subst he
            have hw := getLocked_wait_of_loading k2 sys.cache id2 tok2 lo1 to2
            have hx := hg.symm.trans hw
            exact GetSection.noConfusion (congrArg Prod.snd hx)
          refine ⟨?_, ?_, ?_, ?_, ?_⟩
          · rw [hext2 k2 hk2ne]
            exact lo1
          · rw [hext4]
            exact lo2
          · exact lt_of_lt_of_le lo3 hext3
          · intro hin
            rcases hext5 _ hin with hx | hx
            · exact lo4 hx
            · rw [hx] at to1
              exact absurd to1 (lt_irrefl _)
          · rw [hext6 id2 to1]
            exact lo5
        | getStart k1 => trivial
        | waiting k1 t1 => trivial
        | putStart k1 v1 e1 => trivial
        | halted r1 => trivial
        | haltedPut => trivial
      · rw [htnew]; trivial
    · intro t ht
      rcases List.mem_or_eq_of_mem_set ht with htold | htnew
      · exact hGL t htold
      · rw [htnew]; rfl
    · intro tk htk
      rw [hext4] at htk
      exact lt_of_lt_of_le (hCB tk htk) hext3
  | missNoLoader =>
    have hrg : runGetSection k sys.cache =
        (c2, TState.halted GetRes.notFound) := by
      simp only [runGetSection, hg]
    rw [hrg] at hOK2 ⊢
    refine ⟨hOK2, hext1, ?_, toks_set_no_load sys c2 i _ hToks rfl, ?_, ?_⟩
    · intro t ht
      rcases List.mem_or_eq_of_mem_set ht with htold | htnew
      · cases t with
        | inLoad k2 id2 tok2 =>
          obtain ⟨lo1, lo2, lo3, lo4, lo5⟩ := hLoad _ htold
          obtain ⟨to1, to2, to3, to4⟩ := hTok _ htold
          have hk2ne : k2 ≠ k := by
            intro he
            subst he
            have hw := getLocked_wait_of_loading k2 sys.cache id2 tok2 lo1 to2
            have hx := hg.symm.trans hw
            exact GetSection.noConfusion (congrArg Prod.snd hx)
          refine ⟨?_, ?_, ?_, ?_, ?_⟩
          · rw [hext2 k2 hk2ne]
            exact lo1
          · rw [hext4]
            exact lo2
          · exact lt_of_lt_of_le lo3 hext3
          · intro hin
            rcases hext5 _ hin with hx | hx
            · exact lo4 hx
            · rw [hx] at to1
              exact absurd to1 (lt_irrefl _)
          · rw [hext6 id2 to1]
            exact lo5
        | getStart k1 => trivial
        | waiting k1 t1 => trivial
        | putStart k1 v1 e1 => trivial
        | halted r1 => trivial
        | haltedPut => trivial
      · rw [htnew]; trivial
    · intro t ht
      rcases List.mem_or_eq_of_mem_set ht with htold | htnew
      · exact hGL t htold
      · rw [htnew]; rfl
    · intro tk htk
      rw [hext4] at htk
      exact lt_of_lt_of_le (hCB tk htk) hext3
  | startLoad id tok =>
    have hrg : runGetSection k sys.cache = (c2, TState.inLoad k id tok) := by
      simp only [runGetSection, hg]
    rw [hrg] at hOK2 ⊢
    obtain ⟨hI2, hidq, htokq, hlenq, hlkq, hgeq, hkeysq, hsubq, hfrq,
      hbaq, hnotq, hclq, hntq, hlfq, hmsq, httlq, hnowq, _⟩ :=
      getLocked_startLoad hInv hg
    refine ⟨hOK2, hext1, ?_, ?_, ?_, ?_⟩
    · intro t ht
      rcases List.mem_or_eq_of_mem_set ht with htold | htnew
      · cases t with
        | inLoad k2 id2 tok2 =>
          obtain ⟨lo1, lo2, lo3, lo4, lo5⟩ := hLoad _ htold
          obtain ⟨to1, to2, to3, to4⟩ := hTok _ htold
          have hk2ne : k2 ≠ k := by
            intro he
            subst he
            have hw := getLocked_wait_of_loading k2 sys.cache id2 tok2 lo1 to2
            have hx := hg.symm.trans hw
            exact GetSection.noConfusion (congrArg Prod.snd hx)
          refine ⟨?_, ?_, ?_, ?_, ?_⟩
          · rw [hext2 k2 hk2ne]
            exact lo1
          · rw [hext4]
            exact lo2
          · exact lt_of_lt_of_le lo3 hext3
          · intro hin
            rcases hext5 _ hin with hx | hx
            · exact lo4 hx
            · rw [hx] at to1
              exact absurd to1 (lt_irrefl _)
          · rw [hext6 id2 to1]
            exact lo5
        | getStart k1 => trivial
        | waiting k1 t1 => trivial
        | putStart k1 v1 e1 => trivial
        | halted r1 => trivial
        | haltedPut => trivial
      · rw [htnew]
        refine ⟨hlkq, ?_, ?_, hnotq, ?_⟩
        · rw [hclq]
          intro hin
          have := hCB tok hin
          rw [htokq] at this
          exact absurd this (lt_irrefl _)
        · rw [hntq, htokq]
          omega
        · rw [hgeq]
    · intro i1 j1 k1 k2 id1 id2 tok1 h1 h2
      by_cases e1 : i = i1
      · by_cases e2 : i = j1
        · rw [← e1, ← e2]
        · subst e1
          rw [List.getElem?_set_self'] at h1
          cases hx : sys.threads[i]? with
          | none => rw [hx] at h1; cases h1
          | some x =>
            rw [hx] at h1
            have h1b : some (TState.inLoad k id tok) =
                some (TState.inLoad k1 id1 tok1) := h1
            injection h1b with h1c
            injection h1c with ek eid etok
            rw [List.getElem?_set_ne e2] at h2
            have hmem2 := mem_of_getElem_opt h2
            obtain ⟨_, _, hlt2, _⟩ := hLoad _ hmem2
            exfalso
            rw [← etok, htokq] at hlt2
            exact absurd hlt2 (lt_irrefl _)
      · by_cases e2 : i = j1
        · subst e2
          rw [List.getElem?_set_ne e1] at h1
          rw [List.getElem?_set_self'] at h2
          cases hx : sys.threads[i]? with
          | none => rw [hx] at h2; cases h2
          | some x =>
            rw [hx] at h2
            have h2b : some (TState.inLoad k id tok) =
                some (TState.inLoad k2 id2 tok1) := h2
            injection h2b with h2c
            injection h2c with ek eid etok
            have hmem1 := mem_of_getElem_opt h1
            obtain ⟨_, _, hlt1, _⟩ := hLoad _ hmem1
            exfalso
            rw [← etok, htokq] at hlt1
            exact absurd hlt1 (lt_irrefl _)
        · rw [List.getElem?_set_ne e1] at h1
          rw [List.getElem?_set_ne e2] at h2
          exact hToks i1 j1 k1 k2 id1 id2 tok1 h1 h2
    · intro t ht
      rcases List.mem_or_eq_of_mem_set ht with htold | htnew
      · exact hGL t htold
      · rw [htnew]; rfl
    · intro tk htk
      rw [hclq] at htk
      rw [hntq]
      exact Nat.lt_succ_of_lt (hCB tk htk)

theorem sysOKGets_applyAct [Inhabited K] [DecidableEq K] (a : Act V)
    (s1 s2 : Sys K V) (h : SysOKGets s1) (ha : applyAct a s1 = some s2) :
    SysOKGets s2 := by
  obtain ⟨hOK, hlm, hLoad, hToks, hGL, hCB⟩ := h
  have hOK2 : SysOK s2 := sysOK_applyAct a s1 s2 hOK ha
  obtain ⟨hInv, hTok, hInj⟩ := hOK
  cases a with
  | start i =>
    cases hti : s1.threads[i]? with
    | none =>
      simp only [applyAct, hti] at ha
      exact Option.noConfusion ha
    | some t =>
      cases t with
      | getStart k =>
        simp only [applyAct, hti] at ha
        injection ha with ha2
        subst ha2
        exact sysOKGets_runGet k s1 i
          ⟨⟨hInv, hTok, hInj⟩, hlm, hLoad, hToks, hGL, hCB⟩
      | putStart k v expiry =>
        exfalso
        have hx := hGL _ (mem_of_getElem_opt hti)
        simp [TState.isGetLike] at hx
      | waiting k1 t1 =>
        simp only [applyAct, hti] at ha
        exact Option.noConfusion ha
      | inLoad k1 i1 t1 =>
        simp only [applyAct, hti] at ha
        exact Option.noConfusion ha
      | halted r1 =>
        simp only [applyAct, hti] at ha
        exact Option.noConfusion ha
      | haltedPut =>
        simp only [applyAct, hti] at ha
        exact Option.noConfusion ha
  | wake i =>
    cases hti : s1.threads[i]? with
    | none =>
      simp only [applyAct, hti] at ha
      exact Option.noConfusion ha
    | some t =>
      cases t with
      | waiting k tok =>
        simp only [applyAct, hti] at ha
        split_ifs at ha with hcl
        injection ha with ha2
        subst ha2
        exact sysOKGets_runGet k s1 i
          ⟨⟨hInv, hTok, hInj⟩, hlm, hLoad, hToks, hGL, hCB⟩
      | getStart k1 =>
        simp only [applyAct, hti] at ha
        exact Option.noConfusion ha
      | inLoad k1 i1 t1 =>
        simp only [applyAct, hti] at ha
        exact Option.noConfusion ha
      | putStart k1 v1 e1 =>
        simp only [applyAct, hti] at ha
        exact Option.noConfusion ha
      | halted r1 =>
        simp only [applyAct, hti] at ha
        exact Option.noConfusion ha
      | haltedPut =>
        simp only [applyAct, hti] at ha
        exact Option.noConfusion ha
  | cancel i =>
    cases hti : s1.threads[i]? with
    | none =>
      simp only [applyAct, hti] at ha
      exact Option.noConfusion ha
    | some t =>
      cases t with
      | waiting k tok =>
        simp only [applyAct, hti] at ha
        injection ha with ha2
        subst ha2
        refine ⟨hOK2, hlm, ?_,
          toks_set_no_load s1 _ i _ hToks rfl, ?_, hCB⟩
        · intro t ht
          rcases List.mem_or_eq_of_mem_set ht with htold | htnew
          · exact hLoad t htold
          · rw [htnew]; trivial
        · intro t ht
          rcases List.mem_or_eq_of_mem_set ht with htold | htnew
          · exact hGL t htold
          · rw [htnew]; rfl
      | getStart k1 =>
        simp only [applyAct, hti] at ha
        exact Option.noConfusion ha
      | inLoad k1 i1 t1 =>
        simp only [applyAct, hti] at ha
        exact Option.noConfusion ha
      | putStart k1 v1 e1 =>
        simp only [applyAct, hti] at ha
        exact Option.noConfusion ha
      | halted r1 =>
        simp only [applyAct, hti] at ha
        exact Option.noConfusion ha
      | haltedPut =>
        simp only [applyAct, hti] at ha
        exact Option.noConfusion ha
  | finish i res =>
    cases hti : s1.threads[i]? with
    | none =>
      simp only [applyAct, hti] at ha
      exact Option.noConfusion ha
    | some t =>
      cases t with
      | inLoad k id tok =>
        simp only [applyAct, hti] at ha
        injection ha with ha2
        subst ha2
        have hmem_i := mem_of_getElem_opt hti
        obtain ⟨to1, to2, to3, to4⟩ := hTok _ hmem_i
        obtain ⟨lo1, lo2, lo3, lo4, lo5⟩ := hLoad _ hmem_i
        obtain ⟨⟨c1, c2m, c3, c4, c5, c6, c7⟩, c8⟩ := hInv
        obtain ⟨xlm, xfr⟩ := loadComplete_gets_extra k id tok res s1.cache
          c7 c4 c2m hlm lo1 lo4 lo5
        obtain ⟨l1, l2, l3, l4, l5, l6, l7, l8, l9, l10, l11⟩ :=
          loadComplete_frames k id tok res s1.cache c2m to1
        refine ⟨hOK2, xlm, ?_,
          toks_set_no_load s1 _ i _ hToks (by cases res <;> rfl), ?_, ?_⟩
        · intro t ht
          obtain ⟨j, hj⟩ := List.mem_iff_getElem?.mp ht
          by_cases hji : i = j
          · subst hji
            rw [List.getElem?_set_self', hti] at hj
            have hjt : some (loadHalt res) = some t := hj
            injection hjt with hjt2
            rw [← hjt2]
            cases res with
            | ok v e => trivial
            | notFound => trivial
            | failure => trivial
          · rw [List.getElem?_set_ne hji] at hj
            have hmem := mem_of_getElem_opt hj
            cases t with
            | inLoad k2 id2 tok2 =>
              obtain ⟨po1, po2, po3, po4, po5⟩ := hLoad _ hmem
              have hk2ne : k2 ≠ k := by
                intro he
                subst he
                have heq : id = id2 := Option.some_injective _ (lo1.symm.trans po1)
                exact hji (hInj i j k2 k2 id tok tok2 hti
                  (by rw [heq]; exact hj))
              obtain ⟨r1, r2, r3⟩ := xfr k2 hk2ne id2 po1 po4
              refine ⟨r1, ?_, ?_, r2, r3.trans po5⟩
              · rw [l2]
                intro hin
                rcases List.mem_cons.mp hin with hx | hx
                · exact hji (hToks i j k k2 id id2 tok hti
                    (by rw [← hx]; exact hj))
                · exact po2 hx
              · rw [l3]
                exact po3
            | getStart k1 => trivial
            | waiting k1 t1 => trivial
            | putStart k1 v1 e1 => trivial
            | halted r1 => trivial
            | haltedPut => trivial
        · intro t ht
          rcases List.mem_or_eq_of_mem_set ht with htold | htnew
          · exact hGL t htold
          · rw [htnew]
            cases res with
            | ok v e => rfl
            | notFound => rfl
            | failure => rfl
        · intro tk htk
          rw [l2] at htk
          rw [l3]
          rcases List.mem_cons.mp htk with hx | hx
          · rw [hx]
            exact lo3
          · exact hCB tk hx
      | getStart k1 =>
        simp only [applyAct, hti] at ha
        exact Option.noConfusion ha
      | waiting k1 t1 =>
        simp only [applyAct, hti] at ha
        exact Option.noConfusion ha
      | putStart k1 v1 e1 =>
        simp only [applyAct, hti] at ha
        exact Option.noConfusion ha
      | halted r1 =>
        simp only [applyAct, hti] at ha
        exact Option.noConfusion ha
      | haltedPut =>
        simp only [applyAct, hti] at ha
        exact Option.noConfusion ha
  | tick d =>
    simp only [applyAct] at ha
    injection ha with ha2
    subst ha2
    refine ⟨hOK2, hlm, hLoad, ?_, hGL, hCB⟩
    intro i1 j1 k1 k2 id1 id2 tok1 h1 h2
    exact hToks i1 j1 k1 k2 id1 id2 tok1 h1 h2

theorem sysOKGets_reachable [Inhabited K] [DecidableEq K] (s1 s2 : Sys K V)
    (h : SysOKGets s1) (hr : ReachableSys s1 s2) : SysOKGets s2 := by
  induction hr with
  | refl => exact h
  | tail hpre hstep ih =>
    obtain ⟨a, ha⟩ := hstep
    exact sysOKGets_applyAct a _ _ ih ha

/-- C6 (amended): in get-only workloads the single-flight guarantee holds:
in every reachable state, any two threads with an in-flight load for the
same key are the same thread (all but the first wait on the load signal),
while loads for distinct keys may run concurrently.  The unqualified claim
is false: a put overlapping a load re-lists and then evicts the loading
placeholder, after which a second load for the same key starts while the
first is still in flight. -/
theorem single_flight_get_only [Inhabited K] [DecidableEq K]
    (sys1 sys2 : Sys K V) (h : SysOKGets sys1) (hr : ReachableSys sys1 sys2) :
    ∀ (i j : Nat) (k : K) (id tok id2 tok2 : Nat),
      sys2.threads[i]? = some (TState.inLoad k id tok) →
      sys2.threads[j]? = some (TState.inLoad k id2 tok2) → i = j := by
  have h2 := sysOKGets_reachable sys1 sys2 h hr
  intro i j k id tok id2 tok2 h1 hj
  obtain ⟨⟨hInv, hTok, hInj⟩, hlm, hLoad, hToks, hGL, hCB⟩ := h2
  have lo1 := (hLoad _ (mem_of_getElem_opt h1)).1
  have lo2 := (hLoad _ (mem_of_getElem_opt hj)).1
  have heq : id = id2 := Option.some_injective _ (lo1.symm.trans lo2)
  exact hInj i j k k id tok tok2 h1 (by rw [heq]; exact hj)

theorem single_flight_get_only_witness : (0 : Nat) = 0 :=
  single_flight_get_only getOnlyInit getOnlyFinal
    ⟨⟨inv_newLRUCache 1 0 0 (some fixedLoadFn),
      fun t ht => threadOK_not_inLoad _ t
        ((by decide : ∀ t2 ∈ getOnlyInit.threads, t2.isInLoad = false) t ht),
      inLoadIdsInj_no_load _ (by decide)⟩,
     fun b hb => absurd hb (List.not_mem_nil b),
     fun t ht => loadOK_not_inLoad _ t
       ((by decide : ∀ t2 ∈ getOnlyInit.threads, t2.isInLoad = false) t ht),
     inLoadToksInj_no_load _ (by decide),
     by decide,
     fun tk htk => absurd htk (List.not_mem_nil tk)⟩
    (runActs_reachable [Act.start 0] getOnlyInit getOnlyFinal rfl)
    0 0 "a" 0 0 0 0 (by decide) (by decide)

end GolibCache
